import Mathlib

/-!
# Segmented sound tracks (sound_seg.c)

A shallow embedding of the segment graph of `sound_seg.c` and proofs about it.

Modelling conventions.

* Pointers are natural-number identities into three arenas (blocks, segments,
  tracks); `malloc` hands out the next unused identity and always succeeds,
  `free` empties the slot.  A track identity that is not live plays the role of
  the `NULL` track pointer.
* Every loop of the source is a recursive function on a `fuel` argument that
  bounds the number of iterations; running out of fuel, dereferencing a dead
  segment or block, and a `memcpy` outside its buffers all yield `none`.
* `size_t` and `uint16_t` values are natural numbers and every addition on them
  wraps explicitly (`size_add`, `u16_inc`): the sums of caller-supplied arguments
  (`pos + len`, `srcpos + len`), the running sums over a chain
  (`total += head->length`, `seg_start + seg->length`, `cur_pos += seg->length`),
  the advancing positions of `tr_read`, `tr_write` and `tr_identify`, the
  arithmetic of `split_segment` and both reference counters.  A subtraction that
  the source guards by a comparison is a `Nat` subtraction; indices into sample
  buffers (pointer arithmetic) are natural numbers, and an index outside the
  buffer yields `none`.
* `double` arithmetic in `tr_identify` is IEEE 754 binary64 arithmetic with
  rounding to nearest, ties to even: a `double` is the rational number it
  denotes, and every conversion, product, sum and quotient is the exact
  operation followed by `round_double`.  The values met there are 0 or of a
  magnitude between `2 ^ (-64)` and `2 ^ 95`, well inside the normal range.
-/

namespace SoundSeg

/-- Modulus of `size_t` (LP64). -/
def SIZE_MOD : Nat := 2 ^ 64

/-- Modulus of `uint16_t`, the type of both reference counters. -/
def UINT16_MOD : Nat := 2 ^ 16

/-- Addition of two `size_t` values. -/
def size_add (a b : Nat) : Nat := (a + b) % SIZE_MOD

/-- Subtraction of two `size_t` values. -/
def size_sub (a b : Nat) : Nat := (a + SIZE_MOD - b % SIZE_MOD) % SIZE_MOD

/-- Increment of a `uint16_t` counter. -/
def u16_inc (r : Nat) : Nat := (r + 1) % UINT16_MOD

/-- Decrement of a `uint16_t` counter. -/
def u16_dec (r : Nat) : Nat := (r + (UINT16_MOD - 1)) % UINT16_MOD

/-- The struct `audio_block`: `data` holds the `int16_t` samples. -/
structure audio_block where
  length : Nat
  refcount : Nat
  data : List Int
  deriving DecidableEq

/-- The struct `segment`; `children` is the `segment_child` list, head first. -/
structure segment where
  offset : Nat
  length : Nat
  parent : Option Nat
  children : List Nat
  next : Option Nat
  block : Nat
  refcount : Nat
  deriving DecidableEq

/-- The struct `sound_seg`. -/
structure sound_seg where
  head : Option Nat
  deriving DecidableEq

/-- The heap: three arenas and their allocation counters. -/
structure Heap where
  blocks : Nat → Option audio_block
  segs : Nat → Option segment
  tracks : Nat → Option sound_seg
  nextBlock : Nat
  nextSeg : Nat
  nextTrack : Nat

/-- Point update of an arena. -/
def upd {α : Type} (f : Nat → Option α) (i : Nat) (v : Option α) : Nat → Option α :=
  fun j => if j = i then v else f j

/-- The heap with segment slot `i` replaced. -/
def Heap.setSeg (h : Heap) (i : Nat) (s : Option segment) : Heap :=
  { h with segs := upd h.segs i s }

/-- The heap with block slot `i` replaced. -/
def Heap.setBlock (h : Heap) (i : Nat) (b : Option audio_block) : Heap :=
  { h with blocks := upd h.blocks i b }

/-- The heap with track slot `i` replaced. -/
def Heap.setTrack (h : Heap) (i : Nat) (t : Option sound_seg) : Heap :=
  { h with tracks := upd h.tracks i t }

/-- `malloc` of a segment initialised to `s`: it gets the identity `h.nextSeg`. -/
def Heap.allocSeg (h : Heap) (s : segment) : Heap :=
  { h with segs := upd h.segs h.nextSeg (some s), nextSeg := h.nextSeg + 1 }

/-- `malloc` of a block initialised to `b`: it gets the identity `h.nextBlock`. -/
def Heap.allocBlock (h : Heap) (b : audio_block) : Heap :=
  { h with blocks := upd h.blocks h.nextBlock (some b), nextBlock := h.nextBlock + 1 }

/-- The heap before any call. -/
def Heap.empty : Heap :=
  { blocks := fun _ => none, segs := fun _ => none, tracks := fun _ => none,
    nextBlock := 0, nextSeg := 0, nextTrack := 0 }

/-- `memcpy(dst + doff, src + soff, n * sizeof(int16_t))` on sample buffers. -/
def memcpy (dst : List Int) (doff : Nat) (src : List Int) (soff n : Nat) : Option (List Int) :=
  if doff + n ≤ dst.length ∧ soff + n ≤ src.length then
    some (dst.take doff ++ (src.drop soff).take n ++ dst.drop (doff + n))
  else none

/-- `tr_init`: a new empty track. -/
def tr_init (h : Heap) : Heap × Nat :=
  ({ h with tracks := upd h.tracks h.nextTrack (some ⟨none⟩), nextTrack := h.nextTrack + 1 },
   h.nextTrack)

/-- `segment_chain_length`: the loop, `total` being its accumulator. -/
def segment_chain_length (h : Heap) : Nat → Option Nat → Nat → Option Nat
  | _, none, total => some total
  | 0, some _, _ => none
  | fuel + 1, some i, total =>
    match h.segs i with
    | none => none
    | some s => segment_chain_length h fuel s.next (size_add total s.length)

/-- `tr_length`. -/
def tr_length (fuel : Nat) (h : Heap) (track : Nat) : Option Nat :=
  match h.tracks track with
  | none => some 0
  | some t => segment_chain_length h fuel t.head 0

/-- The loop of `tr_read`. -/
def tr_read_loop (h : Heap) :
    Nat → Option Nat → Nat → Nat → Nat → Nat → List Int → Option (List Int)
  | _, none, _, _, _, _, dest => some dest
  | fuel, some i, seg_start, pos, dest_offset, to_read, dest =>
    if to_read = 0 then some dest else
    match fuel with
    | 0 => none
    | fuel + 1 =>
      match h.segs i with
      | none => none
      | some s =>
        let seg_end := size_add seg_start s.length
        if pos < seg_end then
          let local_offset := if pos > seg_start then pos - seg_start else 0
          let readable := s.length - local_offset
          let chunk := if to_read < readable then to_read else readable
          match h.blocks s.block with
          | none => none
          | some b =>
            match memcpy dest dest_offset b.data (s.offset + local_offset) chunk with
            | none => none
            | some dest1 =>
              tr_read_loop h fuel s.next (size_add seg_start s.length) (size_add pos chunk)
                (size_add dest_offset chunk) (to_read - chunk) dest1
        else
          tr_read_loop h fuel s.next (size_add seg_start s.length) pos dest_offset to_read dest

/-- `tr_read`: the buffer `dest` after the call. -/
def tr_read (fuel : Nat) (h : Heap) (track : Nat) (dest : List Int) (pos len : Nat) :
    Option (List Int) :=
  match tr_length fuel h track with
  | none => none
  | some track_len =>
    match h.tracks track with
    | none => some dest
    | some t =>
      if pos ≥ track_len ∨ len = 0 then some dest else
      let available := track_len - pos
      let to_read := if len < available then len else available
      tr_read_loop h fuel t.head 0 pos 0 to_read dest

/-- `find_segment_tail`. -/
def find_segment_tail (h : Heap) : Nat → Option Nat → Option (Option Nat)
  | _, none => some none
  | 0, some _ => none
  | fuel + 1, some i =>
    match h.segs i with
    | none => none
    | some s =>
      match s.next with
      | none => some (some i)
      | some j => find_segment_tail h fuel (some j)

/-- `append_segment(track, src + soff, len)`: a new block and one new segment at the tail. -/
def append_segment (fuel : Nat) (h : Heap) (track : Nat) (src : List Int) (soff len : Nat) :
    Option Heap :=
  match h.tracks track with
  | none => some h
  | some t =>
    if len = 0 then some h else
    match memcpy (List.replicate len 0) 0 src soff len with
    | none => none
    | some d =>
      let block := h.nextBlock
      let seg := h.nextSeg
      let h2 := (h.allocBlock ⟨len, 1, d⟩).allocSeg ⟨0, len, none, [], none, block, 0⟩
      match t.head with
      | none => some (h2.setTrack track (some ⟨some seg⟩))
      | some hd =>
        match find_segment_tail h2 fuel (some hd) with
        | some (some tail) =>
          match h2.segs tail with
          | none => none
          | some ts => some (h2.setSeg tail (some { ts with next := some seg }))
        | _ => none

/-- The loop of `tr_write`; it returns the heap, `src_offset` and the remaining `len`. -/
def tr_write_loop (track_len : Nat) (src : List Int) :
    Nat → Heap → Option Nat → Nat → Nat → Nat → Nat → Option (Heap × Nat × Nat)
  | _, h, none, _, _, src_offset, len => some (h, src_offset, len)
  | fuel, h, some i, seg_start, pos, src_offset, len =>
    if pos < track_len ∧ len > 0 then
      match fuel with
      | 0 => none
      | fuel + 1 =>
        match h.segs i with
        | none => none
        | some s =>
          let seg_end := size_add seg_start s.length
          if pos < seg_end then
            let local_offset := if pos > seg_start then pos - seg_start else 0
            let available := s.length - local_offset
            let to_write := if len < available then len else available
            match h.blocks s.block with
            | none => none
            | some b =>
              match memcpy b.data (s.offset + local_offset) src src_offset to_write with
              | none => none
              | some d =>
                tr_write_loop track_len src fuel
                  (h.setBlock s.block (some { b with data := d })) s.next
                  (size_add seg_start s.length) (size_add pos to_write)
                  (size_add src_offset to_write) (len - to_write)
          else
            tr_write_loop track_len src fuel h s.next (size_add seg_start s.length) pos
              src_offset len
    else some (h, src_offset, len)

/-- `tr_write`. -/
def tr_write (fuel : Nat) (h : Heap) (track : Nat) (src : List Int) (pos len : Nat) :
    Option Heap :=
  match tr_length fuel h track with
  | none => none
  | some track_len =>
    match h.tracks track with
    | none => some h
    | some t =>
      if len = 0 then some h else
      match tr_write_loop track_len src fuel h t.head 0 pos 0 len with
      | none => none
      | some (h1, src_offset, len1) =>
        if len1 > 0 then append_segment fuel h1 track src src_offset len1 else some h1

/-- `can_delete_segment`. -/
def can_delete_segment (s : segment) : Bool :=
  if s.refcount > 0 then false else true

/-- The loop of `can_delete_range`. -/
def can_delete_range_loop (h : Heap) (pos len : Nat) : Nat → Option Nat → Nat → Option Bool
  | _, none, _ => some true
  | 0, some _, _ => none
  | fuel + 1, some i, seg_start =>
    match h.segs i with
    | none => none
    | some s =>
      let seg_end := size_add seg_start s.length
      if seg_end > pos ∧ seg_start < size_add pos len then
        if ¬ can_delete_segment s then some false
        else can_delete_range_loop h pos len fuel s.next (size_add seg_start s.length)
      else can_delete_range_loop h pos len fuel s.next (size_add seg_start s.length)

/-- `can_delete_range`. -/
def can_delete_range (fuel : Nat) (h : Heap) (track pos len : Nat) : Option Bool :=
  match tr_length fuel h track with
  | none => none
  | some track_len =>
    match h.tracks track with
    | none => some false
    | some t =>
      if pos ≥ track_len ∨ len = 0 then some false else
      let len1 := if size_add pos len > track_len then track_len - pos else len
      can_delete_range_loop h pos len1 fuel t.head 0

/-- `add_child_to_parent`: the new entry goes to the front of the list. -/
def add_child_to_parent (h : Heap) (parent : Option Nat) (child : Nat) : Option Heap :=
  match parent with
  | none => some h
  | some p =>
    match h.segs p with
    | none => none
    | some ps => some (h.setSeg p (some { ps with children := child :: ps.children }))

/-- `remove_child_from_parent`: the first entry for `seg` is unlinked. -/
def remove_child_from_parent (h : Heap) (seg : Nat) : Option Heap :=
  match h.segs seg with
  | none => none
  | some s =>
    match s.parent with
    | none => some h
    | some p =>
      match h.segs p with
      | none => none
      | some ps => some (h.setSeg p (some { ps with children := ps.children.erase seg }))

/-- The loop over the saved children list in `split_segment`. -/
def split_children (f : Heap → Nat → Option Heap) : List Nat → Heap → Option Heap
  | [], h => some h
  | c :: cs, h =>
    match f h c with
    | none => none
    | some h1 => split_children f cs h1

/-- `split_segment`. -/
def split_segment : Nat → Heap → Nat → Nat → Option Nat → Option Nat → Option Heap
  | 0, _, _, _, _, _ => none
  | fuel + 1, h, seg, cut_down, left_parent, right_parent =>
    match h.segs seg with
    | none => none
    | some s =>
      if cut_down = 0 ∨ cut_down = s.length then some h else
      match h.blocks s.block with
      | none => none
      | some b =>
        let new_seg := h.nextSeg
        let h1 := h.allocSeg { s with length := size_sub s.length cut_down,
                                      offset := size_add s.offset cut_down,
                                      parent := right_parent }
        let h2 := h1.setBlock s.block (some { b with refcount := u16_inc b.refcount })
        let h3 := h2.setSeg seg
          (some { s with length := cut_down, next := some new_seg, parent := left_parent })
        match add_child_to_parent h3 left_parent seg with
        | none => none
        | some h4 =>
          match add_child_to_parent h4 right_parent new_seg with
          | none => none
          | some h5 =>
            match h5.segs seg, h5.segs new_seg with
            | some s5, some n5 =>
              let children := s5.children
              let h6 := (h5.setSeg seg (some { s5 with children := [] })).setSeg new_seg
                (some { n5 with children := [] })
              split_children
                (fun hh c => split_segment fuel hh c cut_down (some seg) (some new_seg))
                children h6
            | _, _ => none

/-- The ascent to the root in `recursive_split`. -/
def find_root (h : Heap) : Nat → Nat → Option Nat
  | 0, _ => none
  | fuel + 1, seg =>
    match h.segs seg with
    | none => none
    | some s =>
      match s.parent with
      | none => some seg
      | some p => find_root h fuel p

/-- `recursive_split`. -/
def recursive_split (fuel : Nat) (h : Heap) (seg cut_down : Nat) : Option Heap :=
  match find_root h fuel seg with
  | none => none
  | some root => split_segment fuel h root cut_down none none

/-- `destroy_seg`. -/
def destroy_seg (h : Heap) (seg : Nat) : Option Heap :=
  match h.segs seg with
  | none => none
  | some s =>
    match h.blocks s.block with
    | none => none
    | some b =>
      let rc := u16_dec b.refcount
      let h1 := if rc = 0 then h.setBlock s.block none
                else h.setBlock s.block (some { b with refcount := rc })
      some (h1.setSeg seg none)

/-- `tr_destroy`: the loop over the chain, then the track itself is freed. -/
def tr_destroy_loop (track : Nat) : Nat → Heap → Option Heap
  | 0, _ => none
  | fuel + 1, h =>
    match h.tracks track with
    | none => none
    | some t =>
      match t.head with
      | none => some h
      | some to_delete =>
        match h.segs to_delete with
        | none => none
        | some s =>
          match destroy_seg (h.setTrack track (some ⟨s.next⟩)) to_delete with
          | none => none
          | some h1 => tr_destroy_loop track fuel h1

/-- `tr_destroy`. -/
def tr_destroy (fuel : Nat) (h : Heap) (track : Nat) : Option Heap :=
  match h.tracks track with
  | none => some h
  | some _ =>
    match tr_destroy_loop track fuel h with
    | none => none
    | some h1 => some (h1.setTrack track none)

/-- The inner loop of `tr_delete_range` that moves `prev` up to the node before `seg`. -/
def advance_prev (h : Heap) (seg : Nat) : Nat → Option Nat → Option (Option Nat)
  | _, none => some none
  | 0, some _ => none
  | fuel + 1, some p =>
    match h.segs p with
    | none => none
    | some ps =>
      if ps.next ≠ some seg then advance_prev h seg fuel ps.next else some (some p)

/-- The main loop of `tr_delete_range`; `F` is the fuel handed to the calls it makes. -/
def tr_delete_range_loop (F track pos len : Nat) :
    Nat → Heap → Option Nat → Option Nat → Nat → Option Heap
  | _, h, none, _, _ => some h
  | 0, _, some _, _, _ => none
  | fuel + 1, h, some seg, prev, cur_pos =>
    match h.segs seg with
    | none => none
    | some s =>
      let seg_start := cur_pos
      let seg_end := size_add seg_start s.length
      if pos < seg_end ∧ size_add pos len > seg_start then
        let del_start := if pos > seg_start then pos - seg_start else 0
        let del_end :=
          if size_add pos len < seg_end then size_add pos len - seg_start else s.length
        match recursive_split F h seg del_end with
        | none => none
        | some h1 =>
          match recursive_split F h1 seg del_start with
          | none => none
          | some h2 =>
            match advance_prev h2 seg F prev with
            | none => none
            | some prev1 =>
              match h2.segs seg with
              | none => none
              | some s2 =>
                if del_start = 0 then
                  -- unlink `seg`, then release it
                  let unlinked : Option Heap :=
                    match prev1 with
                    | some p =>
                      match h2.segs p with
                      | none => none
                      | some ps => some (h2.setSeg p (some { ps with next := s2.next }))
                    | none =>
                      match h2.tracks track with
                      | none => none
                      | some _ => some (h2.setTrack track (some ⟨s2.next⟩))
                  match unlinked with
                  | none => none
                  | some h3 =>
                    let dropped : Option Heap :=
                      match s2.parent with
                      | none => some h3
                      | some p =>
                        match h3.segs p with
                        | none => none
                        | some ps =>
                          some (h3.setSeg p (some { ps with refcount := u16_dec ps.refcount }))
                    match dropped with
                    | none => none
                    | some h4 =>
                      match h4.segs seg with
                      | none => none
                      | some s4 =>
                        match remove_child_from_parent h4 seg with
                        | none => none
                        | some h5 =>
                          match destroy_seg h5 seg with
                          | none => none
                          | some h6 =>
                            tr_delete_range_loop F track pos len fuel h6 s4.next prev1
                              (size_add cur_pos s4.length)
                else
                  tr_delete_range_loop F track pos len fuel h2 s2.next (some seg)
                    (size_add cur_pos s2.length)
      else
        tr_delete_range_loop F track pos len fuel h s.next (some seg)
          (size_add cur_pos s.length)

/-- `tr_delete_range`: the returned flag and the heap after the call. -/
def tr_delete_range (fuel : Nat) (h : Heap) (track pos len : Nat) : Option (Bool × Heap) :=
  match tr_length fuel h track with
  | none => none
  | some track_len =>
    match h.tracks track with
    | none => some (false, h)
    | some t =>
      if pos ≥ track_len ∨ len = 0 then some (false, h) else
      match can_delete_range fuel h track pos len with
      | none => none
      | some false => some (false, h)
      | some true =>
        let len1 := if size_add pos len > track_len then track_len - pos else len
        match tr_delete_range_loop fuel track pos len1 fuel h t.head none 0 with
        | none => none
        | some h1 => some (true, h1)

/-- The number of binary digits of `n` after the leading one: `2 ^ k ≤ n < 2 ^ (k + 1)` for
`n > 0`; the first argument bounds the number of halvings. -/
def bit_length : Nat → Nat → Nat
  | 0, _ => 0
  | fuel + 1, n => if n < 2 then 0 else bit_length fuel (n / 2) + 1

/-- The binary exponent of the positive fraction `a / d`: the integer `e` with
`2 ^ e ≤ a / d < 2 ^ (e + 1)`. -/
def binary_exponent (a d : Nat) : Int :=
  let e0 : Int := (bit_length a a : Int) - (bit_length d d : Int)
  if e0 ≥ 0 then (if d * 2 ^ e0.toNat ≤ a then e0 else e0 - 1)
  else (if d ≤ a * 2 ^ (-e0).toNat then e0 else e0 - 1)

/-- The integer nearest to `n / d`, a tie going to the even one. -/
def round_half_even (n d : Nat) : Nat :=
  let q := n / d
  let r := n % d
  if 2 * r < d then q else if 2 * r > d then q + 1 else if q % 2 = 0 then q else q + 1

/-- The `double` nearest to a real value (IEEE 754 binary64, round to nearest, ties to
even): for `2 ^ e ≤ |x| < 2 ^ (e + 1)` the nearest multiple of `2 ^ (e - 52)`.  Every
operation on `double` values in `tr_identify` is the exact operation followed by this
rounding. -/
def round_double (x : ℚ) : ℚ :=
  if x.num = 0 then 0 else
  let a := x.num.natAbs
  let e := binary_exponent a x.den
  let m : ℚ :=
    if e ≥ 52 then
      ((round_half_even a (x.den * 2 ^ (e - 52).toNat) * 2 ^ (e - 52).toNat : Nat) : ℚ)
    else
      ((round_half_even (a * 2 ^ (52 - e).toNat) x.den : Nat) : ℚ) /
        ((2 ^ (52 - e).toNat : Nat) : ℚ)
  if x.num < 0 then -m else m

/-- The constant `0.95` of the source: the `double` nearest to 19/20. -/
def double_0_95 : ℚ := round_double (19 / 20)

/-- One step of the inner `for` loops of `tr_identify`:
`acc += (double)x * (double)y` in `double` arithmetic. -/
def mul_add_double (acc : ℚ) (x y : Int) : ℚ :=
  round_double (acc + round_double (round_double (x : ℚ) * round_double (y : ℚ)))

/-- The inner `for` loops of `tr_identify`: the sum of `tdata[pos + i] * adata[i]`
for the `n` indices from `i` on, added to `acc`. -/
def correlate (tdata adata : List Int) (pos : Nat) : Nat → Nat → ℚ → Option ℚ
  | 0, _, acc => some acc
  | n + 1, i, acc =>
    match tdata[pos + i]?, adata[i]? with
    | some x, some y => correlate tdata adata pos n (i + 1) (mul_add_double acc x y)
    | _, _ => none

/-- The statement `x = x / ad_len` on a `double` `x`: `ad_len` is converted to `double`
and the quotient is rounded. -/
def div_len_double (x : ℚ) (ad_len : Nat) : ℚ :=
  round_double (x / round_double (ad_len : ℚ))

/-- The scan of `tr_identify` over the window positions. -/
def tr_identify_loop (tdata adata : List Int) (target_len ad_len : Nat) (reference : ℚ) :
    Nat → Nat → String → Bool → Option String
  | fuel, pos, results, first_result =>
    if size_add pos ad_len ≤ target_len then
      match fuel with
      | 0 => none
      | fuel + 1 =>
        match correlate tdata adata pos ad_len 0 0 with
        | none => none
        | some c =>
          let correlation := div_len_double c ad_len
          if correlation ≥ round_double (double_0_95 * reference) then
            let end_pos := size_sub (size_add pos ad_len) 1
            let temp_buffer :=
              if first_result then toString pos ++ "," ++ toString end_pos
              else "\n" ++ toString pos ++ "," ++ toString end_pos
            tr_identify_loop tdata adata target_len ad_len reference fuel (size_add end_pos 1)
              (results ++ temp_buffer) false
          else
            tr_identify_loop tdata adata target_len ad_len reference fuel (size_add pos 1)
              results first_result
    else some results

/-- `tr_identify`: the returned string. -/
def tr_identify (fuel : Nat) (h : Heap) (target ad : Nat) : Option String :=
  match tr_length fuel h target, tr_length fuel h ad with
  | some target_len, some ad_len =>
    match h.tracks target, h.tracks ad with
    | some t, some a =>
      match t.head, a.head with
      | some th, some ah =>
        if target_len = 0 ∨ ad_len = 0 ∨ ad_len > target_len then some "" else
        match h.segs th, h.segs ah with
        | some ts, some as =>
          match h.blocks ts.block, h.blocks as.block with
          | some tb, some ab =>
            match correlate ab.data ab.data 0 ad_len 0 0 with
            | none => none
            | some r =>
              let reference := div_len_double r ad_len
              tr_identify_loop tb.data ab.data target_len ad_len reference fuel 0 "" true
          | _, _ => none
        | _, _ => none
      | _, _ => some ""
    | _, _ => some ""
  | _, _ => none

/-- The loop of `extract_segment_slice`; it returns the heap and `result_head_final`. -/
def extract_segment_slice_loop (F : Nat) :
    Nat → Heap → Option Nat → Nat → Nat → Nat → Option Nat → Option (Heap × Option Nat)
  | _, h, none, _, _, _, result_head_final => some (h, result_head_final)
  | fuel, h, some seg, cur_pos, srcpos, len, result_head_final =>
    if len = 0 then some (h, result_head_final) else
    match fuel with
    | 0 => none
    | fuel + 1 =>
      match h.segs seg with
      | none => none
      | some s =>
        let seg_start := cur_pos
        let seg_end := size_add seg_start s.length
        if srcpos ≥ seg_end then
          extract_segment_slice_loop F fuel h s.next (size_add cur_pos s.length) srcpos len
            result_head_final
        else
          let local_start := if srcpos > seg_start then srcpos - seg_start else 0
          let available := s.length - local_start
          let take := if len < available then len else available
          match recursive_split F h seg (size_add local_start take) with
          | none => none
          | some h1 =>
            match recursive_split F h1 seg local_start with
            | none => none
            | some h2 =>
              if local_start = 0 then
                match h2.segs seg with
                | none => none
                | some s2 =>
                  let new_seg := h2.nextSeg
                  let h3 := h2.allocSeg s2
                  match add_child_to_parent h3 (some seg) new_seg with
                  | none => none
                  | some h4 =>
                    let h5 := h4.setSeg new_seg
                      (some { s2 with children := [], parent := some seg, refcount := 0,
                                      next := none })
                    match h5.segs seg with
                    | none => none
                    | some s5 =>
                      let h6 := h5.setSeg seg (some { s5 with refcount := u16_inc s5.refcount })
                      match h6.blocks s5.block with
                      | none => none
                      | some b =>
                        let h7 := h6.setBlock s5.block
                          (some { b with refcount := u16_inc b.refcount })
                        match find_segment_tail h7 F result_head_final with
                        | none => none
                        | some tail =>
                          let linked : Option (Heap × Option Nat) :=
                            match tail with
                            | none => some (h7, some new_seg)
                            | some tl =>
                              match h7.segs tl with
                              | none => none
                              | some ts =>
                                some (h7.setSeg tl (some { ts with next := some new_seg }),
                                      result_head_final)
                          match linked with
                          | none => none
                          | some (h8, result1) =>
                            match h8.segs seg with
                            | none => none
                            | some s8 =>
                              extract_segment_slice_loop F fuel h8 s8.next
                                (size_add cur_pos s8.length) (size_add srcpos take)
                                (len - take) result1
              else
                match h2.segs seg with
                | none => none
                | some s2 =>
                  extract_segment_slice_loop F fuel h2 s2.next (size_add cur_pos s2.length)
                    srcpos len result_head_final

/-- `extract_segment_slice`. -/
def extract_segment_slice (fuel : Nat) (h : Heap) (src_track srcpos len : Nat) :
    Option (Heap × Option Nat) :=
  match tr_length fuel h src_track with
  | none => none
  | some track_len =>
    match h.tracks src_track with
    | none => some (h, none)
    | some t =>
      if len = 0 ∨ size_add srcpos len > track_len then some (h, none) else
      extract_segment_slice_loop fuel fuel h t.head 0 srcpos len none

/-- The tail of `insert_chain` gets `next` as successor (`tail->next = next`). -/
def link_tail (fuel : Nat) (h : Heap) (insert_chain : Nat) (next : Option Nat) : Option Heap :=
  match find_segment_tail h fuel (some insert_chain) with
  | some (some tail) =>
    match h.segs tail with
    | none => none
    | some ts => some (h.setSeg tail (some { ts with next := next }))
  | _ => none

/-- The loop of `insert_segment_chain`. -/
def insert_segment_chain_loop (F track destpos insert_chain : Nat) :
    Nat → Heap → Option Nat → Option Nat → Nat → Option (Bool × Heap)
  | _, h, none, _, _ =>
    match h.tracks track with
    | none => none
    | some t =>
      match find_segment_tail h F t.head with
      | none => none
      | some (some tail) =>
        match h.segs tail with
        | none => none
        | some ts => some (true, h.setSeg tail (some { ts with next := some insert_chain }))
      | some none => some (true, h.setTrack track (some ⟨some insert_chain⟩))
  | 0, _, some _, _, _ => none
  | fuel + 1, h, some seg, prev, cur_pos =>
    match h.segs seg with
    | none => none
    | some s =>
      let seg_start := cur_pos
      let seg_end := size_add seg_start s.length
      if destpos ≤ seg_end then
        let local_offset := destpos - seg_start
        if local_offset = 0 then
          match find_segment_tail h F (some insert_chain) with
          | some (some tail) =>
            let relinked : Option Heap :=
              match prev with
              | some p =>
                match h.segs p with
                | none => none
                | some ps => some (h.setSeg p (some { ps with next := some insert_chain }))
              | none =>
                match h.tracks track with
                | none => none
                | some _ => some (h.setTrack track (some ⟨some insert_chain⟩))
            match relinked with
            | none => none
            | some h1 =>
              match h1.segs tail with
              | none => none
              | some ts => some (true, h1.setSeg tail (some { ts with next := some seg }))
          | _ => none
        else if local_offset = s.length then
          match link_tail F h insert_chain s.next with
          | none => none
          | some h1 =>
            match h1.segs seg with
            | none => none
            | some s1 => some (true, h1.setSeg seg (some { s1 with next := some insert_chain }))
        else
          match recursive_split F h seg local_offset with
          | none => none
          | some h1 =>
            match h1.segs seg with
            | none => none
            | some s1 =>
              match link_tail F h1 insert_chain s1.next with
              | none => none
              | some h2 =>
                match h2.segs seg with
                | none => none
                | some s2 =>
                  some (true, h2.setSeg seg (some { s2 with next := some insert_chain }))
      else
        insert_segment_chain_loop F track destpos insert_chain fuel h s.next (some seg)
          (size_add cur_pos s.length)

/-- `insert_segment_chain`. -/
def insert_segment_chain (fuel : Nat) (h : Heap) (track destpos : Nat)
    (insert_chain : Option Nat) : Option (Bool × Heap) :=
  match tr_length fuel h track with
  | none => none
  | some track_len =>
    match h.tracks track, insert_chain with
    | some t, some chain =>
      if destpos > track_len then some (false, h) else
      if destpos = 0 then
        match link_tail fuel h chain t.head with
        | none => none
        | some h1 => some (true, h1.setTrack track (some ⟨some chain⟩))
      else insert_segment_chain_loop fuel track destpos chain fuel h t.head none 0
    | _, _ => some (false, h)

/-- `tr_insert`. -/
def tr_insert (fuel : Nat) (h : Heap) (src_track dest_track destpos srcpos len : Nat) :
    Option Heap :=
  match tr_length fuel h src_track, tr_length fuel h dest_track with
  | some src_len, some dest_len =>
    match h.tracks src_track, h.tracks dest_track with
    | some _, some _ =>
      if len = 0 then some h else
      if size_add srcpos len > src_len ∨ destpos > dest_len then some h else
      match extract_segment_slice fuel h src_track srcpos len with
      | none => none
      | some (h1, ref_chain) =>
        match ref_chain with
        | none => some h1
        | some _ =>
          match insert_segment_chain fuel h1 dest_track destpos ref_chain with
          | none => none
          | some (_, h2) => some h2
    | _, _ => some h
  | _, _ => none

/-- The whole track read back: `tr_read` of `tr_length` samples from position 0 into a
zeroed buffer of that size. -/
def read_all (fuel : Nat) (h : Heap) (track : Nat) : Option (List Int) :=
  match tr_length fuel h track with
  | none => none
  | some n => tr_read fuel h track (List.replicate n 0) 0 n

/-! ## Specification-level notions -/

/-- The segment identities `l` met from pointer `p` by following `next` until the
pointer `q` is reached. -/
def ChainTo (h : Heap) : Option Nat → List Nat → Option Nat → Prop
  | p, [], q => p = q
  | p, i :: l, q => p = some i ∧ ∃ s, h.segs i = some s ∧ ChainTo h s.next l q

/-- The segment identities met from pointer `p` by following `next` up to `NULL`. -/
def Chain (h : Heap) (p : Option Nat) (l : List Nat) : Prop := ChainTo h p l none

/-- A cell of sample storage: a block identity and an index into its data. -/
abbrev Cell := Nat × Nat

/-- The cells a segment views, in order. -/
def seg_cells (s : segment) : List Cell :=
  (List.range s.length).map (fun k => (s.block, s.offset + k))

/-- The cells viewed by a list of segments, in order. -/
def nodes_cells (h : Heap) : List Nat → List Cell
  | [] => []
  | i :: l =>
    (match h.segs i with
     | some s => seg_cells s
     | none => []) ++ nodes_cells h l

/-- The sample stored in a cell. -/
def cell_value (h : Heap) (c : Cell) : Int :=
  match h.blocks c.1 with
  | some b => b.data.getD c.2 0
  | none => 0

/-- The view of a segment lies inside a live block. -/
def SegInBlock (h : Heap) (s : segment) : Prop :=
  ∃ b, h.blocks s.block = some b ∧ s.offset + s.length ≤ b.data.length

/-- Track `t` is live, its chain is the list `l` of segments, and every segment of the
chain views cells inside a live block. -/
def TrackChain (h : Heap) (t : Nat) (l : List Nat) : Prop :=
  (∃ tr, h.tracks t = some tr ∧ Chain h tr.head l) ∧
  ∀ i ∈ l, ∀ s, h.segs i = some s → SegInBlock h s

/-- The logical sample sequence of a chain. -/
def nodes_samples (h : Heap) (l : List Nat) : List Int :=
  (nodes_cells h l).map (cell_value h)

/-- Overwriting the part of `dest` from `off` on by `xs`. -/
def splice (dest : List Int) (off : Nat) (xs : List Int) : List Int :=
  dest.take off ++ xs ++ dest.drop (off + xs.length)

/-- Storing the sample `v` in cell `c`. -/
def store_cell (h : Heap) (c : Cell) (v : Int) : Heap :=
  match h.blocks c.1 with
  | some b => h.setBlock c.1 (some { b with data := b.data.set c.2 v })
  | none => h

/-- Storing the samples `vs` in the cells `cs`, one after the other. -/
def store_cells (h : Heap) : List Cell → List Int → Heap
  | c :: cs, v :: vs => store_cells (store_cell h c v) cs vs
  | _, _ => h

/-- The cell is an element of the data of a live block. -/
def CellLive (h : Heap) (c : Cell) : Prop :=
  ∃ b, h.blocks c.1 = some b ∧ c.2 < b.data.length

/-- Track `t` is a well-formed chain `l` whose segments and blocks were handed out by the
allocator of `h`. -/
def TrackOK (h : Heap) (t : Nat) (l : List Nat) : Prop :=
  TrackChain h t l ∧ (∀ i ∈ l, i < h.nextSeg) ∧
  ∀ i ∈ l, ∀ s, h.segs i = some s → s.block < h.nextBlock

/-- The part of a write at `pos` of `len` samples that falls on existing samples of the
chain `l`. -/
def covered (h : Heap) (l : List Nat) (pos len : Nat) : Nat :=
  min len ((nodes_cells h l).length - pos)

/-- The heap after the overwriting part of a write. -/
def overwritten (h : Heap) (l : List Nat) (src : List Int) (pos len : Nat) : Heap :=
  store_cells h (((nodes_cells h l).drop pos).take (covered h l pos len))
    (src.take (covered h l pos len))

/-- Deciding a property of the segment stored at `i`, if there is one. -/
instance decidableSegAll (h : Heap) (i : Nat) (P : segment → Prop) [∀ s, Decidable (P s)] :
    Decidable (∀ s, h.segs i = some s → P s) :=
  match h.segs i with
  | none => isTrue (fun s hs1 => by cases hs1)
  | some s0 =>
    if hp : P s0 then isTrue (fun s hs1 => by cases hs1; exact hp)
    else isFalse (fun hall => hp (hall s0 rfl))

/-- Deciding `ChainTo` by walking the list. -/
instance decidableChainTo (h : Heap) :
    (l : List Nat) → (p q : Option Nat) → Decidable (ChainTo h p l q)
  | [], p, q => inferInstanceAs (Decidable (p = q))
  | i :: l, p, q =>
    match hs : h.segs i with
    | none => isFalse (fun hc => by
        obtain ⟨_, s, hs1, _⟩ := hc
        rw [hs] at hs1; cases hs1)
    | some s0 =>
      match decidableChainTo h l s0.next q with
      | isTrue hc =>
        if hp : p = some i then isTrue ⟨hp, s0, hs, hc⟩
        else isFalse (fun hc1 => hp hc1.1)
      | isFalse hc => isFalse (fun hc1 => by
          obtain ⟨_, s, hs1, hc2⟩ := hc1
          rw [hs] at hs1; cases hs1; exact hc hc2)

/-- Deciding `Chain`. -/
instance decidableChain (h : Heap) (p : Option Nat) (l : List Nat) : Decidable (Chain h p l) :=
  decidableChainTo h l p none

/-- Deciding `SegInBlock`. -/
instance decidableSegInBlock (h : Heap) (s : segment) : Decidable (SegInBlock h s) :=
  match hb : h.blocks s.block with
  | none => isFalse (fun hx => by
      obtain ⟨b, hb1, _⟩ := hx
      rw [hb] at hb1; cases hb1)
  | some b0 =>
    if hl : s.offset + s.length ≤ b0.data.length then isTrue ⟨b0, hb, hl⟩
    else isFalse (fun hx => by
      obtain ⟨b, hb1, hl1⟩ := hx
      rw [hb] at hb1; cases hb1; exact hl hl1)

/-- Deciding `TrackChain`. -/
instance decidableTrackChain (h : Heap) (t : Nat) (l : List Nat) :
    Decidable (TrackChain h t l) :=
  match ht : h.tracks t with
  | none => isFalse (fun hx => by
      obtain ⟨⟨tr, htr, _⟩, _⟩ := hx
      rw [ht] at htr; cases htr)
  | some tr0 =>
    if hc : Chain h tr0.head l ∧ ∀ i ∈ l, ∀ s, h.segs i = some s → SegInBlock h s then
      isTrue ⟨⟨tr0, ht, hc.1⟩, hc.2⟩
    else isFalse (fun hx => by
      obtain ⟨⟨tr, htr, hc1⟩, hin⟩ := hx
      rw [ht] at htr; cases htr; exact hc ⟨hc1, hin⟩)

/-- Deciding `TrackOK`. -/
instance decidableTrackOK (h : Heap) (t : Nat) (l : List Nat) : Decidable (TrackOK h t l) :=
  inferInstanceAs (Decidable (TrackChain h t l ∧ (∀ i ∈ l, i < h.nextSeg) ∧
    ∀ i ∈ l, ∀ s, h.segs i = some s → s.block < h.nextBlock))

/-- The sum of `target[pos + i] * ad[i]` over the indices `i` of `ad`. -/
def window_sum (target ad : List Int) (pos : Nat) : ℚ :=
  (List.zipWith (fun (x y : Int) => (x : ℚ) * (y : ℚ)) (target.drop pos) ad).sum

/-- The scan of the specification: from `pos` on, while the window fits, a window whose
normalised correlation reaches 0.95 of the reference energy is emitted and the scan
continues after it, otherwise it continues at the next position. -/
def identify_scan (target ad : List Int) : Nat → Nat → List (Nat × Nat)
  | 0, _ => []
  | fuel + 1, pos =>
    if pos + ad.length ≤ target.length then
      if window_sum target ad pos / (ad.length : ℚ)
          ≥ 0.95 * (window_sum ad ad 0 / (ad.length : ℚ)) then
        (pos, pos + ad.length - 1) :: identify_scan target ad fuel (pos + ad.length)
      else identify_scan target ad fuel (pos + 1)
    else []

/-- The result of the specification for `identify` on the sample sequences of the two
tracks: the matches in order, one `start,end` per line. -/
def identify_reference (target ad : List Int) : String :=
  if target = [] ∨ ad = [] ∨ ad.length > target.length then ""
  else String.intercalate "\n"
    ((identify_scan target ad (target.length + 1) 0).map
      (fun p => toString p.1 ++ "," ++ toString p.2))

/-- The sum of `target[pos + i] * ad[i]` over the indices `i` of `ad` as the source
accumulates it: in `double` arithmetic, from the first index on. -/
def window_sum_double (target ad : List Int) (pos : Nat) : ℚ :=
  (List.zip (target.drop pos) ad).foldl (fun acc p => mul_add_double acc p.1 p.2) 0

/-- The scan of the specification with the arithmetic of the source: the sums, the two
divisions by the length of the ad and the product with 0.95 are `double` operations. -/
def identify_scan_double (target ad : List Int) : Nat → Nat → List (Nat × Nat)
  | 0, _ => []
  | fuel + 1, pos =>
    if pos + ad.length ≤ target.length then
      if div_len_double (window_sum_double target ad pos) ad.length
          ≥ round_double (double_0_95 * div_len_double (window_sum_double ad ad 0) ad.length)
      then (pos, pos + ad.length - 1) :: identify_scan_double target ad fuel (pos + ad.length)
      else identify_scan_double target ad fuel (pos + 1)
    else []

/-- The result of the specification for `identify` with the arithmetic of the source: the
matches of `identify_scan_double` in order, one `start,end` per line. -/
def identify_reference_double (target ad : List Int) : String :=
  if target = [] ∨ ad = [] ∨ ad.length > target.length then ""
  else String.intercalate "\n"
    ((identify_scan_double target ad (target.length + 1) 0).map
      (fun p => toString p.1 ++ "," ++ toString p.2))

/-- Track `t` is empty (and `xs` is empty), or it is one segment at offset 0 of a block
whose data is the non-empty `xs`: the tracks left by `tr_init` and at most one `tr_write`
at position 0. -/
def SingleAtZero (h : Heap) (t : Nat) (xs : List Int) : Prop :=
  (h.tracks t = some ⟨none⟩ ∧ xs = []) ∨
  ∃ i s b, h.tracks t = some ⟨some i⟩ ∧ h.segs i = some s ∧ s.next = none ∧ s.offset = 0 ∧
    s.length = xs.length ∧ h.blocks s.block = some b ∧ b.data = xs ∧ xs ≠ []

/-- The text built from `results` by appending the lines `ls`. -/
def join_lines (results : String) (first_result : Bool) : List String → String
  | [] => results
  | s :: ss => join_lines (results ++ (if first_result then s else "\n" ++ s)) false ss

/-- The preorder lists of the subtrees of a list of children, concatenated. -/
def preorder_list (f : Nat → Option (List Nat)) : List Nat → Option (List Nat)
  | [] => some []
  | c :: cs =>
    match f c with
    | none => none
    | some a =>
      match preorder_list f cs with
      | none => none
      | some b => some (a ++ b)

/-- The segments of the family tree below `y` (with `y`), in the order in which
`split_segment` visits them; `fuel` bounds the depth. -/
def preorder (h : Heap) : Nat → Nat → Option (List Nat)
  | 0, _ => none
  | fuel + 1, y =>
    match h.segs y with
    | none => none
    | some s =>
      match preorder_list (preorder h fuel) s.children with
      | none => none
      | some L => some (y :: L)

/-- The successor of segment `z` in its chain (0 when there is none). -/
def nx (h : Heap) (z : Nat) : Nat :=
  match h.segs z with
  | some s => s.next.getD 0
  | none => 0

/-- Local well-formedness of the live segment `s` stored at `i`. -/
def NodeOK (h : Heap) (i : Nat) (s : segment) : Prop :=
  i < h.nextSeg ∧ 0 < s.length ∧ s.block < h.nextBlock ∧
  (∃ b, h.blocks s.block = some b ∧ s.offset + s.length ≤ b.data.length ∧
    b.data.length < SIZE_MOD) ∧
  (∀ p, s.parent = some p → p < i ∧ ∃ ps, h.segs p = some ps ∧ i ∈ ps.children ∧
    ps.block = s.block ∧ ps.offset = s.offset ∧ ps.length = s.length) ∧
  s.children.Nodup ∧
  ∀ c ∈ s.children, ∃ cs, h.segs c = some cs ∧ cs.parent = some i

/-- Well-formedness of the segment graph. -/
def HeapWF (h : Heap) : Prop := ∀ i s, h.segs i = some s → NodeOK h i s

/-- The `k`-th ancestor of `z`. -/
def upk (h : Heap) : Nat → Nat → Option Nat
  | 0, z => some z
  | k + 1, z =>
    match h.segs z with
    | none => none
    | some s =>
      match s.parent with
      | none => none
      | some p => upk h k p

/-- The left half of a split node: shortened to `cut`, followed by `nxt`; the children
list is rebuilt by the recursion in reverse order. -/
def left_half (sz : segment) (cut nxt : Nat) : segment :=
  { sz with length := cut, next := some nxt, children := sz.children.reverse }

/-- The right half of a split node; `ν` maps a split node to its right half. -/
def right_half (sz : segment) (cut : Nat) (ν : Nat → Nat) : segment :=
  { sz with offset := sz.offset + cut, length := sz.length - cut,
            parent := sz.parent.map ν, children := sz.children.reverse.map ν }

/-- What a propagated split needs of the nodes `L` it visits: they are distinct, live, of
one geometry `(blk, off, len)` with the cut strictly inside, and the children lists agree
with the parent pointers. -/
def TreePre (g : Heap) (L : List Nat) (cut : Nat) (b : audio_block) (blk off len : Nat) :
    Prop :=
  L.Nodup ∧
  (∀ z ∈ L, ∃ sz, g.segs z = some sz ∧ sz.block = blk ∧ sz.offset = off ∧ sz.length = len ∧
    z < g.nextSeg) ∧
  (∀ z ∈ L, ∀ sz, g.segs z = some sz → ∀ d ∈ sz.children,
    ∃ sd, g.segs d = some sd ∧ sd.parent = some z) ∧
  g.blocks blk = some b ∧ 0 < cut ∧ cut < len ∧ off + len < SIZE_MOD

/-- The effect of a propagated split on the visited nodes `L`: every node is halved, its
right half is a fresh node reached by `next`, and the right halves mirror the tree. -/
def SplitPost (g g1 : Heap) (L : List Nat) (cut : Nat) (b : audio_block) (blk : Nat) : Prop :=
  g1.nextSeg = g.nextSeg + L.length ∧ g1.tracks = g.tracks ∧ g1.nextBlock = g.nextBlock ∧
  g1.nextTrack = g.nextTrack ∧
  g1.blocks = upd g.blocks blk (some { b with refcount := u16_inc^[L.length] b.refcount }) ∧
  (∀ z ∈ L, ∀ sz, g.segs z = some sz →
    g.nextSeg ≤ nx g1 z ∧ nx g1 z < g1.nextSeg ∧
    g1.segs z = some (left_half sz cut (nx g1 z)) ∧
    g1.segs (nx g1 z) = some (right_half sz cut (nx g1))) ∧
  (∀ z1 ∈ L, ∀ z2 ∈ L, nx g1 z1 = nx g1 z2 → z1 = z2) ∧
  (∀ j, g.nextSeg ≤ j → j < g1.nextSeg → ∃ z ∈ L, nx g1 z = j) ∧
  (∀ z ∈ L, ∀ sz p, g.segs z = some sz → sz.parent = some p → nx g1 p < nx g1 z)

/-- The heap `h1` is `h` with the nodes `L` halved at `cut`: blocks keep their data, every
node of `L` is followed by its fresh right half, and nothing else is touched. -/
def Expands (h h1 : Heap) (L : List Nat) (cut : Nat) : Prop :=
  h1.tracks = h.tracks ∧ h1.nextTrack = h.nextTrack ∧ h1.nextBlock = h.nextBlock ∧
  h.nextSeg ≤ h1.nextSeg ∧
  (∀ blk, Option.map audio_block.data (h1.blocks blk) =
    Option.map audio_block.data (h.blocks blk)) ∧
  (∀ z ∈ L, ∃ sz, h.segs z = some sz ∧ 0 < cut ∧ cut < sz.length ∧
    h.nextSeg ≤ nx h1 z ∧ nx h1 z < h1.nextSeg ∧
    h1.segs z = some (left_half sz cut (nx h1 z)) ∧
    h1.segs (nx h1 z) = some (right_half sz cut (nx h1))) ∧
  (∀ z1 ∈ L, ∀ z2 ∈ L, nx h1 z1 = nx h1 z2 → z1 = z2) ∧
  (∀ j, j ∉ L → (∀ z ∈ L, nx h1 z ≠ j) → h1.segs j = h.segs j)

/-- The statement proved of `split_segment` on a tree explored with fuel `F`. -/
def NodeStmt (F : Nat) : Prop :=
  ∀ (F1 : Nat) (g : Heap) (y cut : Nat) (L : List Nat) (lp rp : Option Nat)
    (b : audio_block) (blk off len : Nat) (sy : segment),
    F ≤ F1 → preorder g F y = some L → TreePre g L cut b blk off len →
    g.segs y = some sy → sy.parent = lp → rp = lp.map (nx g) →
    (∀ p, lp = some p → p ∉ L ∧ p < g.nextSeg ∧ ∃ ps, g.segs p = some ps) →
    (∀ q, rp = some q → q ∉ L ∧ q < g.nextSeg ∧ ∃ qs, g.segs q = some qs) →
    (∀ p q, lp = some p → rp = some q → p ≠ q) →
    ∃ g1, split_segment F1 g y cut lp rp = some g1 ∧ SplitPost g g1 L cut b blk ∧
      (∀ j, j ∉ L → some j ≠ lp → some j ≠ rp → (j < g.nextSeg ∨ g1.nextSeg ≤ j) →
        g1.segs j = g.segs j) ∧
      (∀ p ps, lp = some p → g.segs p = some ps →
        g1.segs p = some { ps with children := y :: ps.children }) ∧
      (∀ q qs, rp = some q → g.segs q = some qs →
        g1.segs q = some { qs with children := nx g1 y :: qs.children })

/-- The statement proved of the loop over the children in `split_segment`. -/
def ForestStmt (F : Nat) : Prop :=
  ∀ (F1 : Nat) (cs : List Nat) (g : Heap) (y n cut : Nat) (Ls : List Nat)
    (b : audio_block) (blk off len : Nat) (sy sn : segment),
    F ≤ F1 → preorder_list (preorder g F) cs = some Ls → TreePre g Ls cut b blk off len →
    (∀ c ∈ cs, ∃ sc, g.segs c = some sc ∧ sc.parent = some y) →
    g.segs y = some sy → sy.next = some n → g.segs n = some sn → y ≠ n →
    y ∉ Ls → n ∉ Ls → y < g.nextSeg → n < g.nextSeg →
    ∃ g1, split_children (fun hh c => split_segment F1 hh c cut (some y) (some n)) cs g
        = some g1 ∧ SplitPost g g1 Ls cut b blk ∧
      (∀ j, j ∉ Ls → j ≠ y → j ≠ n → (j < g.nextSeg ∨ g1.nextSeg ≤ j) →
        g1.segs j = g.segs j) ∧
      g1.segs y = some { sy with children := cs.reverse ++ sy.children } ∧
      g1.segs n = some { sn with children := cs.reverse.map (nx g1) ++ sn.children }

/-- Two tracks: track 0 holds `[10, 20, 30, 40]` in one segment on block 0 and track 1 is
empty. -/
def demo_pair : Heap :=
  { blocks := upd (fun _ => none) 0 (some ⟨4, 1, [10, 20, 30, 40]⟩),
    segs := upd (fun _ => none) 0 (some ⟨0, 4, none, [], none, 0, 0⟩),
    tracks := upd (upd (upd (fun _ => none) 0 (some ⟨none⟩)) 1 (some ⟨none⟩)) 0 (some ⟨some 0⟩),
    nextBlock := 1, nextSeg := 1, nextTrack := 2 }

/-- Whether segment `i` is live and lies on block `blk`. -/
def uses (h : Heap) (blk i : Nat) : Bool :=
  match h.segs i with
  | some s => decide (s.block = blk)
  | none => false

/-- The number of live segments whose block is `blk`. -/
def block_users (h : Heap) (blk : Nat) : Nat := (List.range h.nextSeg).countP (uses h blk)

/-- Whether segment `i` is live and has `p` as its parent. -/
def viewed_by (h : Heap) (p i : Nat) : Bool :=
  match h.segs i with
  | some s => decide (s.parent = some p)
  | none => false

/-- The number of live segments whose parent is `p`. -/
def view_count (h : Heap) (p : Nat) : Nat := (List.range h.nextSeg).countP (viewed_by h p)

/-- The ad `[100, 100, 100]` on track 0 and, on track 1, the target left by writing
`[5, 100, 100, 100]` and deleting its first sample: one segment at offset 1. -/
def demo_offset : Heap :=
  (((tr_write 16 (tr_init Heap.empty).1 0 [100, 100, 100] 0 3).bind
    (fun h => tr_write 16 (tr_init h).1 1 [5, 100, 100, 100] 0 4)).bind
    (fun h => (tr_delete_range 16 h 1 0 1).map (fun r => r.2))).getD Heap.empty

/-- The heap of scenario 3 written out: track 0 is the chain 0, 2, 1 over `[10, 20, 30, 40]`
and track 1 is segment 3, an alias of segment 2 (`[20, 30]`). -/
def demo_view : Heap :=
  { blocks := upd (fun _ => none) 0 (some ⟨4, 4, [10, 20, 30, 40]⟩),
    segs := upd (upd (upd (upd (fun _ => none) 0 (some ⟨0, 1, none, [], some 2, 0, 0⟩))
      1 (some ⟨3, 1, none, [], none, 0, 0⟩)) 2 (some ⟨1, 2, none, [3], some 1, 0, 1⟩))
      3 (some ⟨1, 2, some 2, [], none, 0, 0⟩),
    tracks := upd (upd (fun _ => none) 0 (some ⟨some 0⟩)) 1 (some ⟨some 3⟩),
    nextBlock := 1, nextSeg := 4, nextTrack := 2 }

/-- One call of `tr_init`, `tr_write`, `tr_insert` or `tr_delete_range` that returns, with
positions and lengths that are `size_t` values. -/
def CallOp (h h1 : Heap) : Prop :=
  h1 = (tr_init h).1 ∨
  (∃ fuel t src pos len, pos < SIZE_MOD ∧ len < SIZE_MOD ∧
    tr_write fuel h t src pos len = some h1) ∨
  (∃ fuel s d dp sp n, dp < SIZE_MOD ∧ sp < SIZE_MOD ∧ n < SIZE_MOD ∧
    tr_insert fuel h s d dp sp n = some h1) ∨
  ∃ fuel t pos len ok, pos < SIZE_MOD ∧ len < SIZE_MOD ∧
    tr_delete_range fuel h t pos len = some (ok, h1)

/-- The heaps reached from the empty heap by such calls. -/
def CallReachable (h : Heap) : Prop := Relation.ReflTransGen CallOp Heap.empty h

/-- The heap after `tr_init` and a `tr_write` of `[1, 2, 3, 4, 5]` at position 0. -/
def demo_written : Heap :=
  (tr_write 8 (tr_init Heap.empty).1 0 [1, 2, 3, 4, 5] 0 5).getD Heap.empty

/-- The heap `demo_written` after a further `tr_write` of `[9, 9, 9, 9]` at position 3:
track 0 is a chain of two segments. -/
def demo_two : Heap := (tr_write 8 demo_written 0 [9, 9, 9, 9] 3 4).getD Heap.empty

/-- Scenario 3 of the specification: track 0 holds `[10, 20, 30, 40]` and track 1 is the
result of `tr_insert(0, 1, 0, 1, 2)`, an alias of `[20, 30]`. -/
def demo_alias : Heap :=
  ((tr_write 8 (tr_init Heap.empty).1 0 [10, 20, 30, 40] 0 4).bind
    (fun h => tr_insert 8 (tr_init h).1 0 1 0 1 2)).getD Heap.empty

/-- A track that aliases itself: `[10, 20]` followed by `tr_insert(0, 0, 2, 0, 2)`. -/
def demo_self_alias : Heap :=
  ((tr_write 8 (tr_init Heap.empty).1 0 [10, 20] 0 2).bind
    (fun h => tr_insert 8 h 0 0 2 0 2)).getD Heap.empty

/-- Scenario 6 of the specification: track 0 is the ad `[100, 100, 100]`, track 1 the
target `[0, 0, 100, 100, 100, 0, 100, 100, 100]`. -/
def demo_identify : Heap :=
  ((tr_write 16 (tr_init Heap.empty).1 0 [100, 100, 100] 0 3).bind
    (fun h => tr_write 16 (tr_init h).1 1 [0, 0, 100, 100, 100, 0, 100, 100, 100] 0 9)).getD
    Heap.empty

/-- The ad `[60, 0, 0, 0, 0, 0, 0]` on track 0 and the target `[57, 0, 0, 0, 0, 0, 0]` on
track 1: the window at 0 has the correlation 3420/7, exactly 0.95 of the energy 3600/7 of
the ad. -/
def demo_round : Heap :=
  ((tr_write 16 (tr_init Heap.empty).1 0 [60, 0, 0, 0, 0, 0, 0] 0 7).bind
    (fun h => tr_write 16 (tr_init h).1 1 [57, 0, 0, 0, 0, 0, 0] 0 7)).getD Heap.empty

/-- Scenario 3 followed by `tr_destroy` of the viewing track 1 and by a `tr_init`, which
makes the empty track 2: segment 2 of track 0 still lists the freed segment 3 as its
child. -/
def demo_destroyed : Heap :=
  ((tr_destroy 8 demo_alias 1).map (fun h => (tr_init h).1)).getD Heap.empty

/-- Track 0 holds `[10, 20, 30, 40, 50]`, `tr_insert(0, 1, 0, 1, 3)` makes track 1 a view of
`[20, 30, 40]` (segment 3, a child of segment 2), and `tr_destroy(1)` frees the view. -/
def demo_destroyed_long : Heap :=
  (((tr_write 8 (tr_init Heap.empty).1 0 [10, 20, 30, 40, 50] 0 5).bind
    (fun h => tr_insert 8 (tr_init h).1 0 1 0 1 3)).bind
    (fun h => tr_destroy 8 h 1)).getD Heap.empty

/-- The heap `demo_written` (`[1, 2, 3, 4, 5]`) after `tr_delete_range(0, 3, 2 ^ 64 - 1)`,
in which `pos + len` wraps to 2. -/
def demo_wrapped : Heap :=
  ((tr_delete_range 8 demo_written 0 3 (2 ^ 64 - 1)).getD (false, Heap.empty)).2

/-- The pointer to the view `k` of `demo_views`, `NULL` for `k = 0`. -/
def view_ptr (k : Nat) : Option Nat := if k = 0 then none else some k

/-- Track 0 holds `[10, 20, 30, 40]` in segment 0 and track 1 is the chain
`n, n - 1, ..., 1` of `n` views of segment 0, the heap reached from `demo_pair` by `n` calls
of `tr_insert(0, 1, 0, 0, 4)`: the view counter of segment 0 reads `n` and the counter of
block 0 reads `n + 1`, both modulo `2 ^ 16`. -/
def demo_views (n : Nat) : Heap :=
  { blocks := upd (fun _ => none) 0 (some ⟨4, (n + 1) % UINT16_MOD, [10, 20, 30, 40]⟩),
    segs := fun i =>
      if i = 0 then some ⟨0, 4, none, (List.range' 1 n).reverse, none, 0, n % UINT16_MOD⟩
      else if i ≤ n then some ⟨0, 4, some 0, [], view_ptr (i - 1), 0, 0⟩
      else none,
    tracks := upd (upd (fun _ => none) 0 (some ⟨some 0⟩)) 1 (some ⟨view_ptr n⟩),
    nextBlock := 1, nextSeg := n + 1, nextTrack := 2 }

/-- The heap `demo_views n` after `tr_delete_range(0, 0, 4)` when the view counter of
segment 0 reads 0 and the counter of block 0 reads 1: track 0 is empty, segment 0 and
block 0 are freed. -/
def demo_views_cut (n : Nat) : Heap :=
  (((demo_views n).setTrack 0 (some ⟨none⟩)).setBlock 0 none).setSeg 0 none

/-! ## Theorems -/

theorem size_sub_eq (a b : Nat) (hb : b ≤ a) (ha : a < SIZE_MOD) : size_sub a b = a - b := by
  unfold size_sub
  have h1 : b % SIZE_MOD = b := Nat.mod_eq_of_lt (by omega)
  rw [h1]
  have h2 : a + SIZE_MOD - b = (a - b) + SIZE_MOD := by omega
  rw [h2, Nat.add_mod_right]
  exact Nat.mod_eq_of_lt (by omega)

theorem size_add_eq (a b : Nat) (h : a + b < SIZE_MOD) : size_add a b = a + b := by
  unfold size_add
  exact Nat.mod_eq_of_lt h

theorem size_add_lt (a b : Nat) : size_add a b < SIZE_MOD := Nat.mod_lt _ (by decide)

theorem seg_cells_length (s : segment) : (seg_cells s).length = s.length := by
  simp [seg_cells]

theorem chain_nil (h : Heap) (p : Option Nat) : Chain h p [] ↔ p = none := by
  simp [Chain, ChainTo]

theorem chain_cons (h : Heap) (p : Option Nat) (i : Nat) (l : List Nat) :
    Chain h p (i :: l) ↔ p = some i ∧ ∃ s, h.segs i = some s ∧ Chain h s.next l := by
  simp [Chain, ChainTo]

theorem chain_functional (h : Heap) : ∀ (l1 l2 : List Nat) (p : Option Nat),
    Chain h p l1 → Chain h p l2 → l1 = l2
  | [], [], _, _, _ => rfl
  | [], _ :: _, _, h1, h2 => by
    rw [chain_nil] at h1
    rw [chain_cons, h1] at h2
    exact absurd h2.1 (by simp)
  | _ :: _, [], _, h1, h2 => by
    rw [chain_nil] at h2
    rw [chain_cons, h2] at h1
    exact absurd h1.1 (by simp)
  | i :: l1, j :: l2, p, h1, h2 => by
    rw [chain_cons] at h1 h2
    obtain ⟨e1, s1, hs1, c1⟩ := h1
    obtain ⟨e2, s2, hs2, c2⟩ := h2
    have hij : i = j := by
      rw [e1] at e2
      exact Option.some.inj e2
    subst hij
    rw [hs1] at hs2
    have hs : s1 = s2 := Option.some.inj hs2
    subst hs
    rw [chain_functional h l1 l2 _ c1 c2]

/-- The sum that `segment_chain_length` returns, whatever the lengths: the number of
samples of the chain added to `total`, modulo `2 ^ 64`. -/
theorem segment_chain_length_mod (h : Heap) : ∀ (l : List Nat) (fuel : Nat) (p : Option Nat)
    (total : Nat), Chain h p l → l.length ≤ fuel → total < SIZE_MOD →
    segment_chain_length h fuel p total = some ((total + (nodes_cells h l).length) % SIZE_MOD)
  | [], fuel, p, total, hc, _, ht => by
    rw [chain_nil] at hc
    subst hc
    cases fuel <;> simp [segment_chain_length, nodes_cells, Nat.mod_eq_of_lt ht]
  | i :: l, fuel, p, total, hc, hf, ht => by
    rw [chain_cons] at hc
    obtain ⟨rfl, s, hs, hc⟩ := hc
    cases fuel with
    | zero => simp at hf
    | succ fuel =>
      simp only [List.length_cons, Nat.add_le_add_iff_right] at hf
      simp only [segment_chain_length, hs, nodes_cells, List.length_append, seg_cells_length]
      rw [segment_chain_length_mod h l fuel s.next (size_add total s.length) hc hf
        (size_add_lt _ _)]
      simp only [size_add, Nat.mod_add_mod, Nat.add_assoc]

theorem segment_chain_length_eq (h : Heap) (l : List Nat) (fuel : Nat) (p : Option Nat)
    (total : Nat) (hc : Chain h p l) (hf : l.length ≤ fuel)
    (hfit : total + (nodes_cells h l).length < SIZE_MOD) :
    segment_chain_length h fuel p total = some (total + (nodes_cells h l).length) := by
  rw [segment_chain_length_mod h l fuel p total hc hf (by omega), Nat.mod_eq_of_lt hfit]

theorem tr_length_mod (h : Heap) (t : Nat) (l : List Nat) (fuel : Nat)
    (ht : TrackChain h t l) (hf : l.length ≤ fuel) :
    tr_length fuel h t = some ((nodes_cells h l).length % SIZE_MOD) := by
  obtain ⟨⟨tr, htr, hc⟩, _⟩ := ht
  simp only [tr_length, htr]
  rw [segment_chain_length_mod h l fuel tr.head 0 hc hf (by decide)]
  simp

theorem tr_length_eq (h : Heap) (t : Nat) (l : List Nat) (fuel : Nat)
    (ht : TrackChain h t l) (hf : l.length ≤ fuel)
    (hfit : (nodes_cells h l).length < SIZE_MOD) :
    tr_length fuel h t = some (nodes_cells h l).length := by
  rw [tr_length_mod h t l fuel ht hf, Nat.mod_eq_of_lt hfit]

theorem splice_length (dest : List Int) (off : Nat) (xs : List Int)
    (hb : off + xs.length ≤ dest.length) : (splice dest off xs).length = dest.length := by
  simp [splice]; omega

theorem splice_nil (dest : List Int) (off : Nat) : splice dest off [] = dest := by
  simp [splice]

theorem splice_splice (dest : List Int) (off : Nat) (xs ys : List Int)
    (hb : off + xs.length ≤ dest.length) :
    splice (splice dest off xs) (off + xs.length) ys = splice dest off (xs ++ ys) := by
  have h1 : (dest.take off).length = off := by simp; omega
  unfold splice
  have e1 : (List.take off dest ++ xs ++ List.drop (off + xs.length) dest).take (off + xs.length)
      = List.take off dest ++ xs := by
    rw [List.take_append_eq_append_take]
    simp [h1]
  have e2 : (List.take off dest ++ xs ++ List.drop (off + xs.length) dest).drop
      (off + xs.length + ys.length) = dest.drop (off + (xs ++ ys).length) := by
    rw [List.drop_append_eq_append_drop]
    simp [h1]
    rw [List.drop_eq_nil_of_le (by simp [h1])]
    simp [Nat.add_assoc]
  rw [e1, e2]
  simp

theorem memcpy_eq (dst : List Int) (doff : Nat) (src : List Int) (soff n : Nat)
    (h1 : doff + n ≤ dst.length) (h2 : soff + n ≤ src.length) :
    memcpy dst doff src soff n = some (splice dst doff ((src.drop soff).take n)) := by
  have : ((src.drop soff).take n).length = n := by simp; omega
  simp [memcpy, h1, h2, splice, this]

theorem seg_samples_eq (h : Heap) (s : segment) (b : audio_block)
    (hb : h.blocks s.block = some b) (hl : s.offset + s.length ≤ b.data.length) :
    (seg_cells s).map (cell_value h) = (b.data.drop s.offset).take s.length := by
  apply List.ext_getElem
  · simp [seg_cells]; omega
  · intro n h1 h2
    simp [seg_cells] at h1
    simp [seg_cells, cell_value, hb]
    rw [List.getElem?_eq_getElem (by omega)]
    simp

theorem tr_read_loop_zero (h : Heap) (fuel : Nat) (p : Option Nat) (a b c : Nat)
    (dest : List Int) : tr_read_loop h fuel p a b c 0 dest = some dest := by
  cases p <;> cases fuel <;> simp [tr_read_loop]

theorem nodes_samples_cons (h : Heap) (i : Nat) (l : List Nat) (s : segment) (b : audio_block)
    (hs : h.segs i = some s) (hb : h.blocks s.block = some b)
    (hl : s.offset + s.length ≤ b.data.length) :
    nodes_samples h (i :: l) = (b.data.drop s.offset).take s.length ++ nodes_samples h l := by
  simp only [nodes_samples, nodes_cells, hs, List.map_append]
  rw [seg_samples_eq h s b hb hl]

theorem nodes_cells_cons (h : Heap) (i : Nat) (l : List Nat) (s : segment)
    (hs : h.segs i = some s) :
    nodes_cells h (i :: l) = seg_cells s ++ nodes_cells h l := by
  simp only [nodes_cells, hs]

theorem nodes_samples_length (h : Heap) (l : List Nat) :
    (nodes_samples h l).length = (nodes_cells h l).length := by
  simp [nodes_samples]

theorem drop_append_ge {α : Type} (a b : List α) (n : Nat) (h : a.length ≤ n) :
    (a ++ b).drop n = b.drop (n - a.length) := by
  rw [List.drop_append_eq_append_drop, List.drop_eq_nil_of_le h]
  simp

theorem slice_drop {α : Type} (d : List α) (o n k : Nat) :
    ((d.drop o).take n).drop k = (d.drop (o + k)).take (n - k) := by
  rw [List.drop_take, List.drop_drop]

theorem take_append_ge {α : Type} (a b : List α) (n : Nat) (h : a.length ≤ n) :
    (a ++ b).take n = a ++ b.take (n - a.length) := by
  rw [List.take_append_eq_append_take, List.take_of_length_le h]

theorem tr_read_loop_eq (h : Heap) : ∀ (l : List Nat) (fuel : Nat) (p : Option Nat)
    (seg_start pos dest_offset to_read : Nat) (dest : List Int),
    Chain h p l → (∀ i ∈ l, ∀ s, h.segs i = some s → SegInBlock h s) → l.length ≤ fuel →
    seg_start ≤ pos → pos - seg_start + to_read ≤ (nodes_cells h l).length →
    dest_offset + to_read ≤ dest.length →
    seg_start + (nodes_cells h l).length < SIZE_MOD → dest_offset + to_read < SIZE_MOD →
    tr_read_loop h fuel p seg_start pos dest_offset to_read dest =
      some (splice dest dest_offset (((nodes_samples h l).drop (pos - seg_start)).take to_read))
  | [], fuel, p, seg_start, pos, dest_offset, to_read, dest, hc, _, _, _, hr, _, _, _ => by
    rw [chain_nil] at hc
    subst hc
    simp [tr_read_loop, nodes_samples, nodes_cells, splice]
  | i :: l, fuel, p, seg_start, pos, dest_offset, to_read, dest, hc, hin, hf, hsp, hr, hd,
      hfit, hdo => by
    rw [chain_cons] at hc
    obtain ⟨rfl, s, hs, hc⟩ := hc
    by_cases h0 : to_read = 0
    · subst h0
      rw [tr_read_loop_zero]
      simp [splice]
    cases fuel with
    | zero => simp at hf
    | succ fuel =>
      simp only [List.length_cons, Nat.add_le_add_iff_right] at hf
      obtain ⟨b, hb, hl⟩ := hin i (List.mem_cons_self _ _) s hs
      have hin1 : ∀ j ∈ l, ∀ s, h.segs j = some s → SegInBlock h s :=
        fun j hj => hin j (List.mem_cons_of_mem _ hj)
      rw [nodes_cells_cons h i l s hs, List.length_append, seg_cells_length] at hr hfit
      rw [nodes_samples_cons h i l s b hs hb hl]
      have hlen : ((b.data.drop s.offset).take s.length).length = s.length := by
        simp; omega
      simp only [tr_read_loop, h0, if_false, hs, size_add_eq seg_start s.length (by omega)]
      by_cases hlt : pos < seg_start + s.length
      · simp only [hlt, if_true, hb]
        have hlo : (if pos > seg_start then pos - seg_start else 0) = pos - seg_start := by
          split <;> omega
        rw [hlo]
        have hS : ((b.data.drop s.offset).take s.length ++ nodes_samples h l).drop
            (pos - seg_start) = (b.data.drop (s.offset + (pos - seg_start))).take
              (s.length - (pos - seg_start)) ++ nodes_samples h l := by
          rw [List.drop_append_of_le_length (by omega), slice_drop]
        have hx : ((b.data.drop (s.offset + (pos - seg_start))).take
            (s.length - (pos - seg_start))).length = s.length - (pos - seg_start) := by
          simp; omega
        rw [hS]
        by_cases hch : to_read < s.length - (pos - seg_start)
        · simp only [hch, if_true]
          rw [memcpy_eq _ _ _ _ _ (by omega) (by omega)]
          simp only [Nat.sub_self]
          rw [tr_read_loop_zero, List.take_append_of_le_length (by omega), List.take_take]
          congr 4
          omega
        · simp only [hch, if_false]
          rw [memcpy_eq _ _ _ _ _ (by omega) (by omega)]
          dsimp only
          rw [size_add_eq pos _ (by omega), size_add_eq dest_offset _ (by omega)]
          rw [tr_read_loop_eq h l fuel s.next _ _ _ _ _ hc hin1 hf (by omega)
            (by omega) (by rw [splice_length _ _ _ (by omega)]; omega) (by omega) (by omega)]
          have e1 : pos + (s.length - (pos - seg_start)) - (seg_start + s.length) = 0 := by omega
          rw [e1, List.drop_zero]
          have e2 : dest_offset + (s.length - (pos - seg_start))
              = dest_offset + ((b.data.drop (s.offset + (pos - seg_start))).take
                  (s.length - (pos - seg_start))).length := by rw [hx]
          rw [e2, splice_splice _ _ _ _ (by omega), take_append_ge _ _ _ (by omega), hx]
      · simp only [hlt, if_false]
        rw [tr_read_loop_eq h l fuel s.next _ _ _ _ _ hc hin1 hf (by omega) (by omega) hd
          (by omega) hdo]
        rw [drop_append_ge _ _ _ (by omega), hlen]
        congr 4
        omega

theorem tr_read_eq (h : Heap) (t : Nat) (l : List Nat) (fuel : Nat) (dst : List Int)
    (pos len : Nat) (ht : TrackChain h t l) (hf : l.length ≤ fuel)
    (hd : min len ((nodes_cells h l).length - pos) ≤ dst.length)
    (hfit : (nodes_cells h l).length < SIZE_MOD) :
    tr_read fuel h t dst pos len =
      some (((nodes_samples h l).drop pos).take (min len ((nodes_cells h l).length - pos))
            ++ dst.drop (min len ((nodes_cells h l).length - pos))) := by
  have hlen := tr_length_eq h t l fuel ht hf hfit
  obtain ⟨⟨tr, htr, hc⟩, hin⟩ := ht
  simp only [tr_read, hlen, htr]
  by_cases hp : pos ≥ (nodes_cells h l).length ∨ len = 0
  · simp only [hp, if_true]
    have : min len ((nodes_cells h l).length - pos) = 0 := by
      rcases hp with hp | hp
      · rw [Nat.sub_eq_zero_of_le hp]; simp
      · simp [hp]
    simp [this]
  · simp only [hp, if_false]
    have hm : (if len < (nodes_cells h l).length - pos then len
        else (nodes_cells h l).length - pos) = min len ((nodes_cells h l).length - pos) := by
      split <;> omega
    rw [hm]
    have hp2 : pos < (nodes_cells h l).length ∧ len ≠ 0 := by
      constructor
      · by_contra hc2; exact hp (Or.inl (by omega))
      · intro hc2; exact hp (Or.inr hc2)
    rw [tr_read_loop_eq h l fuel tr.head 0 pos 0 _ dst hc hin hf (Nat.zero_le _) (by omega)
      (by omega) (by omega) (by omega)]
    have hx : (((nodes_samples h l).drop pos).take
        (min len ((nodes_cells h l).length - pos))).length
        = min len ((nodes_cells h l).length - pos) := by
      simp [nodes_samples_length]
    simp [splice, hx]

/-- On a track whose chain is finite with views inside live blocks and fewer than `2 ^ 64`
samples, of length `L` with logical sequence `s`, `tr_read` with `pos` and `len` returns
the buffer in which exactly the first `min len (L - pos)` elements are `s[pos + i]` and
every other element is the one of `dst`; when `pos ≥ L` or `len = 0` the buffer is `dst`
itself. -/
theorem tr_read_copies (h : Heap) (t : Nat) (l : List Nat) (fuel : Nat) (dst : List Int)
    (pos len : Nat) (ht : TrackChain h t l) (hf : l.length ≤ fuel)
    (hd : min len ((nodes_cells h l).length - pos) ≤ dst.length)
    (hfit : (nodes_cells h l).length < SIZE_MOD) :
    tr_length fuel h t = some (nodes_cells h l).length ∧
    (∃ out, tr_read fuel h t dst pos len = some out ∧ out.length = dst.length ∧
      ∀ i, i < dst.length →
        out[i]? = if i < min len ((nodes_cells h l).length - pos)
                  then (nodes_samples h l)[pos + i]? else dst[i]?) ∧
    (pos ≥ (nodes_cells h l).length ∨ len = 0 → tr_read fuel h t dst pos len = some dst) := by
  refine ⟨tr_length_eq h t l fuel ht hf hfit,
    ⟨_, tr_read_eq h t l fuel dst pos len ht hf hd hfit, ?_, ?_⟩, ?_⟩
  · simp [nodes_samples_length]; omega
  · intro i hi
    have hx : (((nodes_samples h l).drop pos).take
        (min len ((nodes_cells h l).length - pos))).length
        = min len ((nodes_cells h l).length - pos) := by
      simp [nodes_samples_length]
    by_cases hlt : i < min len ((nodes_cells h l).length - pos)
    · rw [List.getElem?_append_left (by omega)]
      simp only [hlt, if_true]
      rw [List.getElem?_take_of_lt hlt, List.getElem?_drop]
    · rw [List.getElem?_append_right (by omega), hx]
      simp only [hlt, if_false]
      rw [List.getElem?_drop]
      congr 1
      omega
  · intro hp
    rw [tr_read_eq h t l fuel dst pos len ht hf hd hfit]
    have : min len ((nodes_cells h l).length - pos) = 0 := by
      rcases hp with hp | hp
      · rw [Nat.sub_eq_zero_of_le hp]; simp
      · simp [hp]
    simp [this]

theorem tr_delete_range_false (fuel : Nat) (h h1 : Heap) (t pos len : Nat)
    (hr : tr_delete_range fuel h t pos len = some (false, h1)) : h1 = h := by
  unfold tr_delete_range at hr
  split at hr
  · simp at hr
  · split at hr
    · simp at hr; exact hr.symm
    · split at hr
      · simp at hr; exact hr.symm
      · split at hr
        · simp at hr
        · simp at hr; exact hr.symm
        · dsimp only at hr
          generalize tr_delete_range_loop _ _ _ _ _ _ _ _ _ = r at hr
          cases r <;> simp at hr

@[simp] theorem upd_same {α : Type} (f : Nat → Option α) (i : Nat) (v : Option α) :
    upd f i v i = v := by simp [upd]

theorem upd_other {α : Type} (f : Nat → Option α) (i j : Nat) (v : Option α) (hne : j ≠ i) :
    upd f i v j = f j := by simp [upd, hne]

theorem upd_upd {α : Type} (f : Nat → Option α) (i : Nat) (v w : Option α) :
    upd (upd f i v) i w = upd f i w := by
  funext j
  simp only [upd]
  split <;> rfl

theorem chainTo_congr (h h1 : Heap) : ∀ (l : List Nat) (p q : Option Nat),
    (∀ i ∈ l, h1.segs i = h.segs i) → ChainTo h p l q → ChainTo h1 p l q
  | [], _, _, _, hc => hc
  | i :: l, p, q, he, hc => by
    simp only [ChainTo] at hc ⊢
    obtain ⟨hp, s, hs, hc⟩ := hc
    refine ⟨hp, s, ?_, chainTo_congr h h1 l _ _ (fun j hj => he j (List.mem_cons_of_mem _ hj)) hc⟩
    rw [he i (List.mem_cons_self _ _)]
    exact hs

theorem chain_congr (h h1 : Heap) (l : List Nat) (p : Option Nat)
    (he : ∀ i ∈ l, h1.segs i = h.segs i) (hc : Chain h p l) : Chain h1 p l :=
  chainTo_congr h h1 l p none he hc

theorem nodes_cells_congr (h h1 : Heap) : ∀ (l : List Nat),
    (∀ i ∈ l, h1.segs i = h.segs i) → nodes_cells h1 l = nodes_cells h l
  | [], _ => rfl
  | i :: l, he => by
    simp only [nodes_cells]
    rw [he i (List.mem_cons_self _ _),
      nodes_cells_congr h h1 l (fun j hj => he j (List.mem_cons_of_mem _ hj))]

theorem chainTo_append (h : Heap) : ∀ (a b : List Nat) (p q r : Option Nat),
    ChainTo h p a q → ChainTo h q b r → ChainTo h p (a ++ b) r
  | [], b, p, q, r, h1, h2 => by
    simp only [ChainTo] at h1
    subst h1
    simpa using h2
  | i :: a, b, p, q, r, h1, h2 => by
    simp only [ChainTo, List.cons_append] at h1 ⊢
    obtain ⟨hp, s, hs, hc⟩ := h1
    exact ⟨hp, s, hs, chainTo_append h a b _ q r hc h2⟩

theorem chainTo_split (h : Heap) : ∀ (a b : List Nat) (p r : Option Nat),
    ChainTo h p (a ++ b) r → ∃ q, ChainTo h p a q ∧ ChainTo h q b r
  | [], b, p, r, hc => ⟨p, by simp [ChainTo], by simpa using hc⟩
  | i :: a, b, p, r, hc => by
    simp only [ChainTo, List.cons_append] at hc ⊢
    obtain ⟨hp, s, hs, hc⟩ := hc
    obtain ⟨q, h1, h2⟩ := chainTo_split h a b _ r hc
    exact ⟨q, ⟨hp, s, hs, h1⟩, h2⟩

theorem chain_length_unique (h : Heap) (l1 l2 : List Nat) (p : Option Nat)
    (h1 : Chain h p l1) (h2 : Chain h p l2) : l1.length = l2.length := by
  rw [chain_functional h l1 l2 p h1 h2]

theorem chain_nodup (h : Heap) : ∀ (l : List Nat) (p : Option Nat), Chain h p l → l.Nodup
  | [], _, _ => List.nodup_nil
  | i :: l, p, hc => by
    have hc0 := hc
    rw [chain_cons] at hc
    obtain ⟨hp, s, hs, hc1⟩ := hc
    refine List.nodup_cons.mpr ⟨?_, chain_nodup h l _ hc1⟩
    intro hmem
    obtain ⟨a, b, hab⟩ := List.append_of_mem hmem
    rw [hab] at hc1
    obtain ⟨q, h1, h2⟩ := chainTo_split h a (i :: b) _ none hc1
    have hq : q = some i := by
      simp only [ChainTo] at h2
      exact h2.1
    subst hq
    have h3 : Chain h (some i) (i :: b) := h2
    have h4 : Chain h (some i) (i :: l) := by rw [← hp]; exact hc0
    have := chain_length_unique h _ _ _ h3 h4
    rw [hab] at this
    simp at this
    omega

theorem nodes_cells_append (h : Heap) : ∀ (a b : List Nat),
    nodes_cells h (a ++ b) = nodes_cells h a ++ nodes_cells h b
  | [], b => by simp [nodes_cells]
  | i :: a, b => by
    rw [List.cons_append]
    simp only [nodes_cells]
    rw [nodes_cells_append h a b, List.append_assoc]

theorem setBlock_self (h : Heap) (i : Nat) (b : audio_block) (hb : h.blocks i = some b) :
    h.setBlock i (some b) = h := by
  cases h with
  | mk blocks segs tracks nb ns nt =>
    simp only [Heap.setBlock, Heap.mk.injEq, and_true]
    funext j
    simp only [upd]
    split
    · next hj => subst hj; exact hb.symm
    · rfl

theorem setBlock_setBlock (h : Heap) (i : Nat) (v w : Option audio_block) :
    (h.setBlock i v).setBlock i w = h.setBlock i w := by
  simp [Heap.setBlock, upd_upd]

@[simp] theorem store_cell_segs (h : Heap) (c : Cell) (v : Int) :
    (store_cell h c v).segs = h.segs := by
  unfold store_cell; split <;> rfl

@[simp] theorem store_cell_tracks (h : Heap) (c : Cell) (v : Int) :
    (store_cell h c v).tracks = h.tracks := by
  unfold store_cell; split <;> rfl

@[simp] theorem store_cell_nextSeg (h : Heap) (c : Cell) (v : Int) :
    (store_cell h c v).nextSeg = h.nextSeg := by
  unfold store_cell; split <;> rfl

@[simp] theorem store_cell_nextBlock (h : Heap) (c : Cell) (v : Int) :
    (store_cell h c v).nextBlock = h.nextBlock := by
  unfold store_cell; split <;> rfl

@[simp] theorem store_cell_nextTrack (h : Heap) (c : Cell) (v : Int) :
    (store_cell h c v).nextTrack = h.nextTrack := by
  unfold store_cell; split <;> rfl

@[simp] theorem store_cells_segs : ∀ (cs : List Cell) (vs : List Int) (h : Heap),
    (store_cells h cs vs).segs = h.segs
  | [], _, _ => rfl
  | _ :: _, [], _ => rfl
  | c :: cs, v :: vs, h => by
    simp only [store_cells]
    rw [store_cells_segs cs vs, store_cell_segs]

@[simp] theorem store_cells_tracks : ∀ (cs : List Cell) (vs : List Int) (h : Heap),
    (store_cells h cs vs).tracks = h.tracks
  | [], _, _ => rfl
  | _ :: _, [], _ => rfl
  | c :: cs, v :: vs, h => by
    simp only [store_cells]
    rw [store_cells_tracks cs vs, store_cell_tracks]

@[simp] theorem store_cells_nextSeg : ∀ (cs : List Cell) (vs : List Int) (h : Heap),
    (store_cells h cs vs).nextSeg = h.nextSeg
  | [], _, _ => rfl
  | _ :: _, [], _ => rfl
  | c :: cs, v :: vs, h => by
    simp only [store_cells]
    rw [store_cells_nextSeg cs vs, store_cell_nextSeg]

@[simp] theorem store_cells_nextBlock : ∀ (cs : List Cell) (vs : List Int) (h : Heap),
    (store_cells h cs vs).nextBlock = h.nextBlock
  | [], _, _ => rfl
  | _ :: _, [], _ => rfl
  | c :: cs, v :: vs, h => by
    simp only [store_cells]
    rw [store_cells_nextBlock cs vs, store_cell_nextBlock]

@[simp] theorem store_cells_nextTrack : ∀ (cs : List Cell) (vs : List Int) (h : Heap),
    (store_cells h cs vs).nextTrack = h.nextTrack
  | [], _, _ => rfl
  | _ :: _, [], _ => rfl
  | c :: cs, v :: vs, h => by
    simp only [store_cells]
    rw [store_cells_nextTrack cs vs, store_cell_nextTrack]

theorem store_cells_append : ∀ (cs1 : List Cell) (vs1 : List Int) (cs2 : List Cell)
    (vs2 : List Int) (h : Heap), cs1.length = vs1.length →
    store_cells h (cs1 ++ cs2) (vs1 ++ vs2) = store_cells (store_cells h cs1 vs1) cs2 vs2
  | [], [], _, _, _, _ => by simp [store_cells]
  | [], _ :: _, _, _, _, hl => by simp at hl
  | _ :: _, [], _, _, _, hl => by simp at hl
  | c :: cs1, v :: vs1, cs2, vs2, h, hl => by
    simp only [List.cons_append, store_cells]
    exact store_cells_append cs1 vs1 cs2 vs2 _ (by simpa using hl)

theorem splice_cons (d : List Int) (o : Nat) (v : Int) (vs : List Int) (ho : o < d.length) :
    splice (d.set o v) (o + 1) vs = splice d o (v :: vs) := by
  unfold splice
  rw [List.drop_set_of_lt _ _ (by omega)]
  have h1 : (d.set o v).take (o + 1) = d.take o ++ [v] := by
    rw [List.set_eq_take_append_cons_drop, if_pos ho, List.take_append_eq_append_take]
    have h2 : (List.take o d).length = o := by simp; omega
    rw [h2, List.take_of_length_le (by omega)]
    simp
  rw [h1]
  simp [Nat.add_assoc, Nat.add_comm 1]

theorem store_chunk : ∀ (vs : List Int) (h : Heap) (bid o : Nat) (b : audio_block),
    h.blocks bid = some b → o + vs.length ≤ b.data.length →
    store_cells h ((List.range vs.length).map (fun k => (bid, o + k))) vs =
      h.setBlock bid (some { b with data := splice b.data o vs })
  | [], h, bid, o, b, hb, _ => by
    simp only [List.length_nil, List.range_zero, List.map_nil, store_cells, splice_nil]
    exact (setBlock_self h bid b hb).symm
  | v :: vs, h, bid, o, b, hb, hl => by
    simp only [List.length_cons] at hl
    simp only [List.length_cons, List.range_succ_eq_map, List.map_cons, List.map_map,
      store_cells, Nat.add_zero]
    have h1 : store_cell h (bid, o) v = h.setBlock bid (some { b with data := b.data.set o v }) := by
      simp [store_cell, hb]
    rw [h1]
    have h2 : (fun k => (bid, o + k)) ∘ Nat.succ = fun k => (bid, o + 1 + k) := by
      funext k
      simp [Nat.add_assoc, Nat.add_comm 1]
    rw [h2, store_chunk vs _ bid (o + 1) { b with data := b.data.set o v }
      (by simp [Heap.setBlock]) (by simp; omega)]
    rw [setBlock_setBlock]
    simp only
    rw [splice_cons _ _ _ _ (by omega)]

theorem seg_cells_slice (s : segment) (a m : Nat) (ham : a + m ≤ s.length) :
    ((seg_cells s).drop a).take m = (List.range m).map (fun k => (s.block, s.offset + a + k)) := by
  apply List.ext_getElem
  · simp [seg_cells]; omega
  · intro n h1 h2
    simp [seg_cells, Nat.add_assoc]

theorem segInBlock_setBlock_data (h : Heap) (bid : Nat) (b : audio_block) (d : List Int)
    (s : segment) (hb : h.blocks bid = some b) (hd : d.length = b.data.length)
    (hs : SegInBlock h s) : SegInBlock (h.setBlock bid (some { b with data := d })) s := by
  obtain ⟨b1, hb1, hl⟩ := hs
  by_cases he : s.block = bid
  · refine ⟨{ b with data := d }, by simp [Heap.setBlock, he], ?_⟩
    rw [he, hb] at hb1
    cases hb1
    simpa [hd] using hl
  · exact ⟨b1, by simp [Heap.setBlock, upd_other _ _ _ _ he, hb1], hl⟩

theorem tr_write_loop_zero (track_len : Nat) (src : List Int) (fuel : Nat) (h : Heap)
    (p : Option Nat) (a b c : Nat) :
    tr_write_loop track_len src fuel h p a b c 0 = some (h, c, 0) := by
  cases p <;> cases fuel <;> simp [tr_write_loop]

theorem take_add_drop {α : Type} (l : List α) (a b : Nat) :
    l.take (a + b) = l.take a ++ (l.drop a).take b := by
  rw [List.take_add]

theorem tr_write_loop_eq (track_len : Nat) (src : List Int) (l : List Nat) (fuel : Nat)
    (h : Heap) (p : Option Nat) (seg_start pos src_offset len : Nat)
    (hc : Chain h p l) (hin : ∀ i ∈ l, ∀ s, h.segs i = some s → SegInBlock h s)
    (hf : l.length ≤ fuel) (hsp : seg_start ≤ pos)
    (ht : track_len = seg_start + (nodes_cells h l).length)
    (hsrc : src_offset + len ≤ src.length) (hfit : track_len < SIZE_MOD)
    (hso : src_offset + (track_len - pos) < SIZE_MOD) :
    tr_write_loop track_len src fuel h p seg_start pos src_offset len =
      some (store_cells h
              (((nodes_cells h l).drop (pos - seg_start)).take (min len (track_len - pos)))
              ((src.drop src_offset).take (min len (track_len - pos))),
            src_offset + min len (track_len - pos), len - min len (track_len - pos)) := by
  induction l generalizing fuel h p seg_start pos src_offset len with
  | nil =>
    rw [chain_nil] at hc
    subst hc
    simp only [nodes_cells, List.length_nil, Nat.add_zero] at ht
    have : track_len - pos = 0 := by omega
    simp [tr_write_loop, this, store_cells, nodes_cells]
  | cons i l ih =>
    rw [chain_cons] at hc
    obtain ⟨rfl, s, hs, hc⟩ := hc
    rw [nodes_cells_cons h i l s hs] at ht ⊢
    rw [List.length_append, seg_cells_length] at ht
    by_cases hcond : pos < track_len ∧ len > 0
    · cases fuel with
      | zero => simp at hf
      | succ fuel =>
        simp only [List.length_cons, Nat.add_le_add_iff_right] at hf
        obtain ⟨b, hb, hl⟩ := hin i (List.mem_cons_self _ _) s hs
        have hin1 : ∀ j ∈ l, ∀ s, h.segs j = some s → SegInBlock h s :=
          fun j hj => hin j (List.mem_cons_of_mem _ hj)
        simp only [tr_write_loop, hcond, and_self, if_true, hs,
          size_add_eq seg_start s.length (by omega)]
        obtain ⟨lo, rfl⟩ : ∃ lo, pos = seg_start + lo := ⟨pos - seg_start, by omega⟩
        clear hsp hin
        simp only [Nat.add_sub_cancel_left]
        by_cases hlt : seg_start + lo < seg_start + s.length
        · simp only [hlt, if_true, hb]
          have hlo : (if seg_start + lo > seg_start then lo else 0) = lo := by
            split <;> omega
          rw [hlo]
          clear hlo
          obtain ⟨tw, htw⟩ : ∃ tw, tw = min len (s.length - lo) := ⟨_, rfl⟩
          have htw1 : (if len < s.length - lo then len else s.length - lo) = tw := by
            rw [htw]; split <;> omega
          rw [htw1]
          clear htw1
          have htwle : tw ≤ len ∧ lo + tw ≤ s.length := by omega
          rw [size_add_eq (seg_start + lo) tw (by omega), size_add_eq src_offset tw (by omega)]
          have hvl : ((src.drop src_offset).take tw).length = tw := by
            rw [List.length_take, List.length_drop]; omega
          rw [memcpy_eq _ _ _ _ _ (by omega) (by omega)]
          dsimp only
          have hchunk : h.setBlock s.block
              (some { b with data := splice b.data (s.offset + lo) ((src.drop src_offset).take tw) })
              = store_cells h (((seg_cells s).drop lo).take tw) ((src.drop src_offset).take tw) := by
            rw [seg_cells_slice s lo tw (by omega)]
            have := store_chunk ((src.drop src_offset).take tw) h s.block (s.offset + lo) b hb
              (by rw [hvl]; omega)
            rw [hvl] at this
            rw [this]
          rw [hchunk]
          obtain ⟨h1, hh1⟩ : ∃ h1, h1 = store_cells h (((seg_cells s).drop lo).take tw)
              ((src.drop src_offset).take tw) := ⟨_, rfl⟩
          rw [← hh1]
          have hsegs : h1.segs = h.segs := by rw [hh1]; simp
          have hin2 : ∀ j ∈ l, ∀ s1, h1.segs j = some s1 → SegInBlock h1 s1 := by
            intro j hj s1 hs1
            rw [hsegs] at hs1
            rw [hh1, ← hchunk]
            exact segInBlock_setBlock_data h s.block b _ s1 hb
              (splice_length _ _ _ (by rw [hvl]; omega)) (hin1 j hj s1 hs1)
          have hc1 : Chain h1 s.next l := chain_congr h h1 l _ (fun _ _ => by rw [hsegs]) hc
          have hcells : nodes_cells h1 l = nodes_cells h l :=
            nodes_cells_congr h h1 l (fun _ _ => by rw [hsegs])
          by_cases hfull : lo + tw = s.length
          · have hsp1 : seg_start + s.length ≤ seg_start + lo + tw := by omega
            have ht1 : track_len = seg_start + s.length + (nodes_cells h1 l).length := by
              rw [hcells]; omega
            have hsrc1 : src_offset + tw + (len - tw) ≤ src.length := by omega
            rw [ih fuel h1 s.next (seg_start + s.length) (seg_start + lo + tw) (src_offset + tw)
              (len - tw) hc1 hin2 hf hsp1 ht1 hsrc1 (by omega), hcells, hh1]
            have e0 : seg_start + lo + tw - (seg_start + s.length) = 0 := by omega
            rw [e0, List.drop_zero]
            obtain ⟨k1, hk1⟩ : ∃ k1, k1 = min (len - tw) (track_len - (seg_start + lo + tw)) :=
              ⟨_, rfl⟩
            have hk : min len (track_len - (seg_start + lo)) = tw + k1 := by omega
            rw [← hk1, hk]
            have hdl : ((seg_cells s).drop lo).length = tw := by
              rw [List.length_drop, seg_cells_length]; omega
            have hC1 : ((seg_cells s).drop lo).take tw = (seg_cells s).drop lo :=
              List.take_of_length_le (by omega)
            have hC : ((seg_cells s ++ nodes_cells h l).drop lo).take (tw + k1)
                = ((seg_cells s).drop lo).take tw ++ (nodes_cells h l).take k1 := by
              rw [List.drop_append_of_le_length (by rw [seg_cells_length]; omega),
                take_append_ge _ _ _ (by omega), hdl, hC1]
              congr 2
              omega
            have hV : (src.drop src_offset).take (tw + k1)
                = (src.drop src_offset).take tw ++ (src.drop (src_offset + tw)).take k1 := by
              rw [List.take_add, List.drop_drop]
            rw [hC, hV, store_cells_append _ _ _ _ _ (by rw [hvl, hC1, hdl])]
            simp only [Option.some.injEq, Prod.mk.injEq, true_and]
            omega
          · have hlen0 : len - tw = 0 := by omega
            rw [hlen0, tr_write_loop_zero, hh1]
            have hk : min len (track_len - (seg_start + lo)) = tw := by omega
            rw [hk, List.drop_append_of_le_length (by rw [seg_cells_length]; omega),
              List.take_append_of_le_length (by
                rw [List.length_drop, seg_cells_length]; omega)]
            simp only [Option.some.injEq, Prod.mk.injEq, true_and]
            omega
        · simp only [hlt, if_false]
          rw [ih fuel h s.next (seg_start + s.length) (seg_start + lo) src_offset len hc hin1 hf
            (by omega) (by omega) hsrc hso]
          rw [drop_append_ge _ _ _ (by rw [seg_cells_length]; omega), seg_cells_length]
          have e1 : seg_start + lo - (seg_start + s.length) = lo - s.length := by omega
          rw [e1]
    · have hk : min len (track_len - pos) = 0 := by
        by_cases hl0 : len = 0
        · simp [hl0]
        · have : ¬ pos < track_len := fun hx => hcond ⟨hx, by omega⟩
          omega
      rw [hk]
      cases fuel <;> simp [tr_write_loop, hcond, store_cells]

theorem cellLive_store_cell (h : Heap) (c c1 : Cell) (v : Int) (hl : CellLive h c1) :
    CellLive (store_cell h c v) c1 := by
  obtain ⟨b, hb, hlt⟩ := hl
  unfold store_cell
  split
  · next b0 hb0 =>
    by_cases he : c1.1 = c.1
    · rw [he, hb0] at hb
      cases hb
      exact ⟨{ b with data := b.data.set c.2 v }, by simp [Heap.setBlock, he],
        by simpa using hlt⟩
    · exact ⟨b, by simp [Heap.setBlock, upd_other _ _ _ _ he, hb], hlt⟩
  · exact ⟨b, hb, hlt⟩

theorem cell_value_store_cell_same (h : Heap) (c : Cell) (v : Int) (hl : CellLive h c) :
    cell_value (store_cell h c v) c = v := by
  obtain ⟨b, hb, hlt⟩ := hl
  simp [store_cell, hb, cell_value, Heap.setBlock, List.getD_eq_getElem?_getD, hlt]

theorem cell_value_store_cell_other (h : Heap) (c c1 : Cell) (v : Int) (hne : c1 ≠ c) :
    cell_value (store_cell h c v) c1 = cell_value h c1 := by
  unfold store_cell
  split
  · next b hb =>
    by_cases he : c1.1 = c.1
    · have hne2 : c.2 ≠ c1.2 := by
        intro h2
        exact hne (Prod.ext he h2.symm)
      simp [cell_value, Heap.setBlock, he, hb, List.getD_eq_getElem?_getD,
        List.getElem?_set_ne hne2]
    · simp [cell_value, Heap.setBlock, upd_other _ _ _ _ he]
  · rfl

theorem cell_value_store_cells_other : ∀ (cs : List Cell) (vs : List Int) (h : Heap) (c1 : Cell),
    c1 ∉ cs → cell_value (store_cells h cs vs) c1 = cell_value h c1
  | [], _, _, _, _ => rfl
  | _ :: _, [], _, _, _ => rfl
  | c :: cs, v :: vs, h, c1, hn => by
    simp only [List.mem_cons, not_or] at hn
    simp only [store_cells]
    rw [cell_value_store_cells_other cs vs _ c1 hn.2, cell_value_store_cell_other h c c1 v hn.1]

theorem cell_value_store_cells_nodup : ∀ (cs : List Cell) (vs : List Int) (h : Heap),
    cs.Nodup → (∀ c ∈ cs, CellLive h c) → cs.length = vs.length →
    cs.map (cell_value (store_cells h cs vs)) = vs
  | [], [], _, _, _, _ => rfl
  | [], _ :: _, _, _, _, hl => by simp at hl
  | _ :: _, [], _, _, _, hl => by simp at hl
  | c :: cs, v :: vs, h, hnd, hlive, hl => by
    rw [List.nodup_cons] at hnd
    simp only [store_cells, List.map_cons]
    rw [cell_value_store_cells_other cs vs _ c hnd.1,
      cell_value_store_cell_same h c v (hlive c (List.mem_cons_self _ _)),
      cell_value_store_cells_nodup cs vs _ hnd.2
        (fun c1 hc1 => cellLive_store_cell h c c1 v (hlive c1 (List.mem_cons_of_mem _ hc1)))
        (by simpa using hl)]

theorem store_cell_blocks_shape (h : Heap) (c : Cell) (v : Int) (i : Nat) :
    ((store_cell h c v).blocks i).map (fun b => (b.length, b.refcount, b.data.length))
      = (h.blocks i).map (fun b => (b.length, b.refcount, b.data.length)) := by
  unfold store_cell
  split
  · next b hb =>
    by_cases he : i = c.1
    · subst he
      simp [Heap.setBlock, hb]
    · simp [Heap.setBlock, upd_other _ _ _ _ he]
  · rfl

theorem store_cells_blocks_shape : ∀ (cs : List Cell) (vs : List Int) (h : Heap) (i : Nat),
    ((store_cells h cs vs).blocks i).map (fun b => (b.length, b.refcount, b.data.length))
      = (h.blocks i).map (fun b => (b.length, b.refcount, b.data.length))
  | [], _, _, _ => rfl
  | _ :: _, [], _, _ => rfl
  | c :: cs, v :: vs, h, i => by
    simp only [store_cells]
    rw [store_cells_blocks_shape cs vs _ i, store_cell_blocks_shape]

theorem segInBlock_of_shape (h h1 : Heap) (s : segment)
    (hsh : ∀ i, (h1.blocks i).map (fun b => (b.length, b.refcount, b.data.length))
      = (h.blocks i).map (fun b => (b.length, b.refcount, b.data.length)))
    (hs : SegInBlock h s) : SegInBlock h1 s := by
  obtain ⟨b, hb, hl⟩ := hs
  have := hsh s.block
  rw [hb] at this
  cases hb1 : h1.blocks s.block with
  | none => rw [hb1] at this; simp at this
  | some b1 =>
    rw [hb1] at this
    simp at this
    exact ⟨b1, hb1, by omega⟩

theorem find_segment_tail_eq (h : Heap) : ∀ (l : List Nat) (x : Nat) (fuel : Nat)
    (p : Option Nat), Chain h p (l ++ [x]) → l.length + 1 ≤ fuel →
    find_segment_tail h fuel p = some (some x)
  | [], x, fuel, p, hc, hf => by
    simp only [List.nil_append] at hc
    rw [chain_cons] at hc
    obtain ⟨rfl, s, hs, hc⟩ := hc
    rw [chain_nil] at hc
    cases fuel with
    | zero => simp at hf
    | succ fuel => simp [find_segment_tail, hs, hc]
  | i :: l, x, fuel, p, hc, hf => by
    rw [List.cons_append, chain_cons] at hc
    obtain ⟨rfl, s, hs, hc⟩ := hc
    cases fuel with
    | zero => simp at hf
    | succ fuel =>
      simp only [List.length_cons, Nat.add_le_add_iff_right] at hf
      have hn : ∃ j, s.next = some j := by
        cases l with
        | nil => rw [List.nil_append, chain_cons] at hc; exact ⟨x, hc.1⟩
        | cons j l => rw [List.cons_append, chain_cons] at hc; exact ⟨j, hc.1⟩
      obtain ⟨j, hj⟩ := hn
      simp only [find_segment_tail, hs, hj]
      rw [← hj]
      exact find_segment_tail_eq h l x fuel s.next hc hf

theorem chain_snoc (h : Heap) (l : List Nat) (x : Nat) (p : Option Nat) :
    Chain h p (l ++ [x]) ↔
      ChainTo h p l (some x) ∧ ∃ s, h.segs x = some s ∧ s.next = none := by
  constructor
  · intro hc
    obtain ⟨q, h1, h2⟩ := chainTo_split h l [x] p none hc
    simp only [ChainTo] at h2
    obtain ⟨hq, s, hs, hn⟩ := h2
    subst hq
    exact ⟨h1, s, hs, hn⟩
  · rintro ⟨h1, s, hs, hn⟩
    exact chainTo_append h l [x] p (some x) none h1 (by simp [ChainTo, hs, hn])

@[simp] theorem setSeg_segs (h : Heap) (i : Nat) (s : Option segment) :
    (h.setSeg i s).segs = upd h.segs i s := rfl
@[simp] theorem setSeg_blocks (h : Heap) (i : Nat) (s : Option segment) :
    (h.setSeg i s).blocks = h.blocks := rfl
@[simp] theorem setSeg_tracks (h : Heap) (i : Nat) (s : Option segment) :
    (h.setSeg i s).tracks = h.tracks := rfl
@[simp] theorem setSeg_nextSeg (h : Heap) (i : Nat) (s : Option segment) :
    (h.setSeg i s).nextSeg = h.nextSeg := rfl
@[simp] theorem setSeg_nextBlock (h : Heap) (i : Nat) (s : Option segment) :
    (h.setSeg i s).nextBlock = h.nextBlock := rfl
@[simp] theorem setSeg_nextTrack (h : Heap) (i : Nat) (s : Option segment) :
    (h.setSeg i s).nextTrack = h.nextTrack := rfl
@[simp] theorem setBlock_segs (h : Heap) (i : Nat) (b : Option audio_block) :
    (h.setBlock i b).segs = h.segs := rfl
@[simp] theorem setBlock_blocks (h : Heap) (i : Nat) (b : Option audio_block) :
    (h.setBlock i b).blocks = upd h.blocks i b := rfl
@[simp] theorem setBlock_tracks (h : Heap) (i : Nat) (b : Option audio_block) :
    (h.setBlock i b).tracks = h.tracks := rfl
@[simp] theorem setBlock_nextSeg (h : Heap) (i : Nat) (b : Option audio_block) :
    (h.setBlock i b).nextSeg = h.nextSeg := rfl
@[simp] theorem setBlock_nextBlock (h : Heap) (i : Nat) (b : Option audio_block) :
    (h.setBlock i b).nextBlock = h.nextBlock := rfl
@[simp] theorem setBlock_nextTrack (h : Heap) (i : Nat) (b : Option audio_block) :
    (h.setBlock i b).nextTrack = h.nextTrack := rfl
@[simp] theorem setTrack_segs (h : Heap) (i : Nat) (t : Option sound_seg) :
    (h.setTrack i t).segs = h.segs := rfl
@[simp] theorem setTrack_blocks (h : Heap) (i : Nat) (t : Option sound_seg) :
    (h.setTrack i t).blocks = h.blocks := rfl
@[simp] theorem setTrack_tracks (h : Heap) (i : Nat) (t : Option sound_seg) :
    (h.setTrack i t).tracks = upd h.tracks i t := rfl
@[simp] theorem setTrack_nextSeg (h : Heap) (i : Nat) (t : Option sound_seg) :
    (h.setTrack i t).nextSeg = h.nextSeg := rfl
@[simp] theorem setTrack_nextBlock (h : Heap) (i : Nat) (t : Option sound_seg) :
    (h.setTrack i t).nextBlock = h.nextBlock := rfl
@[simp] theorem setTrack_nextTrack (h : Heap) (i : Nat) (t : Option sound_seg) :
    (h.setTrack i t).nextTrack = h.nextTrack := rfl

@[simp] theorem allocSeg_segs (h : Heap) (s : segment) :
    (h.allocSeg s).segs = upd h.segs h.nextSeg (some s) := rfl
@[simp] theorem allocSeg_blocks (h : Heap) (s : segment) :
    (h.allocSeg s).blocks = h.blocks := rfl
@[simp] theorem allocSeg_tracks (h : Heap) (s : segment) :
    (h.allocSeg s).tracks = h.tracks := rfl
@[simp] theorem allocSeg_nextSeg (h : Heap) (s : segment) :
    (h.allocSeg s).nextSeg = h.nextSeg + 1 := rfl
@[simp] theorem allocSeg_nextBlock (h : Heap) (s : segment) :
    (h.allocSeg s).nextBlock = h.nextBlock := rfl
@[simp] theorem allocSeg_nextTrack (h : Heap) (s : segment) :
    (h.allocSeg s).nextTrack = h.nextTrack := rfl
@[simp] theorem allocBlock_segs (h : Heap) (b : audio_block) :
    (h.allocBlock b).segs = h.segs := rfl
@[simp] theorem allocBlock_blocks (h : Heap) (b : audio_block) :
    (h.allocBlock b).blocks = upd h.blocks h.nextBlock (some b) := rfl
@[simp] theorem allocBlock_tracks (h : Heap) (b : audio_block) :
    (h.allocBlock b).tracks = h.tracks := rfl
@[simp] theorem allocBlock_nextSeg (h : Heap) (b : audio_block) :
    (h.allocBlock b).nextSeg = h.nextSeg := rfl
@[simp] theorem allocBlock_nextBlock (h : Heap) (b : audio_block) :
    (h.allocBlock b).nextBlock = h.nextBlock + 1 := rfl
@[simp] theorem allocBlock_nextTrack (h : Heap) (b : audio_block) :
    (h.allocBlock b).nextTrack = h.nextTrack := rfl

theorem nodes_cells_congr_geo (h h1 : Heap) : ∀ (l : List Nat),
    (∀ i ∈ l, (h1.segs i).map seg_cells = (h.segs i).map seg_cells) →
    nodes_cells h1 l = nodes_cells h l
  | [], _ => rfl
  | i :: l, he => by
    simp only [nodes_cells]
    rw [nodes_cells_congr_geo h h1 l (fun j hj => he j (List.mem_cons_of_mem _ hj))]
    have := he i (List.mem_cons_self _ _)
    cases h1i : h1.segs i with
    | none =>
      cases hi : h.segs i with
      | none => rfl
      | some b => rw [h1i, hi] at this; simp at this
    | some a =>
      cases hi : h.segs i with
      | none => rw [h1i, hi] at this; simp at this
      | some b =>
        rw [h1i, hi] at this
        simp only [Option.map_some', Option.some.injEq] at this
        show seg_cells _ ++ _ = seg_cells _ ++ _
        rw [this]

theorem memcpy_fresh (src : List Int) (soff len : Nat) (hsrc : soff + len ≤ src.length) :
    memcpy (List.replicate len 0) 0 src soff len = some ((src.drop soff).take len) := by
  rw [memcpy_eq _ _ _ _ _ (by simp) hsrc]
  have : ((src.drop soff).take len).length = len := by
    rw [List.length_take, List.length_drop]; omega
  simp [splice, this]

/-- The effect of `append_segment` on a well-formed track. -/
theorem append_segment_eq (h : Heap) (t : Nat) (l : List Nat) (fuel : Nat) (src : List Int)
    (soff len : Nat) (hok : TrackOK h t l) (hf : l.length ≤ fuel) (hlen : 0 < len)
    (hsrc : soff + len ≤ src.length) :
    ∃ h1, append_segment fuel h t src soff len = some h1 ∧
      TrackOK h1 t (l ++ [h.nextSeg]) ∧
      h1.segs h.nextSeg = some ⟨0, len, none, [], none, h.nextBlock, 0⟩ ∧
      h1.blocks = upd h.blocks h.nextBlock (some ⟨len, 1, (src.drop soff).take len⟩) ∧
      (∀ j, j ≠ h.nextSeg → j ∉ l → h1.segs j = h.segs j) ∧
      (∀ j, j ≠ h.nextSeg → (h1.segs j).map seg_cells = (h.segs j).map seg_cells) ∧
      (∀ t1, t1 ≠ t → h1.tracks t1 = h.tracks t1) ∧
      h1.nextSeg = h.nextSeg + 1 ∧ h1.nextBlock = h.nextBlock + 1 ∧
      h1.nextTrack = h.nextTrack := by
  obtain ⟨⟨⟨tr, htr, hc⟩, hin⟩, hlt, hblk⟩ := hok
  have hnew : h.nextSeg ∉ l := fun hm => Nat.lt_irrefl _ (hlt _ hm)
  simp only [append_segment, htr, Nat.ne_of_gt hlen, if_false, memcpy_fresh src soff len hsrc]
  obtain ⟨h2, hh2⟩ : ∃ h2 : Heap, h2 =
      (h.allocBlock ⟨len, 1, (src.drop soff).take len⟩).allocSeg
        ⟨0, len, none, [], none, h.nextBlock, 0⟩ := ⟨_, rfl⟩
  rw [← hh2]
  have h2segs : h2.segs = upd h.segs h.nextSeg (some ⟨0, len, none, [], none, h.nextBlock, 0⟩) := by
    rw [hh2]; rfl
  have h2blocks : h2.blocks = upd h.blocks h.nextBlock
      (some ⟨len, 1, (src.drop soff).take len⟩) := by rw [hh2]; rfl
  have h2tracks : h2.tracks = h.tracks := by rw [hh2]; rfl
  have h2ns : h2.nextSeg = h.nextSeg + 1 := by rw [hh2]; rfl
  have h2nb : h2.nextBlock = h.nextBlock + 1 := by rw [hh2]; rfl
  have h2nt : h2.nextTrack = h.nextTrack := by rw [hh2]; rfl
  clear hh2
  have h2new : h2.segs h.nextSeg = some ⟨0, len, none, [], none, h.nextBlock, 0⟩ := by
    rw [h2segs, upd_same]
  have h2old : ∀ j ∈ l, h2.segs j = h.segs j := by
    intro j hj
    rw [h2segs, upd_other]
    exact fun he => hnew (he ▸ hj)
  have hdl : ((src.drop soff).take len).length = len := by
    rw [List.length_take, List.length_drop]; omega
  have hinb : ∀ (hx : Heap), hx.blocks = h2.blocks → ∀ s, (∃ j ∈ l, h.segs j = some s) →
      SegInBlock hx s := by
    intro hx hxb s ⟨j, hj, hs⟩
    obtain ⟨b, hb, hl⟩ := hin j hj s hs
    refine ⟨b, ?_, hl⟩
    rw [hxb, h2blocks, upd_other _ _ _ _ (Nat.ne_of_lt (hblk j hj s hs)), hb]
  have hinnew : ∀ (hx : Heap), hx.blocks = h2.blocks →
      SegInBlock hx ⟨0, len, none, [], none, h.nextBlock, 0⟩ := by
    intro hx hxb
    exact ⟨⟨len, 1, (src.drop soff).take len⟩, by rw [hxb, h2blocks]; simp, by simp [hdl]⟩
  rcases List.eq_nil_or_concat l with rfl | ⟨l0, x, rfl⟩
  · -- empty track: the new segment becomes the head
    rw [chain_nil] at hc
    simp only [hc]
    refine ⟨_, rfl, ⟨⟨⟨⟨some h.nextSeg⟩, by simp, ?_⟩, ?_⟩, ?_, ?_⟩, by simpa using h2new,
      by simpa using h2blocks, ?_, ?_, ?_, by simpa using h2ns, by simpa using h2nb,
      by simpa using h2nt⟩
    · rw [List.nil_append, chain_cons]
      exact ⟨rfl, ⟨0, len, none, [], none, h.nextBlock, 0⟩, by simpa using h2new,
        by rw [chain_nil]⟩
    · intro j hj s hs
      simp only [List.nil_append, List.mem_singleton] at hj
      subst hj
      rw [setTrack_segs, h2new] at hs
      cases hs
      exact hinnew _ rfl
    · intro j hj
      simp only [List.nil_append, List.mem_singleton] at hj
      subst hj
      simp [h2ns]
    · intro j hj s hs
      simp only [List.nil_append, List.mem_singleton] at hj
      subst hj
      rw [setTrack_segs, h2new] at hs
      cases hs
      simp [h2nb]
    · intro j hj _
      rw [setTrack_segs, h2segs, upd_other _ _ _ _ hj]
    · intro j hj
      rw [setTrack_segs, h2segs, upd_other _ _ _ _ hj]
    · intro t1 ht1
      rw [setTrack_tracks, upd_other _ _ _ _ ht1, h2tracks]
  · -- non-empty track: the new segment follows the tail `x`
    simp only [List.concat_eq_append] at hc hf hnew h2old hlt hblk hin hinb ⊢
    have hc0 := hc
    rw [chain_snoc] at hc
    obtain ⟨hpre, ts, hts, htsn⟩ := hc
    have hhd : ∃ hd, tr.head = some hd := by
      cases l0 with
      | nil => simp only [ChainTo] at hpre; exact ⟨x, hpre⟩
      | cons a l0 => simp only [ChainTo] at hpre; exact ⟨a, hpre.1⟩
    obtain ⟨hd, hhd⟩ := hhd
    have hxl : x ∈ l0 ++ [x] := by simp
    have hc2 : Chain h2 (some hd) (l0 ++ [x]) := by
      rw [← hhd]
      exact chain_congr h h2 _ _ h2old hc0
    have hnd := chain_nodup h _ _ hc0
    have hxl0 : x ∉ l0 := by
      intro hm
      rw [List.nodup_append] at hnd
      exact hnd.2.2 hm (by simp)
    simp only [hhd]
    rw [find_segment_tail_eq h2 l0 x fuel (some hd) hc2 (by simpa using hf)]
    simp only [h2old x hxl, hts]
    have hxne : x ≠ h.nextSeg := fun he => hnew (he ▸ hxl)
    refine ⟨_, rfl, ⟨⟨⟨tr, by rw [setSeg_tracks, h2tracks]; exact htr, ?_⟩, ?_⟩, ?_, ?_⟩, ?_, ?_,
      ?_, ?_, ?_, by rw [setSeg_nextSeg, h2ns], by rw [setSeg_nextBlock, h2nb],
      by rw [setSeg_nextTrack, h2nt]⟩
    · rw [chain_snoc]
      constructor
      · apply chainTo_append _ l0 [x] _ (some x)
        · refine chainTo_congr h _ l0 _ _ ?_ hpre
          intro j hj
          have hjx : j ≠ x := fun he => hxl0 (he ▸ hj)
          rw [setSeg_segs, upd_other _ _ _ _ hjx]
          exact h2old j (by simp [hj])
        · simp only [ChainTo, true_and]
          exact ⟨{ ts with next := some h.nextSeg }, by simp, rfl⟩
      · refine ⟨⟨0, len, none, [], none, h.nextBlock, 0⟩, ?_, rfl⟩
        rw [setSeg_segs, upd_other _ _ _ _ (Ne.symm hxne), h2new]
    · intro j hj s hs
      rw [List.mem_append, List.mem_singleton] at hj
      rw [setSeg_segs] at hs
      by_cases hjx : j = x
      · subst hjx
        rw [upd_same] at hs
        cases hs
        obtain ⟨b, hb, hl⟩ := hinb _ rfl ts ⟨j, hxl, hts⟩
        exact ⟨b, hb, hl⟩
      · rw [upd_other _ _ _ _ hjx] at hs
        rcases hj with hj | hj
        · rw [h2old j hj] at hs
          exact hinb _ rfl s ⟨j, hj, hs⟩
        · subst hj
          rw [h2segs, upd_same] at hs
          cases hs
          exact hinnew _ rfl
    · intro j hj
      rw [List.mem_append, List.mem_singleton] at hj
      rw [setSeg_nextSeg, h2ns]
      rcases hj with hj | hj
      · exact Nat.lt_succ_of_lt (hlt j hj)
      · subst hj; exact Nat.lt_succ_self _
    · intro j hj s hs
      rw [List.mem_append, List.mem_singleton] at hj
      rw [setSeg_segs] at hs
      rw [setSeg_nextBlock, h2nb]
      by_cases hjx : j = x
      · subst hjx
        rw [upd_same] at hs
        cases hs
        exact Nat.lt_succ_of_lt (hblk j hxl ts hts)
      · rw [upd_other _ _ _ _ hjx] at hs
        rcases hj with hj | hj
        · rw [h2old j hj] at hs
          exact Nat.lt_succ_of_lt (hblk j hj s hs)
        · subst hj
          rw [h2segs, upd_same] at hs
          cases hs
          exact Nat.lt_succ_self _
    · rw [setSeg_segs, upd_other _ _ _ _ (Ne.symm hxne), h2segs, upd_same]
    · rw [setSeg_blocks, h2blocks]
    · intro j hj hjl
      have hjx : j ≠ x := fun he => hjl (he ▸ hxl)
      rw [setSeg_segs, upd_other _ _ _ _ hjx, h2segs, upd_other _ _ _ _ hj]
    · intro j hj
      rw [setSeg_segs]
      by_cases hjx : j = x
      · subst hjx
        rw [upd_same, hts]
        rfl
      · rw [upd_other _ _ _ _ hjx, h2segs, upd_other _ _ _ _ hj]
    · intro t1 _
      rw [setSeg_tracks, h2tracks]

theorem trackOK_store_cells (h : Heap) (t : Nat) (l : List Nat) (cs : List Cell)
    (vs : List Int) (hok : TrackOK h t l) : TrackOK (store_cells h cs vs) t l := by
  obtain ⟨⟨⟨tr, htr, hc⟩, hin⟩, hlt, hblk⟩ := hok
  refine ⟨⟨⟨tr, by simpa using htr, chain_congr h _ l _ (fun _ _ => by simp) hc⟩, ?_⟩, ?_, ?_⟩
  · intro i hi s hs
    rw [store_cells_segs] at hs
    exact segInBlock_of_shape h _ s (store_cells_blocks_shape cs vs h) (hin i hi s hs)
  · simpa using hlt
  · intro i hi s hs
    rw [store_cells_segs] at hs
    simpa using hblk i hi s hs

/-- The heap after `tr_write` on a well-formed track: the covered cells are stored, and
the rest of the buffer, if any, is appended. -/
theorem tr_write_eq (h : Heap) (t : Nat) (l : List Nat) (fuel : Nat) (src : List Int)
    (pos len : Nat) (hok : TrackOK h t l) (hf : l.length ≤ fuel) (hlen : 0 < len)
    (hsrc : len ≤ src.length) (hfit : (nodes_cells h l).length < SIZE_MOD) :
    tr_write fuel h t src pos len =
      (if min len ((nodes_cells h l).length - pos) < len then
         append_segment fuel
           (store_cells h (((nodes_cells h l).drop pos).take
              (min len ((nodes_cells h l).length - pos)))
              (src.take (min len ((nodes_cells h l).length - pos))))
           t src (min len ((nodes_cells h l).length - pos))
           (len - min len ((nodes_cells h l).length - pos))
       else
         some (store_cells h (((nodes_cells h l).drop pos).take
              (min len ((nodes_cells h l).length - pos)))
              (src.take (min len ((nodes_cells h l).length - pos))))) := by
  have hL := tr_length_eq h t l fuel hok.1 hf hfit
  obtain ⟨⟨⟨tr, htr, hc⟩, hin⟩, _, _⟩ := hok
  simp only [tr_write, hL, htr, Nat.ne_of_gt hlen, if_false]
  rw [tr_write_loop_eq _ src l fuel h tr.head 0 pos 0 len hc hin hf (Nat.zero_le _) (by simp)
    (by simpa using hsrc) hfit (by omega)]
  simp only [Nat.sub_zero, List.drop_zero, Nat.zero_add]
  by_cases hk : min len ((nodes_cells h l).length - pos) < len
  · have : len - min len ((nodes_cells h l).length - pos) > 0 := by omega
    simp only [this, hk, if_true]
  · have : ¬ len - min len ((nodes_cells h l).length - pos) > 0 := by omega
    simp only [this, hk, if_false]

theorem mem_seg_cells (s : segment) (c : Cell) :
    c ∈ seg_cells s ↔ c.1 = s.block ∧ s.offset ≤ c.2 ∧ c.2 < s.offset + s.length := by
  simp only [seg_cells, List.mem_map, List.mem_range]
  constructor
  · rintro ⟨k, hk, rfl⟩
    exact ⟨rfl, by simp, by simp; omega⟩
  · rintro ⟨h1, h2, h3⟩
    exact ⟨c.2 - s.offset, by omega, Prod.ext h1.symm (by simp; omega)⟩

theorem mem_nodes_cells (h : Heap) : ∀ (l : List Nat) (c : Cell),
    c ∈ nodes_cells h l ↔ ∃ i ∈ l, ∃ s, h.segs i = some s ∧ c ∈ seg_cells s
  | [], c => by simp [nodes_cells]
  | i :: l, c => by
    simp only [nodes_cells, List.mem_append, mem_nodes_cells h l c, List.mem_cons,
      exists_eq_or_imp]
    constructor
    · rintro (h1 | h1)
      · left
        cases hs : h.segs i with
        | none => rw [hs] at h1; simp at h1
        | some s => rw [hs] at h1; exact ⟨s, rfl, h1⟩
      · exact Or.inr h1
    · rintro (⟨s, hs, h1⟩ | h1)
      · left; rw [hs]; exact h1
      · exact Or.inr h1

theorem nodes_cells_live (h : Heap) (l : List Nat)
    (hin : ∀ i ∈ l, ∀ s, h.segs i = some s → SegInBlock h s) (c : Cell)
    (hc : c ∈ nodes_cells h l) : CellLive h c := by
  rw [mem_nodes_cells] at hc
  obtain ⟨i, hi, s, hs, hcs⟩ := hc
  obtain ⟨b, hb, hl⟩ := hin i hi s hs
  rw [mem_seg_cells] at hcs
  exact ⟨b, by rw [hcs.1]; exact hb, by omega⟩

theorem nodes_cells_block_lt (h : Heap) (l : List Nat)
    (hblk : ∀ i ∈ l, ∀ s, h.segs i = some s → s.block < h.nextBlock) (c : Cell)
    (hc : c ∈ nodes_cells h l) : c.1 < h.nextBlock := by
  rw [mem_nodes_cells] at hc
  obtain ⟨i, hi, s, hs, hcs⟩ := hc
  rw [mem_seg_cells] at hcs
  rw [hcs.1]
  exact hblk i hi s hs

theorem cell_value_congr (h h1 : Heap) (c : Cell) (hb : h1.blocks c.1 = h.blocks c.1) :
    cell_value h1 c = cell_value h c := by
  simp only [cell_value, hb]

/-- The state after `tr_write` on a well-formed track. -/
theorem tr_write_spec (h : Heap) (t : Nat) (l : List Nat) (fuel : Nat) (src : List Int)
    (pos len : Nat) (hok : TrackOK h t l) (hf : l.length ≤ fuel) (hlen : 0 < len)
    (hsrc : len ≤ src.length) (hfit : (nodes_cells h l).length < SIZE_MOD) :
    ∃ h1, tr_write fuel h t src pos len = some h1 ∧
      TrackOK h1 t (if covered h l pos len < len then l ++ [h.nextSeg] else l) ∧
      nodes_samples h1 (if covered h l pos len < len then l ++ [h.nextSeg] else l) =
        (nodes_cells h l).map (cell_value (overwritten h l src pos len)) ++
          (src.drop (covered h l pos len)).take (len - covered h l pos len) ∧
      (covered h l pos len < len →
        h1.segs h.nextSeg =
          some ⟨0, len - covered h l pos len, none, [], none, h.nextBlock, 0⟩ ∧
        h1.blocks h.nextBlock = some ⟨len - covered h l pos len, 1,
          (src.drop (covered h l pos len)).take (len - covered h l pos len)⟩ ∧
        h1.nextSeg = h.nextSeg + 1 ∧ h1.nextBlock = h.nextBlock + 1) ∧
      (¬ covered h l pos len < len →
        h1.segs = h.segs ∧ h1.nextSeg = h.nextSeg ∧ h1.nextBlock = h.nextBlock) := by
  rw [tr_write_eq h t l fuel src pos len hok hf hlen hsrc hfit]
  have hokw : TrackOK (overwritten h l src pos len) t l := trackOK_store_cells h t l _ _ hok
  show ∃ h1, (if covered h l pos len < len then
      append_segment fuel (overwritten h l src pos len) t src (covered h l pos len)
        (len - covered h l pos len)
    else some (overwritten h l src pos len)) = some h1 ∧ _
  by_cases hk : covered h l pos len < len
  · simp only [hk, if_true]
    obtain ⟨h1, he, hok1, hseg, hblocks, _, hgeo, _, hns, hnb, _⟩ :=
      append_segment_eq (overwritten h l src pos len) t l fuel src (covered h l pos len)
        (len - covered h l pos len) hokw hf (by omega) (by omega)
    have e1 : (overwritten h l src pos len).nextSeg = h.nextSeg := by simp [overwritten]
    have e2 : (overwritten h l src pos len).nextBlock = h.nextBlock := by simp [overwritten]
    rw [e1] at hok1 hseg hgeo hns
    rw [e2] at hseg hblocks hnb
    refine ⟨h1, he, hok1, ?_, fun _ => ⟨hseg, by rw [hblocks, upd_same], hns, hnb⟩,
      fun hn => absurd trivial hn⟩
    have hnew : h.nextSeg ∉ l := fun hm => Nat.lt_irrefl _ (hok.2.1 _ hm)
    have hdl : ((src.drop (covered h l pos len)).take (len - covered h l pos len)).length
        = len - covered h l pos len := by
      rw [List.length_take, List.length_drop]; omega
    simp only [nodes_samples]
    rw [nodes_cells_append, List.map_append]
    congr 1
    · rw [nodes_cells_congr_geo (overwritten h l src pos len) h1 l
        (fun j hj => hgeo j (fun he => hnew (he ▸ hj)))]
      rw [nodes_cells_congr h _ l (fun _ _ => by simp [overwritten])]
      apply List.map_congr_left
      intro c hc
      apply cell_value_congr
      rw [hblocks, upd_other]
      exact Nat.ne_of_lt (nodes_cells_block_lt h l hok.2.2 c hc)
    · simp only [nodes_cells, hseg, List.append_nil]
      apply List.ext_getElem
      · simp [seg_cells, hdl]
      · intro n hn1 hn2
        simp [seg_cells] at hn1
        simp [seg_cells, cell_value, hblocks]
        rw [List.getElem?_eq_getElem (by rw [hdl]; omega)]
        simp
  · simp only [hk, if_false]
    refine ⟨_, rfl, hokw, ?_, fun hn => absurd hn (by simp), fun _ => by simp [overwritten]⟩
    have : len - covered h l pos len = 0 := by omega
    simp only [nodes_samples, this, List.take_zero, List.append_nil]
    rw [nodes_cells_congr h _ l (fun _ _ => by simp [overwritten])]

theorem overwritten_values (h : Heap) (l : List Nat) (src : List Int) (pos len : Nat)
    (hin : ∀ i ∈ l, ∀ s, h.segs i = some s → SegInBlock h s) (hsrc : len ≤ src.length)
    (hnd : ((nodes_cells h l).drop pos).take len |>.Nodup) :
    (((nodes_cells h l).drop pos).take (covered h l pos len)).map
      (cell_value (overwritten h l src pos len)) = src.take (covered h l pos len) := by
  have hk : ((nodes_cells h l).drop pos).take (covered h l pos len)
      = ((nodes_cells h l).drop pos).take len := by
    simp only [covered]
    rw [Nat.min_def]
    split
    · rfl
    · rw [List.take_of_length_le (by simp), List.take_of_length_le (by simp; omega)]
  apply cell_value_store_cells_nodup
  · rw [hk]; exact hnd
  · intro c hc
    exact nodes_cells_live h l hin c (List.mem_of_mem_drop (List.mem_of_mem_take hc))
  · simp only [covered, List.length_take, List.length_drop]
    omega

theorem read_all_eq (h : Heap) (t : Nat) (l : List Nat) (fuel : Nat)
    (ht : TrackChain h t l) (hf : l.length ≤ fuel)
    (hfit : (nodes_cells h l).length < SIZE_MOD) :
    read_all fuel h t = some (nodes_samples h l) := by
  simp only [read_all, tr_length_eq h t l fuel ht hf hfit]
  rw [tr_read_eq h t l fuel _ 0 _ ht hf (by simp) hfit]
  simp [nodes_samples_length]

/-- C6 (amended): on a well-formed track of length `L`, for `pos ≤ L` and a buffer `src`
of `len` samples such that the positions `pos ..` overwritten by the write view pairwise
distinct block cells, `tr_write` at `pos` followed by `tr_read` of `len` samples at `pos`
puts `src` into the first `len` elements of the destination.  The length
`max L (pos + len)` of the track after the write is a `size_t` value. -/
theorem tr_read_after_write (h : Heap) (t : Nat) (l : List Nat) (fuel : Nat)
    (src dst : List Int) (pos len : Nat) (hok : TrackOK h t l) (hf : l.length < fuel)
    (hpos : pos ≤ (nodes_cells h l).length) (hsrc : src.length = len)
    (hdst : len ≤ dst.length)
    (hnd : (((nodes_cells h l).drop pos).take len).Nodup)
    (hfit : max (nodes_cells h l).length (pos + len) < SIZE_MOD) :
    ∃ h1, tr_write fuel h t src pos len = some h1 ∧
      tr_read fuel h1 t dst pos len = some (src ++ dst.drop len) := by
  by_cases hlen : len = 0
  · subst hlen
    have hL := tr_length_eq h t l fuel hok.1 (Nat.le_of_lt hf) (by omega)
    obtain ⟨⟨tr, htr, _⟩, _⟩ := hok.1
    have hs : src = [] := List.length_eq_zero.mp hsrc
    refine ⟨h, by simp [tr_write, hL, htr], ?_⟩
    simp [tr_read, hL, htr, hs]
  have hlen0 : 0 < len := Nat.pos_of_ne_zero hlen
  obtain ⟨h1, he, hok1, hsam, _, _⟩ :=
    tr_write_spec h t l fuel src pos len hok (Nat.le_of_lt hf) hlen0 (by omega) (by omega)
  have hB := overwritten_values h l src pos len hok.1.2 (by omega) hnd
  obtain ⟨k, hk⟩ : ∃ k, k = covered h l pos len := ⟨_, rfl⟩
  rw [← hk] at hsam hok1 hB
  have hkv : k = min len ((nodes_cells h l).length - pos) := by rw [hk]; rfl
  have hf1 : (if k < len then l ++ [h.nextSeg] else l).length ≤ fuel := by
    split
    · simp; omega
    · omega
  have hlen1 : (nodes_cells h1 (if k < len then l ++ [h.nextSeg] else l)).length =
      (nodes_cells h l).length + (len - k) := by
    rw [← nodes_samples_length, hsam]
    simp only [List.length_append, List.length_map, List.length_take, List.length_drop]
    omega
  refine ⟨h1, he, ?_⟩
  rw [tr_read_eq h1 t _ fuel dst pos len hok1.1 hf1
    (Nat.le_trans (Nat.min_le_left _ _) hdst) (by rw [hlen1]; omega), hlen1, hsam]
  have e1 : min len ((nodes_cells h l).length + (len - k) - pos) = len := by
    rw [hkv]; omega
  rw [e1]
  congr 2
  have hM : ((List.map (cell_value (overwritten h l src pos len)) (nodes_cells h l)).drop
      pos).take k = src.take k := by
    rw [← List.map_drop, ← List.map_take]; exact hB
  have hMl : ((List.map (cell_value (overwritten h l src pos len)) (nodes_cells h l)).drop
      pos).length = (nodes_cells h l).length - pos := by simp
  rw [List.drop_append_of_le_length (by simp; omega)]
  by_cases hc : k < len
  · have hkL : k = (nodes_cells h l).length - pos := by omega
    rw [take_append_ge _ _ _ (by rw [hMl]; omega), hMl, ← hkL,
      List.take_of_length_le (by rw [List.length_take, List.length_drop]; omega)]
    have : List.drop pos (List.map (cell_value (overwritten h l src pos len)) (nodes_cells h l))
        = src.take k := by
      rw [← hM, List.take_of_length_le (by rw [hMl]; omega)]
    rw [this, ← List.take_add, List.take_of_length_le (by omega)]
  · have hkl : k = len := by omega
    rw [List.take_append_of_le_length (by rw [hMl]; omega)]
    rw [hkl] at hM
    rw [hM, List.take_of_length_le (by omega)]

theorem join_lines_go (results : String) : ∀ (ss : List String),
    join_lines results false ss = String.intercalate.go results "\n" ss
  | [] => rfl
  | s :: ss => by
    simp only [join_lines, String.intercalate.go, Bool.false_eq_true, if_false]
    rw [← String.append_assoc]
    exact join_lines_go _ ss

theorem join_lines_intercalate (ss : List String) :
    join_lines "" true ss = String.intercalate "\n" ss := by
  cases ss with
  | nil => rfl
  | cons s ss =>
    simp only [join_lines, if_true, String.empty_append, String.intercalate]
    exact join_lines_go s ss

theorem correlate_eq (td ad : List Int) (pos : Nat) : ∀ (n i : Nat) (acc : ℚ),
    pos + i + n ≤ td.length → i + n ≤ ad.length →
    correlate td ad pos n i acc = some
      (((List.zip (td.drop (pos + i)) (ad.drop i)).take n).foldl
        (fun acc p => mul_add_double acc p.1 p.2) acc)
  | 0, i, acc, _, _ => by simp [correlate]
  | n + 1, i, acc, h1, h2 => by
    have ht : pos + i < td.length := by omega
    have ha : i < ad.length := by omega
    simp only [correlate, List.getElem?_eq_getElem ht, List.getElem?_eq_getElem ha]
    rw [correlate_eq td ad pos n (i + 1) _ (by omega) (by omega)]
    rw [List.drop_eq_getElem_cons ht, List.drop_eq_getElem_cons ha]
    simp only [List.zip_cons_cons, List.take_succ_cons, List.foldl_cons]
    rfl

theorem correlate_window (td ad : List Int) (pos : Nat) (h1 : pos + ad.length ≤ td.length) :
    correlate td ad pos ad.length 0 0 = some (window_sum_double td ad pos) := by
  rw [correlate_eq td ad pos ad.length 0 0 (by omega) (by omega)]
  simp only [Nat.add_zero, List.drop_zero, window_sum_double]
  rw [List.take_of_length_le]
  simp

theorem tr_identify_loop_eq (xs ys : List Int) (r : ℚ)
    (hr : r = div_len_double (window_sum_double ys ys 0) ys.length) (hy : 0 < ys.length)
    (hfit : xs.length + ys.length < SIZE_MOD) :
    ∀ (fuel sfuel pos : Nat) (results : String) (first_result : Bool),
    xs.length + 1 ≤ pos + fuel → xs.length + 1 ≤ pos + sfuel → pos ≤ xs.length →
    tr_identify_loop xs ys xs.length ys.length r fuel pos results first_result =
      some (join_lines results first_result ((identify_scan_double xs ys sfuel pos).map
        (fun p => toString p.1 ++ "," ++ toString p.2)))
  | 0, sfuel, pos, results, first_result, h1, _, hp => by omega
  | fuel + 1, 0, pos, results, first_result, _, h2, hp => by omega
  | fuel + 1, sfuel + 1, pos, results, first_result, h1, h2, hp => by
    unfold tr_identify_loop
    rw [size_add_eq pos ys.length (by omega)]
    by_cases hc : pos + ys.length ≤ xs.length
    · simp only [hc, if_true, correlate_window xs ys pos hc, identify_scan_double, ← hr]
      rw [size_sub_eq (pos + ys.length) 1 (by omega) (by omega),
        size_add_eq (pos + ys.length - 1) 1 (by omega), size_add_eq pos 1 (by omega)]
      by_cases hm : div_len_double (window_sum_double xs ys pos) ys.length
          ≥ round_double (double_0_95 * r)
      · simp only [hm, if_true, List.map_cons, join_lines]
        have e1 : pos + ys.length - 1 + 1 = pos + ys.length := by omega
        rw [e1, tr_identify_loop_eq xs ys r hr hy hfit fuel sfuel (pos + ys.length) _ false
          (by omega) (by omega) hc]
        congr 3
      · simp only [hm, if_false]
        exact tr_identify_loop_eq xs ys r hr hy hfit fuel sfuel (pos + 1) results first_result
          (by omega) (by omega) (by omega)
    · simp [hc, identify_scan_double, join_lines]

theorem identify_scan_starts (xs ys : List Int) : ∀ (fuel pos : Nat),
    ∀ p ∈ identify_scan_double xs ys fuel pos, pos ≤ p.1 ∧ p.2 = p.1 + ys.length - 1
  | 0, _, p, hp => by simp [identify_scan_double] at hp
  | fuel + 1, pos, p, hp => by
    simp only [identify_scan_double] at hp
    split at hp
    · split at hp
      · rw [List.mem_cons] at hp
        rcases hp with rfl | hp
        · exact ⟨Nat.le_refl _, rfl⟩
        · have := identify_scan_starts xs ys fuel _ p hp
          exact ⟨by omega, this.2⟩
      · have := identify_scan_starts xs ys fuel _ p hp
        exact ⟨by omega, this.2⟩
    · simp at hp

theorem identify_scan_disjoint (xs ys : List Int) (hy : 0 < ys.length) : ∀ (fuel pos : Nat),
    (identify_scan_double xs ys fuel pos).Pairwise (fun p q => p.2 < q.1)
  | 0, _ => by simp [identify_scan_double]
  | fuel + 1, pos => by
    simp only [identify_scan_double]
    split
    · split
      · rw [List.pairwise_cons]
        refine ⟨?_, identify_scan_disjoint xs ys hy fuel _⟩
        intro q hq
        have := identify_scan_starts xs ys fuel _ q hq
        simp only
        omega
      · exact identify_scan_disjoint xs ys hy fuel _
    · simp

theorem singleAtZero_length (h : Heap) (t : Nat) (xs : List Int) (fuel : Nat)
    (hs : SingleAtZero h t xs) (hf : 1 ≤ fuel) (hfit : xs.length < SIZE_MOD) :
    tr_length fuel h t = some xs.length := by
  rcases hs with ⟨ht, rfl⟩ | ⟨i, s, b, ht, hs, hn, _, hl, _, _, _⟩
  · simp [tr_length, ht, segment_chain_length]
  · cases fuel with
    | zero => omega
    | succ fuel =>
      simp only [tr_length, ht, segment_chain_length, hs, hn, hl]
      rw [size_add_eq 0 xs.length (by omega), Nat.zero_add]

/-- C10, as the code has it: for a target and an ad track that are each empty or a single
segment at offset 0 (as left by `tr_init` and at most one `tr_write` at position 0),
holding the samples `xs` and `ys`, `tr_identify` returns the text of the reference scan in
which the arithmetic is that of `double`: the empty text when a track is empty or the ad is
longer, else the matches `pos,pos+|ys|-1` found by scanning from 0 and skipping past each
match, a window matching when its sum of products, accumulated in `double` and divided by
`|ys|`, is at least the `double` product of `0.95` and the energy of the ad computed the
same way; the matches are joined by single newlines and do not overlap. -/
theorem tr_identify_reference (h : Heap) (target ad : Nat) (xs ys : List Int) (fuel : Nat)
    (ht : SingleAtZero h target xs) (ha : SingleAtZero h ad ys) (hf : xs.length + 1 ≤ fuel)
    (hfit : xs.length + ys.length < SIZE_MOD) :
    tr_identify fuel h target ad = some (identify_reference_double xs ys) ∧
    (0 < ys.length →
      (identify_scan_double xs ys (xs.length + 1) 0).Pairwise (fun p q => p.2 < q.1)) := by
  constructor
  · have hlt := singleAtZero_length h target xs fuel ht (by omega) (by omega)
    have hla := singleAtZero_length h ad ys fuel ha (by omega) (by omega)
    simp only [tr_identify, hlt, hla]
    rcases ht with ⟨ht, rfl⟩ | ⟨i, s, b, ht, hs, _, _, _, hb, hd, hne⟩
    · rcases ha with ⟨ha, rfl⟩ | ⟨j, s2, b2, ha, _⟩ <;>
        simp [ht, ha, identify_reference_double]
    · rcases ha with ⟨ha, rfl⟩ | ⟨j, s2, b2, ha, hs2, _, _, _, hb2, hd2, hne2⟩
      · simp [ht, ha, identify_reference_double]
      · simp only [ht, ha]
        have hx0 : xs.length ≠ 0 := fun hx => hne (List.length_eq_zero.mp hx)
        have hy0 : ys.length ≠ 0 := fun hy => hne2 (List.length_eq_zero.mp hy)
        by_cases hgt : ys.length > xs.length
        · simp [hgt, identify_reference_double]
        · have hcond : ¬ (xs.length = 0 ∨ ys.length = 0 ∨ ys.length > xs.length) := by
            simp [hx0, hy0, hgt]
          have hcond2 : ¬ (xs = [] ∨ ys = [] ∨ ys.length > xs.length) := by
            simp [hne, hne2, hgt]
          simp only [hcond, if_false, hs, hs2, hb, hb2, hd, hd2, identify_reference_double,
            hcond2, correlate_window ys ys 0 (by omega)]
          rw [tr_identify_loop_eq xs ys _ rfl (by omega) hfit fuel (xs.length + 1) 0 "" true
            (by omega) (by omega) (Nat.zero_le _), join_lines_intercalate]
  · exact fun hy => identify_scan_disjoint xs ys hy _ _

theorem tr_delete_range_of_refused (fuel : Nat) (h : Heap) (t pos len L : Nat) (tr : sound_seg)
    (hL : tr_length fuel h t = some L) (ht : h.tracks t = some tr)
    (hc : can_delete_range fuel h t pos len = some false) :
    tr_delete_range fuel h t pos len = some (false, h) := by
  simp only [tr_delete_range, hL, ht, hc]
  split <;> rfl

/-- C4: a `tr_delete_range` that returns false leaves the heap as it was: every segment,
block, track and counter is the same, hence also the length and the read-back of every
track. -/
theorem tr_delete_range_refusal (fuel : Nat) (h h1 : Heap) (t pos len : Nat)
    (hr : tr_delete_range fuel h t pos len = some (false, h1)) :
    h1 = h ∧ h1.segs = h.segs ∧ h1.blocks = h.blocks ∧ h1.tracks = h.tracks ∧
    (∀ f t1, tr_length f h1 t1 = tr_length f h t1) ∧
    (∀ f t1, read_all f h1 t1 = read_all f h t1) := by
  have := tr_delete_range_false fuel h h1 t pos len hr
  subst this
  exact ⟨rfl, rfl, rfl, rfl, fun _ _ => rfl, fun _ _ => rfl⟩

/-! ### The family of a segment: ancestors and descendants -/

theorem upk_succ_some (h : Heap) (k z w : Nat) (hu : upk h (k + 1) z = some w) :
    ∃ s p, h.segs z = some s ∧ s.parent = some p ∧ upk h k p = some w := by
  simp only [upk] at hu
  cases hs : h.segs z with
  | none => simp [hs] at hu
  | some s =>
    cases hp : s.parent with
    | none => simp [hs, hp] at hu
    | some p => exact ⟨s, p, rfl, hp, by simpa [hs, hp] using hu⟩

theorem upk_succ (h : Heap) (k z p : Nat) (s : segment) (hs : h.segs z = some s)
    (hp : s.parent = some p) : upk h (k + 1) z = upk h k p := by
  simp [upk, hs, hp]

theorem upk_le (h : Heap) (hwf : HeapWF h) : ∀ (k z w : Nat), upk h k z = some w → w ≤ z
  | 0, z, w, hu => by
    simp only [upk, Option.some.injEq] at hu
    omega
  | k + 1, z, w, hu => by
    obtain ⟨s, p, hs, hp, hu1⟩ := upk_succ_some h k z w hu
    have h1 := upk_le h hwf k p w hu1
    have h2 := (hwf z s hs).2.2.2.2.1 p hp
    omega

theorem upk_add (h : Heap) : ∀ (a b z w v : Nat), upk h a z = some w → upk h b w = some v →
    upk h (a + b) z = some v
  | 0, b, z, w, v, h1, h2 => by
    simp only [upk, Option.some.injEq] at h1
    subst h1
    simpa using h2
  | a + 1, b, z, w, v, h1, h2 => by
    obtain ⟨s, p, hs, hp, hu1⟩ := upk_succ_some h a z w h1
    have e : a + 1 + b = (a + b) + 1 := by omega
    rw [e, upk_succ h _ z p s hs hp]
    exact upk_add h a b p w v hu1 h2

theorem upk_split (h : Heap) : ∀ (a b z v : Nat), upk h (a + b) z = some v →
    ∃ w, upk h a z = some w ∧ upk h b w = some v
  | 0, b, z, v, h1 => ⟨z, rfl, by simpa using h1⟩
  | a + 1, b, z, v, h1 => by
    have e : a + 1 + b = (a + b) + 1 := by omega
    rw [e] at h1
    obtain ⟨s, p, hs, hp, hu1⟩ := upk_succ_some h _ z v h1
    rw [upk_succ h _ z p s hs hp]
    exact upk_split h a b p v hu1

theorem upk_functional (h : Heap) (k z w v : Nat) (h1 : upk h k z = some w)
    (h2 : upk h k z = some v) : w = v := by
  rw [h1] at h2
  exact Option.some.inj h2

theorem preorder_list_mem (f : Nat → Option (List Nat)) : ∀ (cs Ls : List Nat),
    preorder_list f cs = some Ls →
    ∀ z, z ∈ Ls ↔ ∃ c ∈ cs, ∃ Lc, f c = some Lc ∧ z ∈ Lc
  | [], Ls, he, z => by
    simp only [preorder_list, Option.some.injEq] at he
    subst he
    simp
  | c :: cs, Ls, he, z => by
    simp only [preorder_list] at he
    cases hc : f c with
    | none => simp [hc] at he
    | some a =>
      cases hr : preorder_list f cs with
      | none => simp [hc, hr] at he
      | some b =>
        simp only [hc, hr, Option.some.injEq] at he
        subst he
        have ih := preorder_list_mem f cs b hr z
        simp only [List.mem_append, ih, List.mem_cons, exists_eq_or_imp, hc, Option.some.injEq,
          exists_eq_left']

theorem preorder_list_congr (f g : Nat → Option (List Nat)) : ∀ (cs : List Nat),
    (∀ c ∈ cs, f c = g c) → preorder_list f cs = preorder_list g cs
  | [], _ => rfl
  | c :: cs, he => by
    simp only [preorder_list]
    rw [he c (List.mem_cons_self _ _),
      preorder_list_congr f g cs (fun d hd => he d (List.mem_cons_of_mem _ hd))]

theorem preorder_list_cons (f : Nat → Option (List Nat)) (c : Nat) (cs a b : List Nat)
    (hc : f c = some a) (hr : preorder_list f cs = some b) :
    preorder_list f (c :: cs) = some (a ++ b) := by
  simp [preorder_list, hc, hr]

theorem preorder_list_cons_some (f : Nat → Option (List Nat)) (c : Nat) (cs Ls : List Nat)
    (he : preorder_list f (c :: cs) = some Ls) :
    ∃ a b, f c = some a ∧ preorder_list f cs = some b ∧ Ls = a ++ b := by
  simp only [preorder_list] at he
  cases hc : f c with
  | none => simp [hc] at he
  | some a =>
    cases hr : preorder_list f cs with
    | none => simp [hc, hr] at he
    | some b =>
      simp only [hc, hr, Option.some.injEq] at he
      exact ⟨a, b, rfl, rfl, he.symm⟩

theorem preorder_list_some_of_mem (f : Nat → Option (List Nat)) : ∀ (cs Ls : List Nat),
    preorder_list f cs = some Ls → ∀ c ∈ cs, ∃ Lc, f c = some Lc
  | [], _, _, c, hc => by simp at hc
  | d :: ds, Ls, he, c, hc => by
    obtain ⟨a, b, hd, hr, _⟩ := preorder_list_cons_some f d ds Ls he
    rcases List.mem_cons.mp hc with rfl | hc2
    · exact ⟨a, hd⟩
    · exact preorder_list_some_of_mem f ds b hr c hc2

theorem preorder_succ (h : Heap) (F y : Nat) (s : segment) (Ls : List Nat)
    (hs : h.segs y = some s) (hl : preorder_list (preorder h F) s.children = some Ls) :
    preorder h (F + 1) y = some (y :: Ls) := by
  simp [preorder, hs, hl]

theorem preorder_succ_some (h : Heap) (F y : Nat) (L : List Nat)
    (he : preorder h (F + 1) y = some L) :
    ∃ s Ls, h.segs y = some s ∧ preorder_list (preorder h F) s.children = some Ls ∧
      L = y :: Ls := by
  simp only [preorder] at he
  cases hs : h.segs y with
  | none => simp [hs] at he
  | some s =>
    cases hl : preorder_list (preorder h F) s.children with
    | none => simp [hs, hl] at he
    | some Ls =>
      simp only [hs, hl, Option.some.injEq] at he
      exact ⟨s, Ls, rfl, hl, he.symm⟩

theorem preorder_mono (h : Heap) : ∀ (F F1 y : Nat) (L : List Nat),
    preorder h F y = some L → F ≤ F1 → preorder h F1 y = some L
  | 0, _, _, _, he, _ => by simp [preorder] at he
  | F + 1, 0, _, _, _, hle => by omega
  | F + 1, F1 + 1, y, L, he, hle => by
    obtain ⟨s, Ls, hs, hl, rfl⟩ := preorder_succ_some h F y L he
    apply preorder_succ h F1 y s Ls hs
    rw [← hl]
    apply preorder_list_congr
    intro c hc
    have hc1 : ∃ Lc, preorder h F c = some Lc := preorder_list_some_of_mem _ _ _ hl c hc
    obtain ⟨Lc, hLc⟩ := hc1
    rw [hLc, preorder_mono h F F1 c Lc hLc (by omega)]

theorem preorder_head (h : Heap) (F y : Nat) (L : List Nat) (he : preorder h F y = some L) :
    y ∈ L := by
  cases F with
  | zero => simp [preorder] at he
  | succ F =>
    obtain ⟨s, Ls, _, _, rfl⟩ := preorder_succ_some h F y L he
    exact List.mem_cons_self _ _

/-- Every member of a preorder list is live and below the root through `upk`. -/
theorem preorder_up (h : Heap) (hwf : HeapWF h) : ∀ (F y : Nat) (L : List Nat),
    preorder h F y = some L → ∀ z ∈ L, ∃ k, upk h k z = some y
  | 0, _, _, he, _, _ => by simp [preorder] at he
  | F + 1, y, L, he, z, hz => by
    obtain ⟨s, Ls, hs, hl, rfl⟩ := preorder_succ_some h F y L he
    rcases List.mem_cons.mp hz with rfl | hz
    · exact ⟨0, rfl⟩
    · obtain ⟨c, hc, Lc, hLc, hzc⟩ := (preorder_list_mem _ _ _ hl z).mp hz
      obtain ⟨k, hk⟩ := preorder_up h hwf F c Lc hLc z hzc
      obtain ⟨cs, hcs, hcp⟩ := (hwf y s hs).2.2.2.2.2.2 c hc
      exact ⟨k + 1, upk_add h k 1 z c y hk (by simp [upk, hcs, hcp])⟩

theorem upk_child_le (h : Heap) (hwf : HeapWF h) (y c c1 a d : Nat) (sc sc1 : segment)
    (hc : h.segs c = some sc) (hp : sc.parent = some y)
    (hc1 : h.segs c1 = some sc1) (hp1 : sc1.parent = some y)
    (z : Nat) (h1 : upk h a z = some c) (h2 : upk h (a + d) z = some c1) : c = c1 := by
  obtain ⟨w, hw, hd⟩ := upk_split h a d z c1 h2
  have := upk_functional h a z w c hw h1
  subst this
  cases d with
  | zero =>
    simp only [upk, Option.some.injEq] at hd
    exact hd
  | succ d =>
    rw [upk_succ h d w y sc hc hp] at hd
    have h3 := upk_le h hwf d y c1 hd
    have h4 := ((hwf c1 sc1 hc1).2.2.2.2.1 y hp1).1
    omega

theorem upk_unique_child (h : Heap) (hwf : HeapWF h) (y c c1 a b : Nat) (sc sc1 : segment)
    (hc : h.segs c = some sc) (hp : sc.parent = some y)
    (hc1 : h.segs c1 = some sc1) (hp1 : sc1.parent = some y)
    (z : Nat) (h1 : upk h a z = some c) (h2 : upk h b z = some c1) : c = c1 := by
  by_cases hab : a ≤ b
  · obtain ⟨d, rfl⟩ : ∃ d, b = a + d := ⟨b - a, by omega⟩
    exact upk_child_le h hwf y c c1 a d sc sc1 hc hp hc1 hp1 z h1 h2
  · obtain ⟨d, rfl⟩ : ∃ d, a = b + d := ⟨a - b, by omega⟩
    exact (upk_child_le h hwf y c1 c b d sc1 sc hc1 hp1 hc hp z h2 h1).symm

theorem preorder_list_mono (h : Heap) (F F1 : Nat) (cs Ls : List Nat)
    (he : preorder_list (preorder h F) cs = some Ls) (hle : F ≤ F1) :
    preorder_list (preorder h F1) cs = some Ls := by
  rw [← he]
  apply preorder_list_congr
  intro c hc
  obtain ⟨Lc, hLc⟩ := preorder_list_some_of_mem _ _ _ he c hc
  rw [hLc, preorder_mono h F F1 c Lc hLc hle]

theorem forest_exists (h : Heap) (hwf : HeapWF h) (y : Nat) : ∀ (cs : List Nat), cs.Nodup →
    (∀ c ∈ cs, ∃ sc, h.segs c = some sc ∧ sc.parent = some y) →
    (∀ c ∈ cs, ∃ F L, preorder h F c = some L ∧ L.Nodup ∧ ∀ z ∈ L, c ≤ z) →
    ∃ F Ls, preorder_list (preorder h F) cs = some Ls ∧ Ls.Nodup ∧ ∀ z ∈ Ls, y < z
  | [], _, _, _ => ⟨0, [], rfl, List.nodup_nil, by simp⟩
  | c :: cs, hnd, hpar, hih => by
    rw [List.nodup_cons] at hnd
    obtain ⟨F1, Ls, hl, hLs, hlt⟩ := forest_exists h hwf y cs hnd.2
      (fun d hd => hpar d (List.mem_cons_of_mem _ hd))
      (fun d hd => hih d (List.mem_cons_of_mem _ hd))
    obtain ⟨F2, Lc, hLc, hLcnd, hge⟩ := hih c (List.mem_cons_self _ _)
    obtain ⟨sc, hsc, hscp⟩ := hpar c (List.mem_cons_self _ _)
    have hyc : y < c := ((hwf c sc hsc).2.2.2.2.1 y hscp).1
    refine ⟨max F1 F2, Lc ++ Ls, ?_, ?_, ?_⟩
    · exact preorder_list_cons _ c cs Lc Ls
        (preorder_mono h F2 _ c Lc hLc (Nat.le_max_right _ _))
        (preorder_list_mono h F1 _ cs Ls hl (Nat.le_max_left _ _))
    · rw [List.nodup_append]
      refine ⟨hLcnd, hLs, ?_⟩
      intro z hz1 hz2
      obtain ⟨a, ha⟩ := preorder_up h hwf F2 c Lc hLc z hz1
      obtain ⟨c1, hc1, Lc1, hLc1, hz3⟩ := (preorder_list_mem _ _ _ hl z).mp hz2
      obtain ⟨b, hb⟩ := preorder_up h hwf F1 c1 Lc1 hLc1 z hz3
      obtain ⟨sc1, hsc1, hscp1⟩ := hpar c1 (List.mem_cons_of_mem _ hc1)
      have := upk_unique_child h hwf y c c1 a b sc sc1 hsc hscp hsc1 hscp1 z ha hb
      subst this
      exact hnd.1 hc1
    · intro z hz
      rcases List.mem_append.mp hz with hz | hz
      · have := hge z hz
        omega
      · exact hlt z hz

/-- In a well-formed heap the family tree below a live segment is finite and without
repetition. -/
theorem tree_exists (h : Heap) (hwf : HeapWF h) : ∀ (m y : Nat) (s : segment),
    h.segs y = some s → h.nextSeg - y ≤ m →
    ∃ F L, preorder h F y = some L ∧ L.Nodup ∧ ∀ z ∈ L, y ≤ z
  | 0, y, s, hs, hm => by
    have := (hwf y s hs).1
    omega
  | m + 1, y, s, hs, hm => by
    have hn := hwf y s hs
    obtain ⟨F, Ls, hl, hLs, hlt⟩ := forest_exists h hwf y s.children hn.2.2.2.2.2.1
      hn.2.2.2.2.2.2
      (fun c hc => by
        obtain ⟨sc, hsc, hscp⟩ := hn.2.2.2.2.2.2 c hc
        have hyc : y < c := ((hwf c sc hsc).2.2.2.2.1 y hscp).1
        exact tree_exists h hwf m c sc hsc (by omega))
    refine ⟨F + 1, y :: Ls, preorder_succ h F y s Ls hs hl, ?_, ?_⟩
    · rw [List.nodup_cons]
      exact ⟨fun hy => Nat.lt_irrefl _ (hlt y hy), hLs⟩
    · intro z hz
      rcases List.mem_cons.mp hz with rfl | hz
      · exact Nat.le_refl _
      · exact Nat.le_of_lt (hlt z hz)

theorem upk_geometry (h : Heap) (hwf : HeapWF h) : ∀ (k z w : Nat) (sz : segment),
    h.segs z = some sz → upk h k z = some w →
    ∃ sw, h.segs w = some sw ∧ sw.block = sz.block ∧ sw.offset = sz.offset ∧
      sw.length = sz.length
  | 0, z, w, sz, hs, hu => by
    simp only [upk, Option.some.injEq] at hu
    subst hu
    exact ⟨sz, hs, rfl, rfl, rfl⟩
  | k + 1, z, w, sz, hs, hu => by
    obtain ⟨s1, p, hs1, hp, hu1⟩ := upk_succ_some h k z w hu
    rw [hs] at hs1
    cases hs1
    obtain ⟨_, ps, hps, _, hb, ho, hl⟩ := (hwf z sz hs).2.2.2.2.1 p hp
    obtain ⟨sw, hsw, h1, h2, h3⟩ := upk_geometry h hwf k p w ps hps hu1
    exact ⟨sw, hsw, by rw [h1, hb], by rw [h2, ho], by rw [h3, hl]⟩

theorem preorder_live (h : Heap) : ∀ (F y : Nat) (L : List Nat),
    preorder h F y = some L → ∀ z ∈ L, ∃ sz, h.segs z = some sz
  | 0, _, _, he, _, _ => by simp [preorder] at he
  | F + 1, y, L, he, z, hz => by
    obtain ⟨s, Ls, hs, hl, rfl⟩ := preorder_succ_some h F y L he
    rcases List.mem_cons.mp hz with rfl | hz
    · exact ⟨s, hs⟩
    · obtain ⟨c, _, Lc, hLc, hzc⟩ := (preorder_list_mem _ _ _ hl z).mp hz
      exact preorder_live h F c Lc hLc z hzc

theorem preorder_closed (h : Heap) : ∀ (F y : Nat) (L : List Nat),
    preorder h F y = some L → ∀ p ∈ L, ∀ sp, h.segs p = some sp → ∀ c ∈ sp.children, c ∈ L
  | 0, _, _, he, _, _, _, _, _, _ => by simp [preorder] at he
  | F + 1, y, L, he, p, hp, sp, hsp, c, hc => by
    obtain ⟨s, Ls, hs, hl, rfl⟩ := preorder_succ_some h F y L he
    apply List.mem_cons_of_mem
    rcases List.mem_cons.mp hp with rfl | hp
    · rw [hs] at hsp
      cases hsp
      obtain ⟨Lc, hLc⟩ := preorder_list_some_of_mem _ _ _ hl c hc
      exact (preorder_list_mem _ _ _ hl c).mpr ⟨c, hc, Lc, hLc, preorder_head h F c Lc hLc⟩
    · obtain ⟨d, hd, Ld, hLd, hpd⟩ := (preorder_list_mem _ _ _ hl p).mp hp
      exact (preorder_list_mem _ _ _ hl c).mpr
        ⟨d, hd, Ld, hLd, preorder_closed h F d Ld hLd p hpd sp hsp c hc⟩

/-- Every live segment whose ancestors lead to `y` is in the preorder list of `y`. -/
theorem preorder_complete (h : Heap) (hwf : HeapWF h) (F y : Nat) (L : List Nat)
    (he : preorder h F y = some L) : ∀ (k z : Nat) (sz : segment), h.segs z = some sz →
    upk h k z = some y → z ∈ L
  | 0, z, sz, _, hu => by
    simp only [upk, Option.some.injEq] at hu
    subst hu
    exact preorder_head h F z L he
  | k + 1, z, sz, hs, hu => by
    obtain ⟨s1, p, hs1, hp, hu1⟩ := upk_succ_some h k z y hu
    rw [hs] at hs1
    cases hs1
    obtain ⟨_, ps, hps, hmem, _⟩ := (hwf z sz hs).2.2.2.2.1 p hp
    have hpL := preorder_complete h hwf F y L he k p ps hps hu1
    exact preorder_closed h F y L he p hpL ps hps z hmem

/-- The ascent of `recursive_split` ends at a segment without parent. -/
theorem find_root_eq (h : Heap) (hwf : HeapWF h) : ∀ (m z : Nat) (sz : segment),
    h.segs z = some sz → z ≤ m →
    ∃ r k rs, upk h k z = some r ∧ h.segs r = some rs ∧ rs.parent = none ∧ k ≤ z ∧
      ∀ fuel, k < fuel → find_root h fuel z = some r
  | m, z, sz, hs, hm => by
    cases hp : sz.parent with
    | none =>
      refine ⟨z, 0, sz, rfl, hs, hp, Nat.zero_le _, ?_⟩
      intro fuel hf
      cases fuel with
      | zero => omega
      | succ fuel => simp [find_root, hs, hp]
    | some p =>
      obtain ⟨hlt, ps, hps, _⟩ := (hwf z sz hs).2.2.2.2.1 p hp
      cases m with
      | zero => omega
      | succ m =>
        obtain ⟨r, k, rs, hu, hrs, hrp, hk, hfr⟩ := find_root_eq h hwf m p ps hps (by omega)
        refine ⟨r, k + 1, rs, ?_, hrs, hrp, by omega, ?_⟩
        · rw [upk_succ h k z p sz hs hp]
          exact hu
        · intro fuel hf
          cases fuel with
          | zero => omega
          | succ fuel =>
            simp only [find_root, hs, hp]
            exact hfr fuel (by omega)

/-! ### Propagated splits: `split_segment` and `recursive_split` -/

/-- The heap after the stores `split_segment` makes for the node `y` itself, before it
descends into the children: the new right half `n = g.nextSeg`, the shortened `y`, the
entries added to the two parents, and one more reference to the block. -/
theorem split_segment_node (F : Nat) (g : Heap) (y cut : Nat) (lp rp : Option Nat)
    (s : segment) (b : audio_block) (hs : g.segs y = some s) (hb : g.blocks s.block = some b)
    (hcut0 : 0 < cut) (hcut : cut < s.length) (hlen : s.offset + s.length < SIZE_MOD)
    (hy : y < g.nextSeg)
    (hlp : ∀ p, lp = some p → p ≠ y ∧ p < g.nextSeg ∧ ∃ ps, g.segs p = some ps)
    (hrp : ∀ q, rp = some q → q ≠ y ∧ q < g.nextSeg ∧ ∃ qs, g.segs q = some qs)
    (hne : ∀ p q, lp = some p → rp = some q → p ≠ q) :
    ∃ g6, split_segment (F + 1) g y cut lp rp =
        split_children (fun hh c => split_segment F hh c cut (some y) (some g.nextSeg))
          s.children g6 ∧
      g6.nextSeg = g.nextSeg + 1 ∧ g6.tracks = g.tracks ∧ g6.nextBlock = g.nextBlock ∧
      g6.nextTrack = g.nextTrack ∧
      g6.blocks = upd g.blocks s.block (some { b with refcount := u16_inc b.refcount }) ∧
      g6.segs y = some { s with length := cut, next := some g.nextSeg, parent := lp,
                                children := [] } ∧
      g6.segs g.nextSeg = some { s with offset := s.offset + cut, length := s.length - cut,
                                        parent := rp, children := [] } ∧
      (∀ p ps, lp = some p → g.segs p = some ps →
        g6.segs p = some { ps with children := y :: ps.children }) ∧
      (∀ q qs, rp = some q → g.segs q = some qs →
        g6.segs q = some { qs with children := g.nextSeg :: qs.children }) ∧
      (∀ j, j ≠ y → j ≠ g.nextSeg → some j ≠ lp → some j ≠ rp → g6.segs j = g.segs j) := by
  have hcne : ¬ (cut = 0 ∨ cut = s.length) := by omega
  have e1 : size_sub s.length cut = s.length - cut := size_sub_eq _ _ (by omega) (by omega)
  have e2 : size_add s.offset cut = s.offset + cut := size_add_eq _ _ (by omega)
  have hyn : y ≠ g.nextSeg := by omega
  simp only [split_segment, hs, hcne, if_false, hb, e1, e2]
  cases lp with
  | none =>
    cases rp with
    | none =>
      simp only [add_child_to_parent]
      simp only [setSeg_segs, setBlock_segs, allocSeg_segs, upd_same, upd_other _ _ _ _ hyn.symm]
      refine ⟨_, rfl, rfl, rfl, rfl, rfl, rfl, ?_, ?_, ?_, ?_, ?_⟩
      · simp [upd_other _ _ _ _ hyn]
      · simp
      · intro p ps hp; simp at hp
      · intro q qs hq; simp at hq
      · intro j h1 h2 _ _
        simp [upd_other _ _ _ _ h1, upd_other _ _ _ _ h2]
    | some q =>
      obtain ⟨hqy, hqn, qs, hqs⟩ := hrp q rfl
      have hqn2 : q ≠ g.nextSeg := by omega
      simp only [add_child_to_parent]
      simp only [setSeg_segs, setBlock_segs, allocSeg_segs, upd_same, upd_other _ _ _ _ hyn.symm,
        upd_other _ _ _ _ hqy, upd_other _ _ _ _ hqn2, hqs, upd_other _ _ _ _ (Ne.symm hqy),
        upd_other _ _ _ _ (Ne.symm hqn2)]
      refine ⟨_, rfl, rfl, rfl, rfl, rfl, rfl, ?_, ?_, ?_, ?_, ?_⟩
      · simp [upd_other _ _ _ _ hyn]
      · simp
      · intro p ps hp; simp at hp
      · intro q1 qs1 hq1 hq2
        cases hq1
        rw [hqs] at hq2
        cases hq2
        simp [upd_other _ _ _ _ hqy, upd_other _ _ _ _ hqn2]
      · intro j h1 h2 _ h4
        have h5 : j ≠ q := fun he => h4 (by rw [he])
        simp [upd_other _ _ _ _ h1, upd_other _ _ _ _ h2, upd_other _ _ _ _ h5]
  | some p =>
    obtain ⟨hpy, hpn, ps, hps⟩ := hlp p rfl
    have hpn2 : p ≠ g.nextSeg := by omega
    cases rp with
    | none =>
      simp only [add_child_to_parent]
      simp only [setSeg_segs, setBlock_segs, allocSeg_segs, upd_same, upd_other _ _ _ _ hyn.symm,
        upd_other _ _ _ _ hpy, upd_other _ _ _ _ hpn2, hps, upd_other _ _ _ _ (Ne.symm hpy),
        upd_other _ _ _ _ (Ne.symm hpn2)]
      refine ⟨_, rfl, rfl, rfl, rfl, rfl, rfl, ?_, ?_, ?_, ?_, ?_⟩
      · simp [upd_other _ _ _ _ hyn]
      · simp
      · intro p1 ps1 hp1 hp2
        cases hp1
        rw [hps] at hp2
        cases hp2
        simp [upd_other _ _ _ _ hpy, upd_other _ _ _ _ hpn2]
      · intro q qs hq; simp at hq
      · intro j h1 h2 h3 _
        have h5 : j ≠ p := fun he => h3 (by rw [he])
        simp [upd_other _ _ _ _ h1, upd_other _ _ _ _ h2, upd_other _ _ _ _ h5]
    | some q =>
      obtain ⟨hqy, hqn, qs, hqs⟩ := hrp q rfl
      have hqn2 : q ≠ g.nextSeg := by omega
      have hpq : p ≠ q := hne p q rfl rfl
      simp only [add_child_to_parent]
      simp only [setSeg_segs, setBlock_segs, allocSeg_segs, upd_same, upd_other _ _ _ _ hyn.symm,
        upd_other _ _ _ _ hpy, upd_other _ _ _ _ hpn2, hps, upd_other _ _ _ _ (Ne.symm hpy),
        upd_other _ _ _ _ (Ne.symm hpn2), upd_other _ _ _ _ hqy, upd_other _ _ _ _ hqn2, hqs,
        upd_other _ _ _ _ (Ne.symm hqy), upd_other _ _ _ _ (Ne.symm hqn2),
        upd_other _ _ _ _ hpq, upd_other _ _ _ _ (Ne.symm hpq)]
      refine ⟨_, rfl, rfl, rfl, rfl, rfl, rfl, ?_, ?_, ?_, ?_, ?_⟩
      · simp [upd_other _ _ _ _ hyn]
      · simp
      · intro p1 ps1 hp1 hp2
        cases hp1
        rw [hps] at hp2
        cases hp2
        simp [upd_other _ _ _ _ hpy, upd_other _ _ _ _ hpn2, upd_other _ _ _ _ hpq]
      · intro q1 qs1 hq1 hq2
        cases hq1
        rw [hqs] at hq2
        cases hq2
        simp [upd_other _ _ _ _ hqy, upd_other _ _ _ _ hqn2]
      · intro j h1 h2 h3 h4
        have h5 : j ≠ p := fun he => h3 (by rw [he])
        have h6 : j ≠ q := fun he => h4 (by rw [he])
        simp [upd_other _ _ _ _ h1, upd_other _ _ _ _ h2, upd_other _ _ _ _ h5,
          upd_other _ _ _ _ h6]

theorem right_half_congr (sz : segment) (cut : Nat) (ν μ : Nat → Nat)
    (hc : ∀ d ∈ sz.children, ν d = μ d) (hp : ∀ p, sz.parent = some p → ν p = μ p) :
    right_half sz cut ν = right_half sz cut μ := by
  unfold right_half
  have h1 : sz.children.reverse.map ν = sz.children.reverse.map μ := by
    apply List.map_congr_left
    intro d hd
    exact hc d (List.mem_reverse.mp hd)
  have h2 : sz.parent.map ν = sz.parent.map μ := by
    cases hq : sz.parent with
    | none => rfl
    | some p => simp [hp p hq]
  rw [h1, h2]

theorem nx_of_segs (g g1 : Heap) (z : Nat) (he : g1.segs z = g.segs z) : nx g1 z = nx g z := by
  unfold nx
  rw [he]

theorem nx_eq (g : Heap) (z n : Nat) (s : segment) (hs : g.segs z = some s)
    (hn : s.next = some n) : nx g z = n := by
  unfold nx
  rw [hs]
  simp [hn]

theorem preorder_congr (g g1 : Heap) : ∀ (F y : Nat) (L : List Nat),
    preorder g F y = some L → (∀ z ∈ L, g1.segs z = g.segs z) → preorder g1 F y = some L
  | 0, _, _, he, _ => by simp [preorder] at he
  | F + 1, y, L, he, hag => by
    obtain ⟨s, Ls, hs, hl, rfl⟩ := preorder_succ_some g F y L he
    apply preorder_succ g1 F y s Ls
    · rw [hag y (List.mem_cons_self _ _)]
      exact hs
    · rw [← hl]
      apply preorder_list_congr
      intro c hc
      obtain ⟨Lc, hLc⟩ := preorder_list_some_of_mem _ _ _ hl c hc
      rw [hLc]
      apply preorder_congr g g1 F c Lc hLc
      intro z hz
      apply hag
      apply List.mem_cons_of_mem
      exact (preorder_list_mem _ _ _ hl z).mpr ⟨c, hc, Lc, hLc, hz⟩

theorem preorder_list_congr_heap (g g1 : Heap) (F : Nat) (cs Ls : List Nat)
    (he : preorder_list (preorder g F) cs = some Ls) (hag : ∀ z ∈ Ls, g1.segs z = g.segs z) :
    preorder_list (preorder g1 F) cs = some Ls := by
  rw [← he]
  apply preorder_list_congr
  intro c hc
  obtain ⟨Lc, hLc⟩ := preorder_list_some_of_mem _ _ _ he c hc
  rw [hLc]
  apply preorder_congr g g1 F c Lc hLc
  intro z hz
  exact hag z ((preorder_list_mem _ _ _ he z).mpr ⟨c, hc, Lc, hLc, hz⟩)

theorem preorder_parent (g : Heap) : ∀ (F y : Nat) (L : List Nat),
    preorder g F y = some L → ∀ z ∈ L, z ≠ y →
    ∃ p ∈ L, ∃ sp, g.segs p = some sp ∧ z ∈ sp.children
  | 0, _, _, he, _, _, _ => by simp [preorder] at he
  | F + 1, y, L, he, z, hz, hne => by
    obtain ⟨s, Ls, hs, hl, rfl⟩ := preorder_succ_some g F y L he
    rcases List.mem_cons.mp hz with rfl | hz
    · exact absurd rfl hne
    · obtain ⟨c, hc, Lc, hLc, hzc⟩ := (preorder_list_mem _ _ _ hl z).mp hz
      by_cases hzc2 : z = c
      · subst hzc2
        exact ⟨y, List.mem_cons_self _ _, s, hs, hc⟩
      · obtain ⟨p, hp, sp, hsp, hzp⟩ := preorder_parent g F c Lc hLc z hzc hzc2
        refine ⟨p, List.mem_cons_of_mem _ ?_, sp, hsp, hzp⟩
        exact (preorder_list_mem _ _ _ hl p).mpr ⟨c, hc, Lc, hLc, hp⟩

theorem upd_self_eq {α : Type} (f : Nat → Option α) (i : Nat) (v : Option α) (h : f i = v) :
    upd f i v = f := by
  funext j
  by_cases hj : j = i
  · subst hj
    rw [upd_same, h]
  · rw [upd_other _ _ _ _ hj]

theorem forest_of_node (F : Nat) (hN : NodeStmt F) : ForestStmt F := by
  intro F1 cs
  induction cs with
  | nil =>
    intro g y n cut Ls b blk off len sy sn hF hpre hT _ hsy _ hsn _ _ _ _ _
    simp only [preorder_list, Option.some.injEq] at hpre
    subst hpre
    obtain ⟨_, _, _, hb, _⟩ := hT
    refine ⟨g, rfl, ⟨by simp, rfl, rfl, rfl, ?_, by simp, by simp, ?_, by simp⟩,
      fun _ _ _ _ _ => rfl, by simpa using hsy, by simpa using hsn⟩
    · simp only [List.length_nil, Function.iterate_zero, id_eq]
      exact (upd_self_eq _ _ _ hb).symm
    · intro j h1 h2
      exfalso
      change j < g.nextSeg + 0 at h2
      omega
  | cons c cs ih =>
    intro g y n cut Ls b blk off len sy sn hF hpre hT htop hsy hsyn hsn hyn hyL hnL hyb hnb
    obtain ⟨Lc, Lr, hLc, hLr, rfl⟩ := preorder_list_cons_some _ c cs Ls hpre
    obtain ⟨hnd, huni, hpar, hb, hc0, hc1, hlen⟩ := hT
    obtain ⟨hndc, hndr, hdisj⟩ := List.nodup_append.mp hnd
    obtain ⟨sc, hsc, hscp⟩ := htop c (List.mem_cons_self _ _)
    have hnxy : nx g y = n := nx_eq g y n sy hsy hsyn
    have hTc : TreePre g Lc cut b blk off len :=
      ⟨hndc, fun z hz => huni z (List.mem_append_left _ hz),
        fun z hz => hpar z (List.mem_append_left _ hz), hb, hc0, hc1, hlen⟩
    obtain ⟨g1, hg1, hP1, hfr1, hlp1, hrp1⟩ := hN F1 g c cut Lc (some y) (some n) b blk off len
      sc hF hLc hTc hsc hscp (by simp [hnxy])
      (fun p hp => by
        cases hp
        exact ⟨fun hh => hyL (List.mem_append_left _ hh), hyb, sy, hsy⟩)
      (fun q hq => by
        cases hq
        exact ⟨fun hh => hnL (List.mem_append_left _ hh), hnb, sn, hsn⟩)
      (fun p q hp hq => by
        cases hp
        cases hq
        exact hyn)
    obtain ⟨hns1, htr1, hnb1, hnt1, hbl1, hnode1, hinj1, hsurj1, hord1⟩ := hP1
    have hsy1 := hlp1 y sy rfl hsy
    have hsn1 := hrp1 n sn rfl hsn
    have hLrlt : ∀ z ∈ Lr, z < g.nextSeg := fun z hz => by
      obtain ⟨_, _, _, _, _, h5⟩ := huni z (List.mem_append_right _ hz)
      exact h5
    have hLclt : ∀ z ∈ Lc, z < g.nextSeg := fun z hz => by
      obtain ⟨_, _, _, _, _, h5⟩ := huni z (List.mem_append_left _ hz)
      exact h5
    have hA : ∀ z ∈ Lr, g1.segs z = g.segs z := fun z hz =>
      hfr1 z (fun hh => hdisj hh hz)
        (fun hh => hyL (by cases hh; exact List.mem_append_right _ hz))
        (fun hh => hnL (by cases hh; exact List.mem_append_right _ hz))
        (Or.inl (hLrlt z hz))
    have hTr : TreePre g1 Lr cut { b with refcount := u16_inc^[Lc.length] b.refcount } blk off
        len := by
      refine ⟨hndr, ?_, ?_, ?_, hc0, hc1, hlen⟩
      · intro z hz
        obtain ⟨sz, h1, h2, h3, h4, h5⟩ := huni z (List.mem_append_right _ hz)
        exact ⟨sz, by rw [hA z hz]; exact h1, h2, h3, h4, by omega⟩
      · intro z hz sz hsz d hd
        rw [hA z hz] at hsz
        obtain ⟨sd, hsd, hsdp⟩ := hpar z (List.mem_append_right _ hz) sz hsz d hd
        refine ⟨sd, ?_, hsdp⟩
        have hdr : d ∈ Lr := by
          obtain ⟨c1, hc1m, L1, hL1, hz1⟩ := (preorder_list_mem _ _ _ hLr z).mp hz
          have := preorder_closed g F c1 L1 hL1 z hz1 sz hsz d hd
          exact (preorder_list_mem _ _ _ hLr d).mpr ⟨c1, hc1m, L1, hL1, this⟩
        rw [hA d hdr]
        exact hsd
      · rw [hbl1, upd_same]
    obtain ⟨g2, hg2, hP2, hfr2, hy2, hn2⟩ := ih g1 y n cut Lr
      { b with refcount := u16_inc^[Lc.length] b.refcount } blk off len
      { sy with children := c :: sy.children } { sn with children := nx g1 c :: sn.children }
      hF (preorder_list_congr_heap g g1 F cs Lr hLr hA) hTr
      (fun d hd => by
        obtain ⟨sd, hsd, hsdp⟩ := htop d (List.mem_cons_of_mem _ hd)
        refine ⟨sd, ?_, hsdp⟩
        obtain ⟨Ld, hLd⟩ := preorder_list_some_of_mem _ _ _ hLr d hd
        have hdr : d ∈ Lr :=
          (preorder_list_mem _ _ _ hLr d).mpr ⟨d, hd, Ld, hLd, preorder_head g F d Ld hLd⟩
        rw [hA d hdr]
        exact hsd)
      hsy1 hsyn hsn1 hyn (fun hh => hyL (List.mem_append_right _ hh))
      (fun hh => hnL (List.mem_append_right _ hh)) (by omega) (by omega)
    obtain ⟨hns2, htr2, hnb2, hnt2, hbl2, hnode2, hinj2, hsurj2, hord2⟩ := hP2
    have hB : ∀ z ∈ Lc, g2.segs z = g1.segs z := fun z hz =>
      hfr2 z (fun hh => hdisj hz hh)
        (fun hh => hyL (by rw [← hh]; exact List.mem_append_left _ hz))
        (fun hh => hnL (by rw [← hh]; exact List.mem_append_left _ hz))
        (Or.inl (by have := hLclt z hz; omega))
    have hC : ∀ z ∈ Lc, nx g2 z = nx g1 z := fun z hz => nx_of_segs g1 g2 z (hB z hz)
    have hnx1 : ∀ z ∈ Lc, g.nextSeg ≤ nx g1 z ∧ nx g1 z < g1.nextSeg := fun z hz => by
      obtain ⟨sz, h1, _⟩ := huni z (List.mem_append_left _ hz)
      obtain ⟨h2, h3, _⟩ := hnode1 z hz sz h1
      exact ⟨h2, h3⟩
    have hD : ∀ z ∈ Lc, g2.segs (nx g1 z) = g1.segs (nx g1 z) := fun z hz => by
      obtain ⟨h2, h3⟩ := hnx1 z hz
      apply hfr2
      · intro hh
        have := hLrlt _ hh
        omega
      · omega
      · omega
      · exact Or.inl h3
    have hy1n : nx g1 y = n := nx_eq g1 y n _ hsy1 hsyn
    have hy2n : nx g2 y = n := nx_eq g2 y n _ hy2 hsyn
    have hpc : ∀ z ∈ Lc, ∀ sz, g.segs z = some sz → ∀ p, sz.parent = some p →
        nx g2 p = nx g1 p := by
      intro z hz sz hsz p hp
      by_cases hzc : z = c
      · subst hzc
        rw [hsc] at hsz
        cases hsz
        rw [hscp] at hp
        cases hp
        rw [hy1n, hy2n]
      · obtain ⟨q, hq, sq, hsq, hzq⟩ := preorder_parent g F c Lc hLc z hz hzc
        obtain ⟨sz1, hsz1, hpz1⟩ := hpar q (List.mem_append_left _ hq) sq hsq z hzq
        rw [hsz] at hsz1
        cases hsz1
        rw [hp] at hpz1
        cases hpz1
        exact hC p hq
    refine ⟨g2, ?_, ⟨?_, ?_, ?_, ?_, ?_, ?_, ?_, ?_, ?_⟩, ?_, ?_, ?_⟩
    · simp only [split_children, hg1]
      exact hg2
    · rw [hns2, hns1, List.length_append]
      omega
    · rw [htr2, htr1]
    · rw [hnb2, hnb1]
    · rw [hnt2, hnt1]
    · rw [hbl2, hbl1, upd_upd, List.length_append, Nat.add_comm Lc.length,
        Function.iterate_add_apply]
    · intro z hz sz hsz
      rcases List.mem_append.mp hz with hzc | hzr
      · obtain ⟨h1, h2, h3, h4⟩ := hnode1 z hzc sz hsz
        rw [hC z hzc]
        refine ⟨h1, by omega, ?_, ?_⟩
        · rw [hB z hzc]
          exact h3
        · rw [hD z hzc, h4]
          congr 1
          apply right_half_congr
          · intro d hd
            exact (hC d (preorder_closed g F c Lc hLc z hzc sz hsz d hd)).symm
          · intro p hp
            exact (hpc z hzc sz hsz p hp).symm
      · rw [← hA z hzr] at hsz
        obtain ⟨h1, h2, h3, h4⟩ := hnode2 z hzr sz hsz
        exact ⟨by omega, h2, h3, h4⟩
    · intro z1 hz1 z2 hz2 he
      rcases List.mem_append.mp hz1 with h1 | h1 <;> rcases List.mem_append.mp hz2 with h2 | h2
      · rw [hC z1 h1, hC z2 h2] at he
        exact hinj1 z1 h1 z2 h2 he
      · exfalso
        rw [hC z1 h1] at he
        have a1 := (hnx1 z1 h1).2
        obtain ⟨sz, hsz, _⟩ := huni z2 (List.mem_append_right _ h2)
        rw [← hA z2 h2] at hsz
        have a2 := (hnode2 z2 h2 sz hsz).1
        omega
      · exfalso
        rw [hC z2 h2] at he
        have a1 := (hnx1 z2 h2).2
        obtain ⟨sz, hsz, _⟩ := huni z1 (List.mem_append_right _ h1)
        rw [← hA z1 h1] at hsz
        have a2 := (hnode2 z1 h1 sz hsz).1
        omega
      · exact hinj2 z1 h1 z2 h2 he
    · intro j hj1 hj2
      by_cases hj : j < g1.nextSeg
      · obtain ⟨z, hz, hzj⟩ := hsurj1 j hj1 hj
        exact ⟨z, List.mem_append_left _ hz, by rw [hC z hz]; exact hzj⟩
      · obtain ⟨z, hz, hzj⟩ := hsurj2 j (by omega) hj2
        exact ⟨z, List.mem_append_right _ hz, hzj⟩
    · intro z hz sz p hsz hp
      rcases List.mem_append.mp hz with hzc | hzr
      · rw [hC z hzc, hpc z hzc sz hsz p hp]
        exact hord1 z hzc sz p hsz hp
      · rw [← hA z hzr] at hsz
        exact hord2 z hzr sz p hsz hp
    · intro j hj hjy hjn hjb
      have hj1 : j ∉ Lc := fun hh => hj (List.mem_append_left _ hh)
      have hj2 : j ∉ Lr := fun hh => hj (List.mem_append_right _ hh)
      rw [hfr2 j hj2 hjy hjn (by omega), hfr1 j hj1 (by simpa using hjy) (by simpa using hjn)
        (by omega)]
    · rw [hy2]
      simp
    · rw [hn2]
      simp [hC c (preorder_head g F c Lc hLc)]

theorem node_of_forest (F : Nat) (hF : ForestStmt F) : NodeStmt (F + 1) := by
  intro F1 g y cut L lp rp b blk off len sy hle hpre hT hsy hsp hrp hlp hrq hne
  subst hsp
  subst hrp
  obtain ⟨F2, rfl⟩ : ∃ F2, F1 = F2 + 1 := ⟨F1 - 1, by omega⟩
  obtain ⟨s, Ls, hs, hl, rfl⟩ := preorder_succ_some g F y L hpre
  rw [hsy] at hs
  cases hs
  obtain ⟨hnd, huni, hpar, hb, hc0, hc1, hlen⟩ := hT
  obtain ⟨hyLs, hndL⟩ := List.nodup_cons.mp hnd
  obtain ⟨sy1, hsy1, hyblk, hyoff, hylen, hylt⟩ := huni y (List.mem_cons_self _ _)
  rw [hsy] at hsy1
  cases hsy1
  have hLslt : ∀ z ∈ Ls, z < g.nextSeg := fun z hz => by
    obtain ⟨_, _, _, _, _, h5⟩ := huni z (List.mem_cons_of_mem _ hz)
    exact h5
  obtain ⟨g6, heq, hns6, htr6, hnb6, hnt6, hbl6, hy6, hn6, hlp6, hrp6, hfr6⟩ :=
    split_segment_node F2 g y cut sy.parent (sy.parent.map (nx g)) sy b hsy (by rw [hyblk]; exact hb) hc0
      (by rw [hylen]; exact hc1) (by rw [hyoff, hylen]; exact hlen) hylt
      (fun p hp => by
        obtain ⟨h1, h2, h3⟩ := hlp p hp
        exact ⟨fun hh => h1 (by rw [hh]; exact List.mem_cons_self _ _), h2, h3⟩)
      (fun q hq => by
        obtain ⟨h1, h2, h3⟩ := hrq q hq
        exact ⟨fun hh => h1 (by rw [hh]; exact List.mem_cons_self _ _), h2, h3⟩)
      hne
  have hA : ∀ z ∈ Ls, g6.segs z = g.segs z := fun z hz => by
    apply hfr6
    · intro hh
      exact hyLs (by rw [← hh]; exact hz)
    · have := hLslt z hz
      omega
    · intro hh
      exact (hlp z hh.symm).1 (List.mem_cons_of_mem _ hz)
    · intro hh
      exact (hrq z hh.symm).1 (List.mem_cons_of_mem _ hz)
  have hclosed : ∀ z ∈ Ls, ∀ sz, g.segs z = some sz → ∀ d ∈ sz.children, d ∈ Ls := by
    intro z hz sz hsz d hd
    obtain ⟨c1, hc1m, L1, hL1, hz1⟩ := (preorder_list_mem _ _ _ hl z).mp hz
    have := preorder_closed g F c1 L1 hL1 z hz1 sz hsz d hd
    exact (preorder_list_mem _ _ _ hl d).mpr ⟨c1, hc1m, L1, hL1, this⟩
  have htopLs : ∀ c ∈ sy.children, c ∈ Ls := by
    intro c hc
    obtain ⟨Lc, hLc⟩ := preorder_list_some_of_mem _ _ _ hl c hc
    exact (preorder_list_mem _ _ _ hl c).mpr ⟨c, hc, Lc, hLc, preorder_head g F c Lc hLc⟩
  have hT6 : TreePre g6 Ls cut { b with refcount := u16_inc b.refcount } blk off len := by
    refine ⟨hndL, ?_, ?_, ?_, hc0, hc1, hlen⟩
    · intro z hz
      obtain ⟨sz, h1, h2, h3, h4, h5⟩ := huni z (List.mem_cons_of_mem _ hz)
      exact ⟨sz, by rw [hA z hz]; exact h1, h2, h3, h4, by omega⟩
    · intro z hz sz hsz d hd
      rw [hA z hz] at hsz
      obtain ⟨sd, hsd, hsdp⟩ := hpar z (List.mem_cons_of_mem _ hz) sz hsz d hd
      refine ⟨sd, ?_, hsdp⟩
      rw [hA d (hclosed z hz sz hsz d hd)]
      exact hsd
    · rw [hbl6, hyblk, upd_same]
  obtain ⟨g1, hg1, hP1, hfr1, hy1, hn1⟩ := hF F2 sy.children g6 y g.nextSeg cut Ls
    { b with refcount := u16_inc b.refcount } blk off len _ _ (by omega)
    (preorder_list_congr_heap g g6 F sy.children Ls hl hA) hT6
    (fun c hc => by
      obtain ⟨sc, hsc, hscp⟩ := hpar y (List.mem_cons_self _ _) sy hsy c hc
      refine ⟨sc, ?_, hscp⟩
      rw [hA c (htopLs c hc)]
      exact hsc)
    hy6 rfl hn6 (by omega) hyLs
    (fun hh => by
      have := hLslt _ hh
      omega)
    (by omega) (by omega)
  obtain ⟨hns1, htr1, hnb1, hnt1, hbl1, hnode1, hinj1, hsurj1, hord1⟩ := hP1
  have hy1n : nx g1 y = g.nextSeg := nx_eq g1 y _ _ hy1 rfl
  have hpnx : ∀ p, sy.parent = some p → nx g1 p = nx g p := by
    intro p hp
    obtain ⟨h1, h2, ps, h3⟩ := hlp p hp
    have e1 : g1.segs p = g6.segs p := by
      apply hfr1
      · intro hh
        exact h1 (List.mem_cons_of_mem _ hh)
      · intro hh
        exact h1 (by rw [hh]; exact List.mem_cons_self _ _)
      · omega
      · left
        omega
    have e2 := hlp6 p ps hp h3
    unfold nx
    rw [e1, e2, h3]
  refine ⟨g1, ?_, ⟨?_, ?_, ?_, ?_, ?_, ?_, ?_, ?_, ?_⟩, ?_, ?_, ?_⟩
  · rw [heq]
    exact hg1
  · rw [hns1, hns6, List.length_cons]
    omega
  · rw [htr1, htr6]
  · rw [hnb1, hnb6]
  · rw [hnt1, hnt6]
  · rw [hbl1, hbl6, hyblk, upd_upd, List.length_cons, Function.iterate_succ_apply]
  · intro z hz sz hsz
    rcases List.mem_cons.mp hz with rfl | hz
    · rw [hsy] at hsz
      cases hsz
      rw [hy1n]
      refine ⟨Nat.le_refl _, by omega, ?_, ?_⟩
      · rw [hy1]
        simp [left_half]
      · rw [hn1]
        simp only [right_half, List.append_nil, Option.some.injEq]
        cases hq : sy.parent with
        | none => simp
        | some p => simp [hpnx p hq]
    · rw [← hA z hz] at hsz
      obtain ⟨h1, h2, h3, h4⟩ := hnode1 z hz sz hsz
      exact ⟨by omega, h2, h3, h4⟩
  · intro z1 hz1 z2 hz2 he
    have hlow : ∀ z ∈ Ls, g.nextSeg + 1 ≤ nx g1 z := by
      intro z hz
      obtain ⟨sz, hsz, _⟩ := huni z (List.mem_cons_of_mem _ hz)
      rw [← hA z hz] at hsz
      have := (hnode1 z hz sz hsz).1
      omega
    rcases List.mem_cons.mp hz1 with rfl | h1 <;> rcases List.mem_cons.mp hz2 with rfl | h2
    · rfl
    · exfalso
      have := hlow z2 h2
      omega
    · exfalso
      have := hlow z1 h1
      omega
    · exact hinj1 z1 h1 z2 h2 he
  · intro j hj1 hj2
    by_cases hj : j = g.nextSeg
    · exact ⟨y, List.mem_cons_self _ _, by rw [hy1n, hj]⟩
    · obtain ⟨z, hz, hzj⟩ := hsurj1 j (by omega) hj2
      exact ⟨z, List.mem_cons_of_mem _ hz, hzj⟩
  · intro z hz sz p hsz hp
    rcases List.mem_cons.mp hz with rfl | hz
    · rw [hsy] at hsz
      cases hsz
      rw [hy1n, hpnx p hp]
      have := (hrq (nx g p) (by rw [hp]; rfl)).2.1
      exact this
    · rw [← hA z hz] at hsz
      exact hord1 z hz sz p hsz hp
  · intro j hj hjl hjr hjb
    have hj1 : j ∉ Ls := fun hh => hj (List.mem_cons_of_mem _ hh)
    have hj2 : j ≠ y := fun hh => hj (by rw [hh]; exact List.mem_cons_self _ _)
    have hj3 : j ≠ g.nextSeg := by omega
    rw [hfr1 j hj1 hj2 hj3 (by omega), hfr6 j hj2 hj3 hjl hjr]
  · intro p ps hp hps
    obtain ⟨h1, h2, _⟩ := hlp p hp
    rw [hfr1 p (fun hh => h1 (List.mem_cons_of_mem _ hh))
      (fun hh => h1 (by rw [hh]; exact List.mem_cons_self _ _)) (by omega) (by omega)]
    exact hlp6 p ps hp hps
  · intro q qs hq hqs
    obtain ⟨h1, h2, _⟩ := hrq q hq
    rw [hfr1 q (fun hh => h1 (List.mem_cons_of_mem _ hh))
      (fun hh => h1 (by rw [hh]; exact List.mem_cons_self _ _)) (by omega) (by omega), hy1n]
    exact hrp6 q qs hq hqs

theorem split_segment_tree : ∀ F : Nat, NodeStmt F
  | 0 => by
    intro F1 g y cut L lp rp b blk off len sy _ hpre
    simp [preorder] at hpre
  | F + 1 => node_of_forest F (forest_of_node F (split_segment_tree F))

theorem tree_parent_mem (h : Heap) (hwf : HeapWF h) (F r : Nat) (L : List Nat) (rs : segment)
    (hpre : preorder h F r = some L) (hrs : h.segs r = some rs) (hrp : rs.parent = none)
    (z : Nat) (hz : z ∈ L) (sz : segment) (hsz : h.segs z = some sz) (p : Nat)
    (hp : sz.parent = some p) : p ∈ L := by
  have hzr : z ≠ r := by
    intro he
    subst he
    rw [hrs] at hsz
    cases hsz
    rw [hrp] at hp
    cases hp
  obtain ⟨q, hq, sq, hsq, hzq⟩ := preorder_parent h F r L hpre z hz hzr
  obtain ⟨cs, hcs, hcp⟩ := (hwf q sq hsq).2.2.2.2.2.2 z hzq
  rw [hsz] at hcs
  cases hcs
  rw [hp] at hcp
  cases hcp
  exact hq

theorem expands_refl (h : Heap) (cut : Nat) : Expands h h [] cut :=
  ⟨rfl, rfl, rfl, Nat.le_refl _, fun _ => rfl, by simp, by simp, fun _ _ _ => rfl⟩

theorem split_segment_noop (fuel : Nat) (h : Heap) (r cut : Nat) (rs : segment)
    (hrs : h.segs r = some rs) (hc : cut = 0 ∨ cut = rs.length) (lp rp : Option Nat) :
    split_segment (fuel + 1) h r cut lp rp = some h := by
  simp only [split_segment, hrs, hc, if_true]

theorem heapWF_split (h g1 : Heap) (hwf : HeapWF h) (F r cut : Nat) (L : List Nat)
    (rs : segment) (b : audio_block)
    (hpre : preorder h F r = some L) (hrs : h.segs r = some rs) (hrp : rs.parent = none)
    (hb : h.blocks rs.block = some b) (hc0 : 0 < cut) (hc1 : cut < rs.length)
    (hgeo : ∀ z ∈ L, ∀ sz, h.segs z = some sz →
      sz.block = rs.block ∧ sz.offset = rs.offset ∧ sz.length = rs.length)
    (hP : SplitPost h g1 L cut b rs.block)
    (hfr : ∀ j, j ∉ L → (j < h.nextSeg ∨ g1.nextSeg ≤ j) → g1.segs j = h.segs j) :
    HeapWF g1 := by
  obtain ⟨hns, htr, hnb, hnt, hbl, hnode, hinj, hsurj, hord⟩ := hP
  have hblock : ∀ blk bb, h.blocks blk = some bb →
      ∃ b1, g1.blocks blk = some b1 ∧ b1.data = bb.data := by
    intro blk bb hbb
    rw [hbl]
    by_cases hk : blk = rs.block
    · subst hk
      rw [hb] at hbb
      cases hbb
      exact ⟨_, upd_same _ _ _, rfl⟩
    · exact ⟨bb, by rw [upd_other _ _ _ _ hk]; exact hbb, rfl⟩
  have hlive : ∀ z ∈ L, ∃ sz, h.segs z = some sz := preorder_live h F r L hpre
  have hclosed := preorder_closed h F r L hpre
  have hparent := tree_parent_mem h hwf F r L rs hpre hrs hrp
  intro j s1 hs1
  by_cases hjL : j ∈ L
  · -- a left half
    obtain ⟨sz, hsz⟩ := hlive j hjL
    obtain ⟨n1, n2, n3, ⟨bb, n4, n4a, n4b⟩, n5, n6, n7⟩ := hwf j sz hsz
    obtain ⟨_, _, h3, _⟩ := hnode j hjL sz hsz
    obtain ⟨g1a, g2a, g3a⟩ := hgeo j hjL sz hsz
    rw [h3] at hs1
    cases hs1
    obtain ⟨b1, hb1, hb1d⟩ := hblock _ _ n4
    refine ⟨by omega, hc0, by rw [hnb]; exact n3, ⟨b1, hb1, ?_, ?_⟩, ?_, ?_, ?_⟩
    · rw [hb1d]
      simp only [left_half]
      omega
    · rw [hb1d]
      exact n4b
    · intro p hp
      have hp1 : sz.parent = some p := hp
      obtain ⟨n5a, ps, hps, n5b, n5c, n5d, n5e⟩ := n5 p hp1
      have hpL := hparent j hjL sz hsz p hp1
      obtain ⟨_, _, h3p, _⟩ := hnode p hpL ps hps
      refine ⟨n5a, _, h3p, ?_, n5c, n5d, rfl⟩
      simp only [left_half, List.mem_reverse]
      exact n5b
    · simp only [left_half]
      exact List.nodup_reverse.mpr n6
    · intro c hc
      simp only [left_half, List.mem_reverse] at hc
      obtain ⟨sc, hsc, hscp⟩ := n7 c hc
      have hcL := hclosed j hjL sz hsz c hc
      obtain ⟨_, _, h3c, _⟩ := hnode c hcL sc hsc
      exact ⟨_, h3c, hscp⟩
  · by_cases hjn : h.nextSeg ≤ j ∧ j < g1.nextSeg
    · -- a right half
      obtain ⟨z, hzL, hzj⟩ := hsurj j hjn.1 hjn.2
      subst hzj
      obtain ⟨sz, hsz⟩ := hlive z hzL
      obtain ⟨n1, n2, n3, ⟨bb, n4, n4a, n4b⟩, n5, n6, n7⟩ := hwf z sz hsz
      obtain ⟨_, _, _, h4⟩ := hnode z hzL sz hsz
      obtain ⟨g1a, g2a, g3a⟩ := hgeo z hzL sz hsz
      rw [h4] at hs1
      cases hs1
      obtain ⟨b1, hb1, hb1d⟩ := hblock _ _ n4
      refine ⟨hjn.2, ?_, by rw [hnb]; exact n3, ⟨b1, hb1, ?_, ?_⟩, ?_, ?_, ?_⟩
      · simp only [right_half]
        omega
      · rw [hb1d]
        simp only [right_half]
        omega
      · rw [hb1d]
        exact n4b
      · intro p1 hp1
        simp only [right_half, Option.map_eq_some'] at hp1
        obtain ⟨p, hp, rfl⟩ := hp1
        obtain ⟨n5a, ps, hps, n5b, n5c, n5d, n5e⟩ := n5 p hp
        have hpL := hparent z hzL sz hsz p hp
        obtain ⟨_, _, _, h4p⟩ := hnode p hpL ps hps
        refine ⟨hord z hzL sz p hsz hp, _, h4p, ?_, n5c, ?_, ?_⟩
        · simp only [right_half, List.mem_map, List.mem_reverse]
          exact ⟨z, n5b, rfl⟩
        · simp only [right_half]
          omega
        · simp only [right_half]
          omega
      · simp only [right_half]
        apply List.Nodup.map_on
        · intro x hx y hy he
          rw [List.mem_reverse] at hx hy
          exact hinj x (hclosed z hzL sz hsz x hx) y (hclosed z hzL sz hsz y hy) he
        · exact List.nodup_reverse.mpr n6
      · intro c1 hc1m
        simp only [right_half, List.mem_map, List.mem_reverse] at hc1m
        obtain ⟨c, hc, rfl⟩ := hc1m
        obtain ⟨sc, hsc, hscp⟩ := n7 c hc
        have hcL := hclosed z hzL sz hsz c hc
        obtain ⟨_, _, _, h4c⟩ := hnode c hcL sc hsc
        refine ⟨_, h4c, ?_⟩
        simp only [right_half, hscp, Option.map_some']
    · -- an untouched node
      have hsame : g1.segs j = h.segs j := hfr j hjL (by omega)
      rw [hsame] at hs1
      obtain ⟨n1, n2, n3, ⟨bb, n4, n4a, n4b⟩, n5, n6, n7⟩ := hwf j s1 hs1
      obtain ⟨b1, hb1, hb1d⟩ := hblock _ _ n4
      refine ⟨by omega, n2, by rw [hnb]; exact n3, ⟨b1, hb1, by rw [hb1d]; exact n4a,
        by rw [hb1d]; exact n4b⟩, ?_, n6, ?_⟩
      · intro p hp
        obtain ⟨n5a, ps, hps, n5b, n5c, n5d, n5e⟩ := n5 p hp
        have hpL : p ∉ L := fun hh => hjL (hclosed p hh ps hps j n5b)
        refine ⟨n5a, ps, ?_, n5b, n5c, n5d, n5e⟩
        rw [hfr p hpL (by omega)]
        exact hps
      · intro c hc
        obtain ⟨sc, hsc, hscp⟩ := n7 c hc
        have hcL : c ∉ L := fun hh => hjL (hparent c hh sc hsc j hscp)
        have hclt := (hwf c sc hsc).1
        refine ⟨sc, ?_, hscp⟩
        rw [hfr c hcL (Or.inl hclt)]
        exact hsc

theorem split_children_mono (f f1 : Heap → Nat → Option Heap)
    (hff : ∀ hh c r, f hh c = some r → f1 hh c = some r) :
    ∀ (cs : List Nat) (h r : Heap), split_children f cs h = some r →
      split_children f1 cs h = some r
  | [], _, _, he => he
  | c :: cs, h, r, he => by
    simp only [split_children] at he ⊢
    cases hfc : f h c with
    | none =>
      rw [hfc] at he
      cases he
    | some h1 =>
      rw [hfc] at he
      rw [hff h c h1 hfc]
      exact split_children_mono f f1 hff cs h1 r he

theorem split_segment_mono : ∀ (F F1 : Nat) (g : Heap) (y cut : Nat) (lp rp : Option Nat)
    (g1 : Heap), split_segment F g y cut lp rp = some g1 → F ≤ F1 →
    split_segment F1 g y cut lp rp = some g1
  | 0, _, _, _, _, _, _, _, he, _ => by simp [split_segment] at he
  | F + 1, 0, _, _, _, _, _, _, _, hle => by omega
  | F + 1, F1 + 1, g, y, cut, lp, rp, g1, he, hle => by
    simp only [split_segment] at he ⊢
    cases hs : g.segs y with
    | none =>
      rw [hs] at he
      cases he
    | some s =>
      simp only [hs] at he ⊢
      by_cases hc : cut = 0 ∨ cut = s.length
      · simp only [hc, if_true] at he ⊢
        exact he
      · simp only [hc, if_false] at he ⊢
        cases hb : g.blocks s.block with
        | none =>
          rw [hb] at he
          cases he
        | some b =>
          simp only [hb] at he ⊢
          generalize add_child_to_parent _ lp y = r4 at he ⊢
          cases r4 with
          | none => cases he
          | some h4 =>
            simp only at he ⊢
            generalize add_child_to_parent h4 rp g.nextSeg = r5 at he ⊢
            cases r5 with
            | none => cases he
            | some h5 =>
              simp only at he ⊢
              cases h5y : h5.segs y with
              | none =>
                simp only [h5y] at he
                cases he
              | some s5 =>
                cases h5n : h5.segs g.nextSeg with
                | none =>
                  simp only [h5y, h5n] at he
                  cases he
                | some n5 =>
                  simp only [h5y, h5n] at he ⊢
                  exact split_children_mono _ _
                    (fun hh c r hr => split_segment_mono F F1 hh c cut (some y)
                      (some g.nextSeg) r hr (by omega)) _ _ _ he

/-- `recursive_split` on a well-formed heap: with enough fuel it returns a well-formed heap
in which the whole family `L` of `seg` is halved at `cut`; it does nothing when the cut is
at an end of `seg`. -/
theorem recursive_split_spec (h : Heap) (hwf : HeapWF h) (seg cut : Nat) (s : segment)
    (hs : h.segs seg = some s) (hcut : cut ≤ s.length) :
    ∃ N h1 L, (∀ fuel, N ≤ fuel → recursive_split fuel h seg cut = some h1) ∧ HeapWF h1 ∧
      Expands h h1 L cut ∧
      ((cut = 0 ∨ cut = s.length) → h1 = h ∧ L = []) ∧
      (0 < cut → cut < s.length → seg ∈ L) := by
  obtain ⟨r, k, rs, hup, hrs, hrp, hk, hfroot⟩ := find_root_eq h hwf seg seg s hs (Nat.le_refl _)
  obtain ⟨rs1, hrs1, e1, e2, e3⟩ := upk_geometry h hwf k seg r s hs hup
  rw [hrs] at hrs1
  cases hrs1
  by_cases hc : cut = 0 ∨ cut = s.length
  · refine ⟨k + 1, h, [], ?_, hwf, expands_refl h cut, fun _ => ⟨rfl, rfl⟩, ?_⟩
    · intro fuel hfuel
      obtain ⟨f, rfl⟩ : ∃ f, fuel = f + 1 := ⟨fuel - 1, by omega⟩
      simp only [recursive_split, hfroot (f + 1) (by omega)]
      exact split_segment_noop f h r cut rs hrs (by rw [e3]; exact hc) none none
    · intro h1 h2
      omega
  · have hc0 : 0 < cut := by omega
    have hc1 : cut < s.length := by omega
    obtain ⟨F, L, hpre, hnd, _⟩ := tree_exists h hwf (h.nextSeg - r) r rs hrs (Nat.le_refl _)
    obtain ⟨n1, n2, n3, ⟨b, n4, n4a, n4b⟩, n5, n6, n7⟩ := hwf r rs hrs
    have hgeo : ∀ z ∈ L, ∀ sz, h.segs z = some sz →
        sz.block = rs.block ∧ sz.offset = rs.offset ∧ sz.length = rs.length := by
      intro z hz sz hsz
      obtain ⟨kz, hkz⟩ := preorder_up h hwf F r L hpre z hz
      obtain ⟨rs2, hrs2, g1, g2, g3⟩ := upk_geometry h hwf kz z r sz hsz hkz
      rw [hrs] at hrs2
      cases hrs2
      exact ⟨g1.symm, g2.symm, g3.symm⟩
    have hlive := preorder_live h F r L hpre
    have hT : TreePre h L cut b rs.block rs.offset rs.length := by
      refine ⟨hnd, ?_, ?_, n4, hc0, by omega, by omega⟩
      · intro z hz
        obtain ⟨sz, hsz⟩ := hlive z hz
        obtain ⟨g1, g2, g3⟩ := hgeo z hz sz hsz
        exact ⟨sz, hsz, g1, g2, g3, (hwf z sz hsz).1⟩
      · intro z _ sz hsz d hd
        exact (hwf z sz hsz).2.2.2.2.2.2 d hd
    obtain ⟨g1, hg1, hP, hfr, _, _⟩ := split_segment_tree F (max (k + 1) F) h r cut L none none b
      rs.block rs.offset rs.length rs (Nat.le_max_right _ _) hpre hT hrs hrp rfl
      (fun p hp => by cases hp) (fun q hq => by cases hq) (fun p q hp => by cases hp)
    have hfr1 : ∀ j, j ∉ L → (j < h.nextSeg ∨ g1.nextSeg ≤ j) → g1.segs j = h.segs j :=
      fun j hj hb => hfr j hj (by simp) (by simp) hb
    have hwf1 := heapWF_split h g1 hwf F r cut L rs b hpre hrs hrp n4 hc0 (by omega) hgeo hP hfr1
    obtain ⟨hns, htr, hnb, hnt, hbl, hnode, hinj, hsurj, hord⟩ := hP
    refine ⟨max (k + 1) F, g1, L, ?_, hwf1, ⟨htr, hnt, hnb, by omega, ?_, ?_, hinj, ?_⟩,
      fun hh => absurd hh hc, ?_⟩
    · intro fuel hfuel
      have hk1 : k < fuel := by
        have := Nat.le_max_left (k + 1) F
        omega
      simp only [recursive_split, hfroot fuel hk1]
      exact split_segment_mono _ fuel h r cut none none g1 hg1 hfuel
    · intro blk
      rw [hbl]
      by_cases hk : blk = rs.block
      · subst hk
        rw [upd_same, n4]
        rfl
      · rw [upd_other _ _ _ _ hk]
    · intro z hz
      obtain ⟨sz, hsz⟩ := hlive z hz
      obtain ⟨g1a, g2a, g3a⟩ := hgeo z hz sz hsz
      obtain ⟨h1, h2, h3, h4⟩ := hnode z hz sz hsz
      exact ⟨sz, hsz, hc0, by omega, h1, h2, h3, h4⟩
    · intro j hj hjn
      apply hfr1 j hj
      by_cases hlt : j < h.nextSeg
      · exact Or.inl hlt
      · right
        by_contra hcon
        obtain ⟨z, hz, hzj⟩ := hsurj j (by omega) (by omega)
        exact hjn z hz hzj
    · intro _ _
      exact preorder_complete h hwf F r L hpre k seg s hs hup

/-! ### Propagated splits in full -/

/-- `recursive_split` strictly inside a segment of a well-formed heap, in full: the halved
nodes `L` are exactly the live nodes below the root `r` of `seg`, they share the geometry of
`seg`, and the heap after the call is described by `SplitPost`. -/
theorem recursive_split_family (h : Heap) (hwf : HeapWF h) (seg cut : Nat) (s : segment)
    (hs : h.segs seg = some s) (hc0 : 0 < cut) (hc1 : cut < s.length) :
    ∃ N h1 L r rs b, (∀ fuel, N ≤ fuel → recursive_split fuel h seg cut = some h1) ∧
      HeapWF h1 ∧ Expands h h1 L cut ∧ L.Nodup ∧ seg ∈ L ∧
      h.segs r = some rs ∧ rs.parent = none ∧
      (∀ z, z ∈ L ↔ (∃ sz, h.segs z = some sz) ∧ ∃ d, upk h d z = some r) ∧
      (∀ z ∈ L, ∀ sz, h.segs z = some sz →
        sz.block = s.block ∧ sz.offset = s.offset ∧ sz.length = s.length) ∧
      h.blocks s.block = some b ∧ SplitPost h h1 L cut b s.block := by
  obtain ⟨r, k, rs, hup, hrs, hrp, hk, hfroot⟩ := find_root_eq h hwf seg seg s hs (Nat.le_refl _)
  obtain ⟨rs1, hrs1, e1, e2, e3⟩ := upk_geometry h hwf k seg r s hs hup
  rw [hrs] at hrs1
  cases hrs1
  obtain ⟨F, L, hpre, hnd, _⟩ := tree_exists h hwf (h.nextSeg - r) r rs hrs (Nat.le_refl _)
  obtain ⟨n1, n2, n3, ⟨b, n4, n4a, n4b⟩, n5, n6, n7⟩ := hwf r rs hrs
  have hgeo : ∀ z ∈ L, ∀ sz, h.segs z = some sz →
      sz.block = rs.block ∧ sz.offset = rs.offset ∧ sz.length = rs.length := by
    intro z hz sz hsz
    obtain ⟨kz, hkz⟩ := preorder_up h hwf F r L hpre z hz
    obtain ⟨rs2, hrs2, g1, g2, g3⟩ := upk_geometry h hwf kz z r sz hsz hkz
    rw [hrs] at hrs2
    cases hrs2
    exact ⟨g1.symm, g2.symm, g3.symm⟩
  have hlive := preorder_live h F r L hpre
  have hT : TreePre h L cut b rs.block rs.offset rs.length := by
    refine ⟨hnd, ?_, ?_, n4, hc0, by omega, by omega⟩
    · intro z hz
      obtain ⟨sz, hsz⟩ := hlive z hz
      obtain ⟨g1, g2, g3⟩ := hgeo z hz sz hsz
      exact ⟨sz, hsz, g1, g2, g3, (hwf z sz hsz).1⟩
    · intro z _ sz hsz d hd
      exact (hwf z sz hsz).2.2.2.2.2.2 d hd
  obtain ⟨g1, hg1, hP, hfr, _, _⟩ := split_segment_tree F (max (k + 1) F) h r cut L none none b
    rs.block rs.offset rs.length rs (Nat.le_max_right _ _) hpre hT hrs hrp rfl
    (fun p hp => by cases hp) (fun q hq => by cases hq) (fun p q hp => by cases hp)
  have hfr1 : ∀ j, j ∉ L → (j < h.nextSeg ∨ g1.nextSeg ≤ j) → g1.segs j = h.segs j :=
    fun j hj hb => hfr j hj (by simp) (by simp) hb
  have hwf1 := heapWF_split h g1 hwf F r cut L rs b hpre hrs hrp n4 hc0 (by omega) hgeo hP hfr1
  have hP0 := hP
  obtain ⟨hns, htr, hnb, hnt, hbl, hnode, hinj, hsurj, hord⟩ := hP
  refine ⟨max (k + 1) F, g1, L, r, rs, b, ?_, hwf1, ⟨htr, hnt, hnb, by omega, ?_, ?_, hinj, ?_⟩,
    hnd, preorder_complete h hwf F r L hpre k seg s hs hup, hrs, hrp, ?_, ?_, by rw [← e1]; exact n4,
    by rw [← e1]; exact hP0⟩
  · intro fuel hfuel
    have hk1 : k < fuel := by
      have := Nat.le_max_left (k + 1) F
      omega
    simp only [recursive_split, hfroot fuel hk1]
    exact split_segment_mono _ fuel h r cut none none g1 hg1 hfuel
  · intro blk
    rw [hbl]
    by_cases hk : blk = rs.block
    · subst hk
      rw [upd_same, n4]
      rfl
    · rw [upd_other _ _ _ _ hk]
  · intro z hz
    obtain ⟨sz, hsz⟩ := hlive z hz
    obtain ⟨g1a, g2a, g3a⟩ := hgeo z hz sz hsz
    obtain ⟨h1, h2, h3, h4⟩ := hnode z hz sz hsz
    exact ⟨sz, hsz, hc0, by omega, h1, h2, h3, h4⟩
  · intro j hj hjn
    apply hfr1 j hj
    by_cases hlt : j < h.nextSeg
    · exact Or.inl hlt
    · right
      by_contra hcon
      obtain ⟨z, hz, hzj⟩ := hsurj j (by omega) (by omega)
      exact hjn z hz hzj
  · intro z
    constructor
    · intro hz
      exact ⟨hlive z hz, preorder_up h hwf F r L hpre z hz⟩
    · rintro ⟨⟨sz, hsz⟩, d, hd⟩
      exact preorder_complete h hwf F r L hpre d z sz hsz hd
  · intro z hz sz hsz
    obtain ⟨g1a, g2a, g3a⟩ := hgeo z hz sz hsz
    exact ⟨by rw [g1a, e1], by rw [g2a, e2], by rw [g3a, e3]⟩

theorem demo_view_reached :
    (tr_insert 8 demo_pair 0 1 0 1 2).map (fun h => (List.range 6).map h.segs)
      = some ((List.range 6).map demo_view.segs) ∧
    (tr_insert 8 demo_pair 0 1 0 1 2).map (fun h => (List.range 3).map h.blocks)
      = some ((List.range 3).map demo_view.blocks) ∧
    (tr_insert 8 demo_pair 0 1 0 1 2).map (fun h => (List.range 4).map h.tracks)
      = some ((List.range 4).map demo_view.tracks) ∧
    (tr_insert 8 demo_pair 0 1 0 1 2).map (fun h => (h.nextSeg, h.nextBlock, h.nextTrack))
      = some (demo_view.nextSeg, demo_view.nextBlock, demo_view.nextTrack) := by
  decide!

/-- Split propagation on a well-formed heap: for `0 < k < seg.length`, `recursive_split(seg, k)` returns
(with enough fuel), and with `r` the root ancestor of `seg`: every live node `x` that is `r`
or a descendant of `r` is shortened to length `k` and followed by a new node `n` with the
block of `x`, offset `x.offset + k`, the rest of the length and the former successor of `x`;
`x` keeps its children (in reverse order), each child `c` is halved too, its left half stays
under `x` and its new right half is under `n`, whose children are exactly these right
halves; `n` is under the right half of the parent of `x`; every other segment is
untouched. -/
theorem recursive_split_propagates (h : Heap) (hwf : HeapWF h) (seg k : Nat) (s : segment)
    (hs : h.segs seg = some s) (hk0 : 0 < k) (hk1 : k < s.length) :
    ∃ N h1 r rs, (∀ fuel, N ≤ fuel → recursive_split fuel h seg k = some h1) ∧
      (∃ d, upk h d seg = some r) ∧ h.segs r = some rs ∧ rs.parent = none ∧
      (∀ x sx, h.segs x = some sx → (∃ d, upk h d x = some r) →
        ∃ n, h.nextSeg ≤ n ∧ n < h1.nextSeg ∧ sx.length = s.length ∧
          h1.segs x =
            some { sx with length := k, next := some n, children := sx.children.reverse } ∧
          h1.segs n =
            some { sx with offset := sx.offset + k, length := sx.length - k,
                           parent := sx.parent.map (nx h1),
                           children := sx.children.reverse.map (nx h1) } ∧
          ∀ c ∈ sx.children, ∃ sc sr, h1.segs c = some sc ∧ sc.parent = some x ∧
            sc.length = k ∧ sc.next = some (nx h1 c) ∧ h.nextSeg ≤ nx h1 c ∧
            h1.segs (nx h1 c) = some sr ∧ sr.parent = some n) ∧
      (∀ x sx, h.segs x = some sx → (¬ ∃ d, upk h d x = some r) → h1.segs x = some sx) ∧
      (∀ j, h.nextSeg ≤ j → j < h1.nextSeg →
        ∃ x sx, h.segs x = some sx ∧ (∃ d, upk h d x = some r) ∧ nx h1 x = j) := by
  obtain ⟨N, h1, L, r, rs, b, hrun, hwf1, hE, hnd, hseg, hrs, hrp, hL, hgeo, hb, hP⟩ :=
    recursive_split_family h hwf seg k s hs hk0 hk1
  obtain ⟨_, _, _, _, _, hnode, _, hfr⟩ := hE
  obtain ⟨hns, _, _, _, _, _, _, hsurj, _⟩ := hP
  refine ⟨N, h1, r, rs, hrun, ((hL seg).mp hseg).2, hrs, hrp, ?_, ?_, ?_⟩
  · intro x sx hx hd
    have hxL : x ∈ L := (hL x).mpr ⟨⟨sx, hx⟩, hd⟩
    obtain ⟨sz, hsz, _, _, a1, a2, a3, a4⟩ := hnode x hxL
    rw [hx] at hsz
    cases hsz
    refine ⟨nx h1 x, a1, a2, (hgeo x hxL sx hx).2.2, a3, a4, ?_⟩
    intro c hc
    obtain ⟨cs, hcs, hcp⟩ := (hwf x sx hx).2.2.2.2.2.2 c hc
    obtain ⟨d, hd⟩ := hd
    have hcL : c ∈ L := (hL c).mpr ⟨⟨cs, hcs⟩, d + 1, by simp [upk, hcs, hcp, hd]⟩
    obtain ⟨sz, hsz, _, _, c1, c2, c3, c4⟩ := hnode c hcL
    rw [hcs] at hsz
    cases hsz
    exact ⟨_, _, c3, hcp, rfl, rfl, c1, c4, by simp [right_half, hcp]⟩
  · intro x sx hx hd
    have hxL : x ∉ L := fun hxL => hd ((hL x).mp hxL).2
    rw [← hx]
    apply hfr x hxL
    intro z hz hzx
    obtain ⟨sz, _, _, _, a1, _⟩ := hnode z hz
    have := (hwf x sx hx).1
    omega
  · intro j hj1 hj2
    obtain ⟨z, hz, hzj⟩ := hsurj j hj1 hj2
    obtain ⟨⟨sz, hsz⟩, hd⟩ := (hL z).mp hz
    exact ⟨z, sz, hsz, hd, hzj⟩

theorem tr_delete_range_refusal_witness :
    tr_delete_range 8 demo_alias 0 1 2 = some (false, demo_alias) ∧
    (demo_alias = demo_alias ∧ demo_alias.segs = demo_alias.segs ∧
      demo_alias.blocks = demo_alias.blocks ∧ demo_alias.tracks = demo_alias.tracks ∧
      (∀ f t1, tr_length f demo_alias t1 = tr_length f demo_alias t1) ∧
      (∀ f t1, read_all f demo_alias t1 = read_all f demo_alias t1)) ∧
    read_all 8 demo_alias 0 = some [10, 20, 30, 40] :=
  have hyp : tr_delete_range 8 demo_alias 0 1 2 = some (false, demo_alias) :=
    tr_delete_range_of_refused 8 demo_alias 0 1 2 4 ⟨some 0⟩ (by decide!) (by decide!)
      (by decide!)
  ⟨hyp, tr_delete_range_refusal 8 demo_alias demo_alias 0 1 2 hyp, by decide!⟩

theorem tr_read_after_write_witness :
    TrackOK demo_two 0 [0, 1] ∧ 4 ≤ (nodes_cells demo_two [0, 1]).length ∧
    (((nodes_cells demo_two [0, 1]).drop 4).take 5).Nodup ∧
    max (nodes_cells demo_two [0, 1]).length (4 + 5) < SIZE_MOD ∧
    ∃ h1, tr_write 8 demo_two 0 [6, 7, 8, 9, 10] 4 5 = some h1 ∧
      tr_read 8 h1 0 [0, 0, 0, 0, 0, 0] 4 5 = some ([6, 7, 8, 9, 10] ++ [0, 0, 0, 0, 0, 0].drop 5) :=
  ⟨by decide!, by decide!, by decide!, by decide!,
    tr_read_after_write demo_two 0 [0, 1] 8 [6, 7, 8, 9, 10] [0, 0, 0, 0, 0, 0] 4 5 (by decide!)
      (by decide) (by decide!) rfl (by decide) (by decide!) (by decide!)⟩

/-- C6 as stated fails: a write past the end of `[1, 2, 3, 4, 5]` at position 7 is not
read back at position 7, and on a track that aliases itself (`[10, 20, 10, 20]` on two
cells) the write of `[1, 2, 3, 4]` at 0 reads back as `[3, 4, 3, 4]`. -/
theorem tr_read_after_write_counterexample :
    ((tr_write 8 demo_written 0 [7, 8] 7 2).bind
      (fun h1 => tr_read 8 h1 0 [0, 0] 7 2)) = some [0, 0] ∧
    ((tr_write 8 demo_written 0 [7, 8] 7 2).bind
      (fun h1 => tr_read 8 h1 0 [0, 0] 7 2)) ≠ some [7, 8] ∧
    read_all 8 demo_self_alias 0 = some [10, 20, 10, 20] ∧
    ((tr_write 8 demo_self_alias 0 [1, 2, 3, 4] 0 4).bind
      (fun h1 => tr_read 8 h1 0 [0, 0, 0, 0] 0 4)) = some [3, 4, 3, 4] ∧
    ((tr_write 8 demo_self_alias 0 [1, 2, 3, 4] 0 4).bind
      (fun h1 => tr_read 8 h1 0 [0, 0, 0, 0] 0 4)) ≠ some [1, 2, 3, 4] := by
  decide!

/-- C2 at the failing input: on the track `[1, 2, 3, 4, 5]`, `tr_delete_range` with
`pos = 1` and `len = 2 ^ 64 - 1` returns true and removes nothing, where the claim has
`[1]` left; with `len = 4` the same range is removed. -/
theorem tr_delete_range_wraps :
    (tr_delete_range 8 demo_written 0 1 (2 ^ 64 - 1)).map
      (fun r => (r.1, read_all 8 r.2 0, tr_length 8 r.2 0))
      = some (true, some [1, 2, 3, 4, 5], some 5) ∧
    (tr_delete_range 8 demo_written 0 1 4).map
      (fun r => (r.1, read_all 8 r.2 0, tr_length 8 r.2 0)) = some (true, some [1], some 1) := by
  decide!

/-- C3 at the failing input: after `tr_insert(src, dst, 0, 1, 2)` on `[10, 20, 30, 40]` the
range `[1, 3)` of the source is viewed, yet `tr_delete_range(src, 1, 2 ^ 64 - 1)` returns
true, while `tr_delete_range(src, 1, 3)` on the same samples returns false. -/
theorem can_delete_range_wraps :
    (tr_delete_range 8 demo_alias 0 1 (2 ^ 64 - 1)).map (fun r => r.1) = some true ∧
    (tr_delete_range 8 demo_alias 0 1 3).map (fun r => r.1) = some false ∧
    can_delete_range 8 demo_alias 0 1 (2 ^ 64 - 1) = some true := by
  decide!

theorem tr_identify_reference_witness :
    SingleAtZero demo_identify 1 [0, 0, 100, 100, 100, 0, 100, 100, 100] ∧
    SingleAtZero demo_identify 0 [100, 100, 100] ∧
    [(0 : Int), 0, 100, 100, 100, 0, 100, 100, 100].length + [(100 : Int), 100, 100].length
      < SIZE_MOD ∧
    tr_identify 16 demo_identify 1 0 = some "2,4\n6,8" ∧
    (tr_identify 16 demo_identify 1 0 =
        some (identify_reference_double [0, 0, 100, 100, 100, 0, 100, 100, 100]
          [100, 100, 100]) ∧
      (0 < [(100 : Int), 100, 100].length →
        (identify_scan_double [0, 0, 100, 100, 100, 0, 100, 100, 100] [100, 100, 100]
          ([(0 : Int), 0, 100, 100, 100, 0, 100, 100, 100].length + 1) 0).Pairwise
          (fun p q => p.2 < q.1))) :=
  have hyp1 : SingleAtZero demo_identify 1 [0, 0, 100, 100, 100, 0, 100, 100, 100] :=
    Or.inr ⟨1, ⟨0, 9, none, [], none, 1, 0⟩, ⟨9, 1, [0, 0, 100, 100, 100, 0, 100, 100, 100]⟩,
      by decide!, by decide!, rfl, rfl, rfl, by decide!, rfl, by decide⟩
  have hyp2 : SingleAtZero demo_identify 0 [100, 100, 100] :=
    Or.inr ⟨0, ⟨0, 3, none, [], none, 0, 0⟩, ⟨3, 1, [100, 100, 100]⟩,
      by decide!, by decide!, rfl, rfl, rfl, by decide!, rfl, by decide⟩
  ⟨hyp1, hyp2, by decide!, by decide!,
    tr_identify_reference demo_identify 1 0 _ _ 16 hyp1 hyp2 (by decide) (by decide!)⟩

/-- C10 as stated fails: the ad is `[60, 0, 0, 0, 0, 0, 0]` and the target
`[57, 0, 0, 0, 0, 0, 0]`, each written by one `tr_write` at position 0.  With exact
arithmetic the window at 0 matches, its correlation 3420/7 being equal to 0.95 times the
energy 3600/7 of the ad, and the reference of the claim is `0,6`; in `double` arithmetic
the product of 0.95 and the energy is rounded up past the correlation, and `tr_identify`
returns the empty text. -/
theorem tr_identify_rounds :
    read_all 16 demo_round 0 = some [60, 0, 0, 0, 0, 0, 0] ∧
    read_all 16 demo_round 1 = some [57, 0, 0, 0, 0, 0, 0] ∧
    (3420 / 7 : ℚ) ≥ 0.95 * (3600 / 7) ∧
    identify_reference [57, 0, 0, 0, 0, 0, 0] [60, 0, 0, 0, 0, 0, 0] = "0,6" ∧
    round_double (3420 / 7) < round_double (double_0_95 * round_double (3600 / 7)) ∧
    tr_identify 16 demo_round 1 0 = some "" := by
  decide!

/-! ### `tr_identify`, wrapping ranges and `tr_destroy` on concrete heaps -/

/-- C11 at the failing input: the target is one segment at offset 1 reading
`[100, 100, 100]`, the ad reads `[100, 100, 100]`; the reference scan finds the match
`0,2`, and `tr_identify`, which reads the block from its first sample, returns no match. -/
theorem tr_identify_ignores_offset :
    (demo_offset.tracks 1).map (fun t => t.head.bind
      (fun i => (demo_offset.segs i).map (fun s => (s.offset, s.length, s.next))))
      = some (some (1, 3, none)) ∧
    read_all 16 demo_offset 1 = some [100, 100, 100] ∧
    read_all 16 demo_offset 0 = some [100, 100, 100] ∧
    identify_reference [100, 100, 100] [100, 100, 100] = "0,2" ∧
    tr_identify 16 demo_offset 1 0 = some "" := by
  decide!

/-- C13 at the failing input: on the source `[10, 20, 30, 40]` and an empty destination,
`tr_insert` with `srcpos = 1` and `len = 2 ^ 64 - 1` (so `srcpos + len` is past the end of
the source) splits the source and gives the destination the samples `[20, 30, 40]`; with
`len = 0`, with `destpos = 1` and with `srcpos = 3, len = 2` the heap is unchanged. -/
theorem tr_insert_wraps :
    (tr_insert 8 demo_pair 0 1 0 1 (2 ^ 64 - 1)).map
      (fun h => (read_all 8 h 1, tr_length 8 h 1, (h.segs 0).map (fun s => s.length), h.nextSeg))
      = some (some [20, 30, 40], some 3, some 1, 3) ∧
    (tr_length 8 demo_pair 0, tr_length 8 demo_pair 1,
      (demo_pair.segs 0).map (fun s => s.length), demo_pair.nextSeg)
      = (some 4, some 0, some 4, 1) ∧
    (tr_insert 8 demo_pair 0 1 0 1 0).map
      (fun h => (read_all 8 h 1, (h.segs 0).map (fun s => s.length), h.nextSeg))
      = some (some [], some 4, 1) ∧
    (tr_insert 8 demo_pair 0 1 1 1 2).map
      (fun h => (read_all 8 h 1, (h.segs 0).map (fun s => s.length), h.nextSeg))
      = some (some [], some 4, 1) ∧
    (tr_insert 8 demo_pair 0 1 0 3 2).map
      (fun h => (read_all 8 h 1, (h.segs 0).map (fun s => s.length), h.nextSeg))
      = some (some [], some 4, 1) := by
  decide!

/-- C16 at the failing input: in the heap of scenario 3 segment 2 of the source is viewed by
segment 3 of the destination; after `tr_destroy` of the destination segment 3 is freed and
no live segment has parent 2, yet segment 2 keeps view count 1 and the child entry 3. -/
theorem tr_destroy_leaves_view_count :
    ((demo_alias.segs 2).map (fun s => (s.refcount, s.children)), view_count demo_alias 2)
      = (some (1, [3]), 1) ∧
    (tr_destroy 8 demo_alias 1).map
      (fun h => ((h.segs 2).map (fun s => (s.refcount, s.children)), (h.segs 3).isSome,
        view_count h 2)) = some (some (1, [3]), false, 0) := by
  decide!

/-- C18 at the failing input: in the heap of scenario 3 segment 2 of the source has view
count 1 (segment 3 of the destination views it); `tr_destroy` of the source frees it, and
segment 3 stays live with the freed segment as its parent. -/
theorem tr_destroy_frees_viewed :
    (demo_alias.tracks 0).map (fun t => t.head) = some (some 0) ∧
    (demo_alias.segs 0).map (fun s => s.next) = some (some 2) ∧
    (demo_alias.segs 2).map (fun s => s.refcount) = some 1 ∧
    (tr_destroy 8 demo_alias 0).map
      (fun h => ((h.segs 2).isSome, (h.segs 3).map (fun s => s.parent)))
      = some (false, some (some 2)) := by
  decide!

/-- A split strictly inside a segment one of whose children has been freed follows the
`children` list to the freed segment: it returns no heap, whatever the fuel. -/
theorem split_segment_dead_child (h : Heap) (seg cut c : Nat) (s : segment) (cs : List Nat)
    (hs : h.segs seg = some s) (hch : s.children = c :: cs) (hdead : h.segs c = none)
    (hnew : c ≠ h.nextSeg) (hseg : seg ≠ h.nextSeg) (hcut : ¬ (cut = 0 ∨ cut = s.length)) :
    ∀ fuel, split_segment fuel h seg cut none none = none
  | 0 => rfl
  | fuel + 1 => by
    have hcs : c ≠ seg := fun e => by rw [e, hs] at hdead; cases hdead
    simp only [split_segment, hs, hcut, if_false]
    cases hb : h.blocks s.block with
    | none => rfl
    | some b =>
      simp only [add_child_to_parent, setSeg_segs, setBlock_segs, allocSeg_segs, upd_same,
        upd_other _ _ _ _ (Ne.symm hseg), allocSeg_nextSeg, hch, split_children]
      cases fuel with
      | zero => rfl
      | succ fuel =>
        simp only [split_segment, setSeg_segs, setBlock_segs, allocSeg_segs,
          upd_other _ _ _ _ hcs, upd_other _ _ _ _ hnew, hdead]

/-- `recursive_split` strictly inside a root segment one of whose children has been freed
returns no heap, whatever the fuel. -/
theorem recursive_split_dead_child (h : Heap) (seg cut c : Nat) (s : segment) (cs : List Nat)
    (hs : h.segs seg = some s) (hpar : s.parent = none) (hch : s.children = c :: cs)
    (hdead : h.segs c = none) (hnew : c ≠ h.nextSeg) (hseg : seg ≠ h.nextSeg)
    (hcut : ¬ (cut = 0 ∨ cut = s.length)) :
    ∀ fuel, recursive_split fuel h seg cut = none
  | 0 => rfl
  | fuel + 1 => by
    simp only [recursive_split, find_root, hs, hpar]
    exact split_segment_dead_child h seg cut c s cs hs hch hdead hnew hseg hcut (fuel + 1)

/-- A `recursive_split` at the end of a root segment returns the heap as it is. -/
theorem recursive_split_at_end (h : Heap) (seg : Nat) (s : segment)
    (hs : h.segs seg = some s) (hpar : s.parent = none) (fuel : Nat) :
    recursive_split (fuel + 1) h seg s.length = some h := by
  simp only [recursive_split, find_root, hs, hpar, split_segment, or_true, if_true]

/-- A `recursive_split` at offset 0 of a root segment returns the heap as it is. -/
theorem recursive_split_at_zero (h : Heap) (seg : Nat) (s : segment)
    (hs : h.segs seg = some s) (hpar : s.parent = none) (fuel : Nat) :
    recursive_split (fuel + 1) h seg 0 = some h := by
  simp only [recursive_split, find_root, hs, hpar, split_segment, true_or, if_true]

theorem eq_none_of_isSome {α : Type} (o : Option α) (h : o.isSome = false) : o = none := by
  cases o with
  | none => rfl
  | some a => cases h

theorem demo_destroyed_state :
    demo_destroyed.segs 0 = some ⟨0, 1, none, [], some 2, 0, 0⟩ ∧
    demo_destroyed.segs 1 = some ⟨3, 1, none, [], none, 0, 0⟩ ∧
    demo_destroyed.segs 2 = some ⟨1, 2, none, [3], some 1, 0, 1⟩ ∧
    demo_destroyed.segs 3 = none ∧
    demo_destroyed.tracks 0 = some ⟨some 0⟩ ∧ demo_destroyed.tracks 2 = some ⟨none⟩ ∧
    demo_destroyed.nextSeg = 4 ∧ TrackChain demo_destroyed 0 [0, 2, 1] ∧
    (nodes_cells demo_destroyed [0, 2, 1]).length = 4 := by
  decide!

/-- In `demo_destroyed` every call of `tr_insert` from track 0 into track 2 that has to
split segment 2 at 1 returns no heap: the three ranges of the source below. -/
theorem insert_after_destroy_none (fuel : Nat) :
    tr_insert fuel demo_destroyed 0 2 0 1 1 = none ∧
    tr_insert fuel demo_destroyed 0 2 0 2 1 = none ∧
    tr_insert fuel demo_destroyed 0 2 0 2 2 = none := by
  obtain ⟨hs0, hs1, hs2, hs3, ht0, ht2, hns, htc, hlen⟩ := demo_destroyed_state
  have hsplit : ∀ f, recursive_split f demo_destroyed 2 1 = none :=
    recursive_split_dead_child demo_destroyed 2 1 3 _ [] hs2 rfl rfl hs3 (by rw [hns]; decide)
      (by rw [hns]; decide) (by decide)
  match fuel with
  | 0 => exact ⟨eq_none_of_isSome _ (by decide!), eq_none_of_isSome _ (by decide!),
      eq_none_of_isSome _ (by decide!)⟩
  | 1 => exact ⟨eq_none_of_isSome _ (by decide!), eq_none_of_isSome _ (by decide!),
      eq_none_of_isSome _ (by decide!)⟩
  | 2 => exact ⟨eq_none_of_isSome _ (by decide!), eq_none_of_isSome _ (by decide!),
      eq_none_of_isSome _ (by decide!)⟩
  | k + 3 =>
    have hL := tr_length_eq demo_destroyed 0 [0, 2, 1] (k + 3) htc (by simp) (by rw [hlen]; decide)
    rw [hlen] at hL
    have hL2 : tr_length (k + 3) demo_destroyed 2 = some 0 := by
      simp [tr_length, ht2, segment_chain_length]
    have a11 : size_add 1 1 = 2 := by decide
    have a12 : size_add 1 2 = 3 := by decide
    have a22 : size_add 2 2 = 4 := by decide
    have a01 : size_add 0 1 = 1 := by decide
    have a21 : size_add 2 1 = 3 := by decide
    have hend := recursive_split_at_end demo_destroyed 2 _ hs2 rfl (k + 2)
    refine ⟨?_, ?_, ?_⟩
    · simp [tr_insert, hL, hL2, ht0, ht2, extract_segment_slice, extract_segment_slice_loop,
        hs0, hs2, a11, a12, a01, hsplit]
    · simp [tr_insert, hL, hL2, ht0, ht2, extract_segment_slice, extract_segment_slice_loop,
        hs0, hs2, a11, a12, a01, a21, hsplit, hend]
    · simp [tr_insert, hL, hL2, ht0, ht2, extract_segment_slice, extract_segment_slice_loop,
        hs0, hs2, a11, a12, a01, a22, hsplit, hend]

/-- C1 at the failing input: after scenario 3 (`tr_insert(0, 1, 0, 1, 2)` on the track
`[10, 20, 30, 40]`), `tr_destroy(1)` and a `tr_init` that makes track 2, track 0 reads
`[10, 20, 30, 40]`, track 2 is empty and `tr_insert(0, 2, 0, 1, 1)` is within the ranges of
the claim (`n = 1 > 0`, `sp + n = 2 ≤ 4`, `dp = 0 ≤ 0`).  Segment 2 of track 0 still lists
the freed segment 3 among its children, and the call, which splits segment 2 at 1, follows
the list into the freed segment: it returns no heap, whatever the fuel. -/
theorem tr_insert_after_destroy :
    read_all 8 demo_destroyed 0 = some [10, 20, 30, 40] ∧
    tr_length 8 demo_destroyed 0 = some 4 ∧ tr_length 8 demo_destroyed 2 = some 0 ∧
    (demo_destroyed.segs 2).map (fun s => (s.offset, s.length, s.children)) = some (1, 2, [3]) ∧
    (demo_destroyed.segs 3).isSome = false ∧
    ∀ fuel, tr_insert fuel demo_destroyed 0 2 0 1 1 = none :=
  ⟨by decide!, by decide!, by decide!, by decide!, by decide!,
    fun fuel => (insert_after_destroy_none fuel).1⟩

/-- C5 at the failing input: in the heap `demo_destroyed` the distinct tracks 0 and 2 read
`[10, 20, 30, 40]` and nothing, and `tr_insert(0, 2, 0, 2, 1)` is within the ranges of the
claim (`n = 1 > 0`, `sp + n = 3 ≤ 4`, `dp = 0 ≤ 0`); the sample of track 0 at 2 is 30.  The
call splits segment 2 of track 0, which still lists the freed view as its child, and returns
no heap, whatever the fuel, so no read of track 2 follows it. -/
theorem see_through_after_destroy :
    tr_length 8 demo_destroyed 0 = some 4 ∧ tr_length 8 demo_destroyed 2 = some 0 ∧
    tr_read 8 demo_destroyed 0 [0] 2 1 = some [30] ∧
    ∀ fuel, tr_insert fuel demo_destroyed 0 2 0 2 1 = none ∧
      (tr_insert fuel demo_destroyed 0 2 0 2 1).bind (fun h => tr_read fuel h 2 [0] 0 1)
        = none :=
  ⟨by decide!, by decide!, by decide!, fun fuel =>
    ⟨(insert_after_destroy_none fuel).2.1, by rw [(insert_after_destroy_none fuel).2.1]; rfl⟩⟩

/-- C12 at the failing input: in the heap `demo_destroyed` block 0 holds `[10, 20, 30, 40]`
with three segments of track 0 on it, and segment 2 has view count 1 and the child entry 3
although no live segment has it as parent; `tr_insert(0, 2, 0, 2, 2)` is a valid call
(`n = 2 > 0`, `sp + n = 4 ≤ 4`, `dp = 0 ≤ 0`) that has to split segment 2 at 1.  It follows
the child entry into the freed segment 3 and returns no heap, whatever the fuel: no view is
spliced into track 2 and no counter is raised. -/
theorem insert_by_reference_after_destroy :
    tr_length 8 demo_destroyed 0 = some 4 ∧ tr_length 8 demo_destroyed 2 = some 0 ∧
    (demo_destroyed.blocks 0).map (fun b => (b.refcount, b.data))
      = some (3, [10, 20, 30, 40]) ∧
    (demo_destroyed.segs 2).map (fun s => (s.refcount, s.children)) = some (1, [3]) ∧
    view_count demo_destroyed 2 = 0 ∧
    ∀ fuel, tr_insert fuel demo_destroyed 0 2 0 2 2 = none :=
  ⟨by decide!, by decide!, by decide!, by decide!, by decide!,
    fun fuel => (insert_after_destroy_none fuel).2.2⟩

/-- C14 at the failing input: in the heap `demo_destroyed`, reached by `tr_init`,
`tr_write`, `tr_init`, `tr_insert(0, 1, 0, 1, 2)`, `tr_destroy(1)` and `tr_init`, segment 2
is a live root segment of track 0 of length 2 whose `children` list holds the freed segment
3.  `recursive_split(2, 1)`, a cut strictly inside it that `tr_insert(0, 2, 0, 1, 1)`
performs, follows the list into the freed segment and returns no heap, whatever the fuel:
no node is halved. -/
theorem recursive_split_after_destroy :
    TrackChain demo_destroyed 0 [0, 2, 1] ∧
    demo_destroyed.segs 2 = some ⟨1, 2, none, [3], some 1, 0, 1⟩ ∧
    (demo_destroyed.segs 3).isSome = false ∧
    ∀ fuel, recursive_split fuel demo_destroyed 2 1 = none :=
  ⟨by decide!, by decide!, by decide!,
    recursive_split_dead_child demo_destroyed 2 1 3 _ [] demo_destroyed_state.2.2.1 rfl rfl
      demo_destroyed_state.2.2.2.1 (by rw [demo_destroyed_state.2.2.2.2.2.2.1]; decide)
      (by rw [demo_destroyed_state.2.2.2.2.2.2.1]; decide) (by decide)⟩

/-- C15 at the failing input: track 0 holds `[10, 20, 30, 40, 50]`, `tr_insert(0, 1, 0, 1,
3)` makes track 1 a view of `[20, 30, 40]` and `tr_destroy(1)` frees that view.  Segment 2 of
track 0 has length `n = 3` and still lists the freed view as its child; for `a = 1` and
`b = 2` the first of the two splits, `recursive_split(2, 2)`, follows the list into the
freed segment and returns no heap, whatever the fuel, and so does the pair of splits. -/
theorem recursive_split_twice_after_destroy :
    TrackChain demo_destroyed_long 0 [0, 2, 1] ∧
    read_all 8 demo_destroyed_long 0 = some [10, 20, 30, 40, 50] ∧
    demo_destroyed_long.segs 2 = some ⟨1, 3, none, [3], some 1, 0, 1⟩ ∧
    (demo_destroyed_long.segs 3).isSome = false ∧
    ∀ fuel, recursive_split fuel demo_destroyed_long 2 2 = none ∧
      (recursive_split fuel demo_destroyed_long 2 2).bind
        (fun h1 => recursive_split fuel h1 2 1) = none := by
  have hs2 : demo_destroyed_long.segs 2 = some ⟨1, 3, none, [3], some 1, 0, 1⟩ := by decide!
  have hs3 : demo_destroyed_long.segs 3 = none := by decide!
  have hns : demo_destroyed_long.nextSeg = 4 := by decide!
  have hnone : ∀ fuel, recursive_split fuel demo_destroyed_long 2 2 = none :=
    recursive_split_dead_child demo_destroyed_long 2 2 3 _ [] hs2 rfl rfl hs3
      (by rw [hns]; decide) (by rw [hns]; decide) (by decide)
  exact ⟨by decide!, by decide!, hs2, by decide!, fun fuel =>
    ⟨hnone fuel, by rw [hnone fuel]; rfl⟩⟩

/-! ### Sixty-five thousand views of one segment -/

theorem u16_inc_mod (n : Nat) : u16_inc (n % UINT16_MOD) = (n + 1) % UINT16_MOD := by
  simp only [u16_inc, UINT16_MOD]
  omega

theorem u16_dec_mod (n : Nat) : u16_dec ((n + 1) % UINT16_MOD) = n % UINT16_MOD := by
  simp only [u16_dec, UINT16_MOD]
  omega

theorem heap_ext (a b : Heap) (h1 : a.blocks = b.blocks) (h2 : a.segs = b.segs)
    (h3 : a.tracks = b.tracks) (h4 : a.nextBlock = b.nextBlock) (h5 : a.nextSeg = b.nextSeg)
    (h6 : a.nextTrack = b.nextTrack) : a = b := by
  cases a
  cases b
  simp only [Heap.mk.injEq]
  exact ⟨h1, h2, h3, h4, h5, h6⟩

theorem demo_views_seg0 (n : Nat) : (demo_views n).segs 0 =
    some ⟨0, 4, none, (List.range' 1 n).reverse, none, 0, n % UINT16_MOD⟩ := by
  simp [demo_views]

theorem demo_views_seg (n i : Nat) (h1 : 1 ≤ i) (h2 : i ≤ n) :
    (demo_views n).segs i = some ⟨0, 4, some 0, [], view_ptr (i - 1), 0, 0⟩ := by
  have : i ≠ 0 := by omega
  simp [demo_views, this, h2]

theorem demo_views_seg_none (n i : Nat) (h : n < i) : (demo_views n).segs i = none := by
  have h1 : i ≠ 0 := by omega
  have h2 : ¬ i ≤ n := by omega
  simp [demo_views, h1, h2]

theorem demo_views_block (n : Nat) : (demo_views n).blocks 0 =
    some ⟨4, (n + 1) % UINT16_MOD, [10, 20, 30, 40]⟩ := by
  simp [demo_views]

theorem demo_views_track0 (n : Nat) : (demo_views n).tracks 0 = some ⟨some 0⟩ := by
  simp [demo_views, upd]

theorem demo_views_track1 (n : Nat) : (demo_views n).tracks 1 = some ⟨view_ptr n⟩ := by
  simp [demo_views, upd]

/-- The sum that `segment_chain_length` returns on a chain of `k` views of four samples. -/
theorem views_length (h : Heap) : ∀ (k fuel tot : Nat),
    (∀ i, 1 ≤ i → i ≤ k → h.segs i = some ⟨0, 4, some 0, [], view_ptr (i - 1), 0, 0⟩) →
    tot < SIZE_MOD →
    segment_chain_length h fuel (view_ptr k) tot =
      if k ≤ fuel then some ((tot + 4 * k) % SIZE_MOD) else none
  | 0, fuel, tot, _, ht => by
    cases fuel <;> simp [view_ptr, segment_chain_length, Nat.mod_eq_of_lt ht]
  | k + 1, 0, tot, _, _ => by
    simp [view_ptr, segment_chain_length]
  | k + 1, fuel + 1, tot, hv, ht => by
    have hk := hv (k + 1) (by omega) (by omega)
    simp only [view_ptr, Nat.succ_ne_zero, if_false, segment_chain_length, hk,
      Nat.add_sub_cancel]
    have := views_length h k fuel (size_add tot 4) (fun i a b => hv i a (by omega))
      (size_add_lt _ _)
    simp only [view_ptr] at this
    rw [this]
    simp only [Nat.add_le_add_iff_right, size_add, Nat.mod_add_mod]
    congr 3
    omega

theorem demo_views_step (n fuel : Nat) (hf : n + 2 ≤ fuel) :
    tr_insert fuel (demo_views n) 0 1 0 0 4 = some (demo_views (n + 1)) := by
  obtain ⟨f, rfl⟩ : ∃ f, fuel = f + 2 := ⟨fuel - 2, by omega⟩
  have hs0 := demo_views_seg0 n
  have hb := demo_views_block n
  have ht0 := demo_views_track0 n
  have ht1 := demo_views_track1 n
  have hns : (demo_views n).nextSeg = n + 1 := rfl
  have a04 : size_add 0 4 = 4 := by decide
  have hL0 : tr_length (f + 2) (demo_views n) 0 = some 4 := by
    simp [tr_length, ht0, segment_chain_length, hs0, a04]
  have hL1 : tr_length (f + 2) (demo_views n) 1 = some ((0 + 4 * n) % SIZE_MOD) := by
    simp only [tr_length, ht1]
    rw [views_length (demo_views n) n (f + 2) 0 (demo_views_seg n) (by decide),
      if_pos (by omega)]
  have hsp1 : recursive_split (f + 2) (demo_views n) 0 4 = some (demo_views n) :=
    recursive_split_at_end (demo_views n) 0 _ hs0 rfl (f + 1)
  have hsp0 : recursive_split (f + 2) (demo_views n) 0 0 = some (demo_views n) :=
    recursive_split_at_zero (demo_views n) 0 _ hs0 rfl (f + 1)
  have hn0 : n + 1 ≠ 0 := by omega
  have h0n : (0 : Nat) ≠ n + 1 := by omega
  obtain ⟨H8, hH8⟩ : ∃ H8 : Heap, H8 = (((((demo_views n).allocSeg
      ⟨0, 4, none, (List.range' 1 n).reverse, none, 0, n % UINT16_MOD⟩).setSeg 0
      (some ⟨0, 4, none, (n + 1) :: (List.range' 1 n).reverse, none, 0,
        n % UINT16_MOD⟩)).setSeg (n + 1)
      (some ⟨0, 4, some 0, [], none, 0, 0⟩)).setSeg 0
      (some ⟨0, 4, none, (n + 1) :: (List.range' 1 n).reverse, none, 0,
        u16_inc (n % UINT16_MOD)⟩)).setBlock 0
      (some ⟨4, u16_inc ((n + 1) % UINT16_MOD), [10, 20, 30, 40]⟩) := ⟨_, rfl⟩
  have hex : extract_segment_slice (f + 2) (demo_views n) 0 0 4 = some (H8, some (n + 1)) := by
    rw [hH8]
    simp [extract_segment_slice, hL0, ht0, a04, extract_segment_slice_loop, hs0, hsp1, hsp0,
      add_child_to_parent, find_segment_tail, hb, hns, upd, hn0, h0n]
  have h8t1 : H8.tracks 1 = some ⟨view_ptr n⟩ := by
    rw [hH8]
    exact ht1
  have h8v : ∀ i, 1 ≤ i → i ≤ n →
      H8.segs i = some ⟨0, 4, some 0, [], view_ptr (i - 1), 0, 0⟩ := by
    intro i h1 h2
    have e1 : i ≠ 0 := by omega
    have e2 : i ≠ n + 1 := by omega
    rw [hH8]
    simp only [setBlock_segs, setSeg_segs, allocSeg_segs, upd_other _ _ _ _ e1,
      upd_other _ _ _ _ e2, hns]
    exact demo_views_seg n i h1 h2
  have h8new : H8.segs (n + 1) = some ⟨0, 4, some 0, [], none, 0, 0⟩ := by
    rw [hH8]
    simp only [setBlock_segs, setSeg_segs, upd_other _ _ _ _ hn0, upd_same]
  have hL8 : tr_length (f + 2) H8 1 = some ((0 + 4 * n) % SIZE_MOD) := by
    simp only [tr_length, h8t1]
    rw [views_length H8 n (f + 2) 0 h8v (by decide), if_pos (by omega)]
  have hfin : insert_segment_chain (f + 2) H8 1 0 (some (n + 1)) =
      some (true, (H8.setSeg (n + 1) (some ⟨0, 4, some 0, [], view_ptr n, 0, 0⟩)).setTrack 1
        (some ⟨some (n + 1)⟩)) := by
    simp [insert_segment_chain, hL8, h8t1, link_tail, find_segment_tail, h8new]
  have hc1 : ¬ ((4 : Nat) = 0) := by decide
  have hc2 : ¬ (4 > 4 ∨ 0 > (0 + 4 * n) % SIZE_MOD) := by omega
  simp only [tr_insert, hL0, hL1, ht0, ht1, hc1, if_false, a04, hc2, hex, hfin,
    Option.some.injEq]
  rw [hH8]
  apply heap_ext
  · funext k
    simp only [setTrack_blocks, setSeg_blocks, setBlock_blocks, allocSeg_blocks, demo_views]
    by_cases hk : k = 0
    · subst hk
      simp [u16_inc_mod]
    · simp [upd, hk]
  · funext i
    simp only [setTrack_segs, setSeg_segs, setBlock_segs, allocSeg_segs, hns]
    by_cases hi0 : i = 0
    · subst hi0
      simp only [upd_other _ _ _ _ h0n, upd_same, demo_views_seg0, u16_inc_mod]
      rw [List.range'_concat]
      simp [Nat.add_comm]
    · by_cases hin : i = n + 1
      · subst hin
        rw [upd_same, demo_views_seg (n + 1) (n + 1) (by omega) (Nat.le_refl _)]
        simp
      · rw [upd_other _ _ _ _ hin, upd_other _ _ _ _ hi0, upd_other _ _ _ _ hin,
          upd_other _ _ _ _ hi0, upd_other _ _ _ _ hin]
        by_cases hle : i ≤ n
        · rw [demo_views_seg n i (by omega) hle, demo_views_seg (n + 1) i (by omega) (by omega)]
        · rw [demo_views_seg_none n i (by omega), demo_views_seg_none (n + 1) i (by omega)]
  · funext t
    simp only [setTrack_tracks, setSeg_tracks, setBlock_tracks, allocSeg_tracks, demo_views,
      view_ptr]
    by_cases ht : t = 1
    · subst ht
      simp
    · simp [upd, ht]
  · rfl
  · rfl
  · rfl

theorem demo_pair_reached :
    tr_write 8 (tr_init (tr_init Heap.empty).1).1 0 [10, 20, 30, 40] 0 4 = some demo_pair := by
  rfl

theorem demo_views_zero : demo_views 0 = demo_pair := by
  apply heap_ext
  · rfl
  · funext i
    by_cases hi : i = 0
    · subst hi
      rfl
    · simp [demo_views, demo_pair, upd, hi]
  · funext t
    simp only [demo_views, demo_pair, upd, view_ptr]
    by_cases h1 : t = 1
    · subst h1
      rfl
    · by_cases h0 : t = 0
      · subst h0
        rfl
      · simp [h0, h1]
  · rfl
  · rfl
  · rfl

/-- The heap `demo_views n` is the one after `tr_init`, `tr_init`, a `tr_write` of
`[10, 20, 30, 40]` and `n` calls of `tr_insert(0, 1, 0, 0, 4)`. -/
theorem demo_views_reachable : ∀ n : Nat, CallReachable (demo_views n)
  | 0 => by
    rw [demo_views_zero]
    exact Relation.ReflTransGen.tail (Relation.ReflTransGen.tail (Relation.ReflTransGen.tail
      Relation.ReflTransGen.refl (Or.inl rfl)) (Or.inl rfl))
      (Or.inr (Or.inl ⟨_, _, _, _, _, by decide, by decide, demo_pair_reached⟩))
  | n + 1 =>
    Relation.ReflTransGen.tail (demo_views_reachable n)
      (Or.inr (Or.inr (Or.inl ⟨n + 2, 0, 1, 0, 0, 4, by decide, by decide, by decide,
        demo_views_step n (n + 2) (Nat.le_refl _)⟩)))

/-- When the view counter of segment 0 reads 0, `tr_delete_range(0, 0, 4)` returns true on
`demo_views n`: it empties track 0 and frees segment 0 and, the counter of block 0 reading
1, block 0. -/
theorem demo_views_delete (n fuel : Nat) (hf : 2 ≤ fuel) (hn : n % UINT16_MOD = 0) :
    tr_delete_range fuel (demo_views n) 0 0 4 = some (true, demo_views_cut n) := by
  obtain ⟨f, rfl⟩ : ∃ f, fuel = f + 2 := ⟨fuel - 2, by omega⟩
  have hs0 := demo_views_seg0 n
  have hb := demo_views_block n
  have ht0 := demo_views_track0 n
  rw [hn] at hs0
  have hb1 : u16_dec ((n + 1) % UINT16_MOD) = 0 := by rw [u16_dec_mod, hn]
  have a04 : size_add 0 4 = 4 := by decide
  have hL0 : tr_length (f + 2) (demo_views n) 0 = some 4 := by
    simp [tr_length, ht0, segment_chain_length, hs0, a04]
  have hsp1 : recursive_split (f + 2) (demo_views n) 0 4 = some (demo_views n) :=
    recursive_split_at_end (demo_views n) 0 _ hs0 rfl (f + 1)
  have hsp0 : recursive_split (f + 2) (demo_views n) 0 0 = some (demo_views n) :=
    recursive_split_at_zero (demo_views n) 0 _ hs0 rfl (f + 1)
  have hcan : can_delete_range (f + 2) (demo_views n) 0 0 4 = some true := by
    simp [can_delete_range, hL0, ht0, a04, can_delete_range_loop, hs0, can_delete_segment]
  simp [tr_delete_range, hL0, ht0, hcan, a04, tr_delete_range_loop, hs0, hsp1, hsp0,
    advance_prev, remove_child_from_parent, destroy_seg, hb, hb1, demo_views_cut]

theorem demo_views_cut_seg (n i : Nat) (h1 : 1 ≤ i) (h2 : i ≤ n) :
    (demo_views_cut n).segs i = some ⟨0, 4, some 0, [], view_ptr (i - 1), 0, 0⟩ := by
  have e1 : i ≠ 0 := by omega
  simp only [demo_views_cut, setSeg_segs, setBlock_segs, setTrack_segs, upd_other _ _ _ _ e1]
  exact demo_views_seg n i h1 h2

theorem demo_views_cut_track1 (n : Nat) : (demo_views_cut n).tracks 1 = some ⟨view_ptr n⟩ := by
  simp [demo_views_cut, upd, demo_views_track1]

theorem demo_views_cut_block (n : Nat) : (demo_views_cut n).blocks 0 = none := by
  simp [demo_views_cut]

/-- A read of track 1 after the block under its views has been freed reads freed memory:
`tr_read` returns no buffer, whatever the fuel. -/
theorem tr_read_cut (n : Nat) (hn : 0 < n) (hfit : 4 * n < SIZE_MOD) (fuel : Nat)
    (dest : List Int) (len : Nat) (hlen : 0 < len) :
    tr_read fuel (demo_views_cut n) 1 dest 0 len = none := by
  simp only [tr_read, tr_length, demo_views_cut_track1]
  rw [views_length (demo_views_cut n) n fuel 0 (demo_views_cut_seg n) (by decide)]
  by_cases hle : n ≤ fuel
  · obtain ⟨f, rfl⟩ : ∃ f, fuel = f + 1 := ⟨fuel - 1, by omega⟩
    have hm : (0 + 4 * n) % SIZE_MOD = 4 * n := by
      rw [Nat.zero_add, Nat.mod_eq_of_lt hfit]
    have hc : ¬ (0 ≥ 4 * n ∨ len = 0) := by omega
    have hto : (if len < 4 * n - 0 then len else 4 * n - 0) ≠ 0 := by
      split <;> omega
    have hp : view_ptr n = some n := by
      simp [view_ptr, Nat.ne_of_gt hn]
    have a04 : size_add 0 4 = 4 := by decide
    simp only [if_pos hle, hm, hc, if_false, hp, tr_read_loop, hto,
      demo_views_cut_seg n n hn (Nat.le_refl _), a04, Nat.zero_lt_succ, if_true,
      demo_views_cut_block]
  · simp only [if_neg hle]

theorem read_all_cut (n : Nat) (hn : 0 < n) (hfit : 4 * n < SIZE_MOD) (fuel : Nat) :
    read_all fuel (demo_views_cut n) 1 = none := by
  simp only [read_all]
  cases hl : tr_length fuel (demo_views_cut n) 1 with
  | none => rfl
  | some m =>
    have hl0 := hl
    simp only [tr_length, demo_views_cut_track1] at hl0
    rw [views_length (demo_views_cut n) n fuel 0 (demo_views_cut_seg n) (by decide)] at hl0
    by_cases hle : n ≤ fuel
    · simp only [if_pos hle, Option.some.injEq, Nat.zero_add, Nat.mod_eq_of_lt hfit] at hl0
      exact tr_read_cut n hn hfit fuel _ m (by omega)
    · simp [if_neg hle] at hl0

theorem views_chain (h : Heap) : ∀ k : Nat,
    (∀ i, 1 ≤ i → i ≤ k → h.segs i = some ⟨0, 4, some 0, [], view_ptr (i - 1), 0, 0⟩) →
    Chain h (view_ptr k) (List.range' 1 k).reverse ∧
      (nodes_cells h (List.range' 1 k).reverse).length = 4 * k
  | 0, _ => by simp [view_ptr, Chain, ChainTo, nodes_cells]
  | k + 1, hv => by
    have hk := hv (k + 1) (by omega) (by omega)
    obtain ⟨ih1, ih2⟩ := views_chain h k (fun i a b => hv i a (by omega))
    rw [List.range'_concat, List.reverse_append, List.reverse_singleton, List.singleton_append,
      Nat.one_mul, Nat.add_comm 1 k]
    refine ⟨?_, ?_⟩
    · rw [chain_cons]
      exact ⟨by simp [view_ptr], _, hk, by simpa using ih1⟩
    · rw [nodes_cells_cons h _ _ _ hk, List.length_append, seg_cells_length, ih2]
      exact (by omega : 4 + 4 * k = 4 * (k + 1))

/-- Track 1 of `demo_views n` reads back: `4 * n` samples. -/
theorem demo_views_read (n : Nat) (hfit : 4 * n < SIZE_MOD) :
    ∃ v, read_all n (demo_views n) 1 = some v ∧ v.length = 4 * n ∧
      tr_length n (demo_views n) 1 = some (4 * n) := by
  obtain ⟨hc, hl⟩ := views_chain (demo_views n) n (demo_views_seg n)
  have htc : TrackChain (demo_views n) 1 (List.range' 1 n).reverse := by
    refine ⟨⟨_, demo_views_track1 n, hc⟩, ?_⟩
    intro i hi s hs
    rw [List.mem_reverse, List.mem_range'_1] at hi
    rw [demo_views_seg n i hi.1 (by omega)] at hs
    cases hs
    exact ⟨_, demo_views_block n, Nat.le_refl 4⟩
  have hlen : (List.range' 1 n).reverse.length ≤ n := by simp
  refine ⟨_, read_all_eq _ 1 _ n htc hlen (by rw [hl]; exact hfit), ?_, ?_⟩
  · rw [nodes_samples_length, hl]
  · rw [tr_length_eq _ 1 _ n htc hlen (by rw [hl]; exact hfit), hl]

theorem demo_views_users (n : Nat) : block_users (demo_views n) 0 = n + 1 := by
  have hall : ∀ i ∈ List.range (n + 1), uses (demo_views n) 0 i = true := by
    intro i hi
    rw [List.mem_range] at hi
    by_cases h0 : i = 0
    · subst h0
      simp [uses, demo_views_seg0]
    · simp [uses, demo_views_seg n i (by omega) (by omega)]
  show (List.range (n + 1)).countP _ = n + 1
  rw [List.countP_eq_length.mpr hall, List.length_range]

theorem demo_views_cut_users (n : Nat) : block_users (demo_views_cut n) 0 = n := by
  have hnone : (demo_views_cut n).segs 0 = none := by simp [demo_views_cut]
  have hall : ∀ i ∈ List.range' 1 n, uses (demo_views_cut n) 0 i = true := by
    intro i hi
    rw [List.mem_range'_1] at hi
    simp [uses, demo_views_cut_seg n i hi.1 (by omega)]
  show (List.range (n + 1)).countP _ = n
  rw [List.range_succ_eq_map, List.countP_cons, List.countP_map]
  have h0 : uses (demo_views_cut n) 0 0 = false := by simp [uses, hnone]
  rw [h0]
  simp only [Bool.false_eq_true, if_false, Nat.add_zero]
  have : (List.range n).countP (uses (demo_views_cut n) 0 ∘ Nat.succ) = (List.range n).length := by
    apply List.countP_eq_length.mpr
    intro i hi
    rw [List.mem_range] at hi
    exact hall (i + 1) (by rw [List.mem_range'_1]; omega)
  rw [this, List.length_range]

theorem eq_some_getD {α : Type} (o : Option α) (d : α) (h : o.isSome = true) :
    o = some (o.getD d) := by
  cases o with
  | none => cases h
  | some a => rfl

theorem eq_some_pair {α : Type} (o : Option (Bool × α)) (d : Bool × α) (b : Bool)
    (h : o.map (fun r => r.1) = some b) : o = some (b, (o.getD d).2) := by
  cases o with
  | none => cases h
  | some r =>
    obtain ⟨r1, r2⟩ := r
    simp only [Option.map_some', Option.some.injEq] at h
    subst h
    rfl

theorem demo_views_cut_reachable : CallReachable (demo_views_cut 65536) :=
  Relation.ReflTransGen.tail (demo_views_reachable 65536)
    (Or.inr (Or.inr (Or.inr ⟨2, 0, 0, 4, true, by decide, by decide,
      demo_views_delete 65536 2 (Nat.le_refl 2) (by decide)⟩)))

theorem demo_views_cut_length (fuel : Nat) (hf : 65536 ≤ fuel) :
    tr_length fuel (demo_views_cut 65536) 1 = some 262144 := by
  simp only [tr_length, demo_views_cut_track1]
  rw [views_length (demo_views_cut 65536) 65536 fuel 0 (demo_views_cut_seg 65536) (by decide),
    if_pos hf]
  rfl

theorem demo_wrapped_reached :
    tr_write 8 (tr_init Heap.empty).1 0 [1, 2, 3, 4, 5] 0 5 = some demo_written ∧
    tr_delete_range 8 demo_written 0 3 (2 ^ 64 - 1) = some (true, demo_wrapped) :=
  ⟨eq_some_getD _ _ (by decide!), eq_some_pair _ _ true (by decide!)⟩

theorem demo_wrapped_reachable : CallReachable demo_wrapped :=
  Relation.ReflTransGen.tail (Relation.ReflTransGen.tail (Relation.ReflTransGen.tail
    Relation.ReflTransGen.refl (Or.inl rfl))
    (Or.inr (Or.inl ⟨8, 0, [1, 2, 3, 4, 5], 0, 5, by decide, by decide, demo_wrapped_reached.1⟩)))
    (Or.inr (Or.inr (Or.inr ⟨8, 0, 3, 2 ^ 64 - 1, true, by decide, by decide,
      demo_wrapped_reached.2⟩)))

/-- C8 at the failing input: `tr_init`, `tr_init`, `tr_write(0, [10, 20, 30, 40], 0, 4)`,
`65536` calls of `tr_insert(0, 1, 0, 0, 4)` and `tr_delete_range(0, 0, 4)` reach the heap
`demo_views_cut 65536`, in which track 1 is live with length `262144` and every `tr_read`
of one sample or more at position 0 of it reads a block that has been freed: the model
returns no buffer, whatever the fuel, where the claim has the samples of the track
copied. -/
theorem tr_read_freed_block :
    CallReachable (demo_views_cut 65536) ∧
    tr_delete_range 2 (demo_views 65536) 0 0 4 = some (true, demo_views_cut 65536) ∧
    tr_length 65536 (demo_views_cut 65536) 1 = some 262144 ∧
    ∀ fuel dest len, tr_read fuel (demo_views_cut 65536) 1 dest 0 (len + 1) = none :=
  ⟨demo_views_cut_reachable, demo_views_delete 65536 2 (Nat.le_refl 2) (by decide),
    demo_views_cut_length 65536 (Nat.le_refl _),
    fun fuel dest len => tr_read_cut 65536 (by decide) (by decide) fuel dest (len + 1)
      (Nat.succ_pos len)⟩

/-- C17 at the failing input: after `tr_init`, `tr_init`, `tr_write(0, [10, 20, 30, 40], 0,
4)` and `65536` calls of `tr_insert(0, 1, 0, 0, 4)`, the `uint16_t` counter of block 0 reads
1 while `65537` live segments lie on the block; `tr_delete_range(0, 0, 4)` then returns
true and frees the block while `65536` live segments lie on it. -/
theorem block_refcount_wraps :
    CallReachable (demo_views 65536) ∧
    (demo_views 65536).blocks 0 = some ⟨4, 1, [10, 20, 30, 40]⟩ ∧
    block_users (demo_views 65536) 0 = 65537 ∧
    tr_delete_range 2 (demo_views 65536) 0 0 4 = some (true, demo_views_cut 65536) ∧
    (demo_views_cut 65536).blocks 0 = none ∧
    block_users (demo_views_cut 65536) 0 = 65536 :=
  ⟨demo_views_reachable 65536, demo_views_block 65536, demo_views_users 65536,
    demo_views_delete 65536 2 (Nat.le_refl 2) (by decide), demo_views_cut_block 65536,
    demo_views_cut_users 65536⟩

/-- C19 at the failing input: `tr_init`, `tr_init`, `tr_write(0, [10, 20, 30, 40], 0, 4)`,
`65536` calls of `tr_insert(0, 1, 0, 0, 4)`, which wrap the `uint16_t` view counter of
segment 0 to 0, and `tr_delete_range(0, 0, 4)`, which then returns true, reach a heap in
which the first segment of track 1 is live and has segment 0 as its parent, and segment 0
has been freed: the parent has no block, offset or length left to compare. -/
theorem alias_parent_freed :
    CallReachable (demo_views_cut 65536) ∧
    (demo_views 65536).segs 0 =
      some ⟨0, 4, none, (List.range' 1 65536).reverse, none, 0, 0⟩ ∧
    tr_delete_range 2 (demo_views 65536) 0 0 4 = some (true, demo_views_cut 65536) ∧
    (demo_views_cut 65536).tracks 1 = some ⟨some 65536⟩ ∧
    (demo_views_cut 65536).segs 65536 = some ⟨0, 4, some 0, [], some 65535, 0, 0⟩ ∧
    (demo_views_cut 65536).segs 0 = none :=
  ⟨demo_views_cut_reachable, demo_views_seg0 65536,
    demo_views_delete 65536 2 (Nat.le_refl 2) (by decide), demo_views_cut_track1 65536,
    demo_views_cut_seg 65536 65536 (by decide) (Nat.le_refl _), by simp [demo_views_cut]⟩

/-- C21 at the failing input: after `tr_init`, `tr_init`, `tr_write(0, [10, 20, 30, 40], 0,
4)` and `65536` calls of `tr_insert(0, 1, 0, 0, 4)`, track 1 has length `262144` and reads
back; `tr_delete_range(0, 0, 4)` on track 0 returns true and frees the block under the
segments of track 1, after which a read-back of track 1 reads freed memory: the model
returns none, whatever the fuel. -/
theorem delete_disturbs_views :
    CallReachable (demo_views 65536) ∧
    (∃ v, read_all 65536 (demo_views 65536) 1 = some v ∧ v.length = 262144 ∧
      tr_length 65536 (demo_views 65536) 1 = some 262144) ∧
    tr_delete_range 2 (demo_views 65536) 0 0 4 = some (true, demo_views_cut 65536) ∧
    ∀ fuel, read_all fuel (demo_views_cut 65536) 1 = none :=
  ⟨demo_views_reachable 65536, demo_views_read 65536 (by decide),
    demo_views_delete 65536 2 (Nat.le_refl 2) (by decide),
    read_all_cut 65536 (by decide) (by decide)⟩

/-- C22 at two failing inputs.  After `tr_init`, `tr_write(0, [1, 2, 3, 4, 5], 0, 5)` and
`tr_delete_range(0, 3, 2^64 - 1)`, whose `pos + len` wraps to 2, the second segment of
track 0 has offset 3 and length `2^64 - 1` on a block of 5 samples.  After `tr_init`,
`tr_init`, `tr_write(0, [10, 20, 30, 40], 0, 4)`, `65536` calls of `tr_insert(0, 1, 0, 0,
4)` and `tr_delete_range(0, 0, 4)`, the first segment of track 1 lies on a block that has
been freed, and every `tr_read` of one sample or more of track 1 indexes freed memory. -/
theorem segment_on_freed_block :
    (CallReachable demo_wrapped ∧
      tr_delete_range 8 demo_written 0 3 (2 ^ 64 - 1) = some (true, demo_wrapped) ∧
      demo_wrapped.tracks 0 = some ⟨some 0⟩ ∧
      demo_wrapped.segs 0 = some ⟨0, 3, none, [], some 2, 0, 0⟩ ∧
      demo_wrapped.segs 2 = some ⟨3, 2 ^ 64 - 1, none, [], some 1, 0, 0⟩ ∧
      demo_wrapped.blocks 0 = some ⟨5, 3, [1, 2, 3, 4, 5]⟩) ∧
    (CallReachable (demo_views_cut 65536) ∧
      (demo_views_cut 65536).tracks 1 = some ⟨some 65536⟩ ∧
      (demo_views_cut 65536).segs 65536 = some ⟨0, 4, some 0, [], some 65535, 0, 0⟩ ∧
      (demo_views_cut 65536).blocks 0 = none ∧
      ∀ fuel dest len, tr_read fuel (demo_views_cut 65536) 1 dest 0 (len + 1) = none) :=
  ⟨⟨demo_wrapped_reachable, demo_wrapped_reached.2, by decide!, by decide!, by decide!,
      by decide!⟩,
    demo_views_cut_reachable, demo_views_cut_track1 65536,
    demo_views_cut_seg 65536 65536 (by decide) (Nat.le_refl _), demo_views_cut_block 65536,
    fun fuel dest len => tr_read_cut 65536 (by decide) (by decide) fuel dest (len + 1)
      (Nat.succ_pos len)⟩

end SoundSeg
